import Mathlib

/-!
# PageRank loader (`pagerank.h`): a shallow embedding of `init`

The C function `init` reads the thread count from `argv`, then the dampening
factor, the page count, the page names, the edge count and the edges from
`stdin`, and builds the page list handed to the engine.

Conventions of the embedding:

* a C `char` is a `Char` (one `Char` of code below 256 per byte), a C string
  is a `List Char`; `stdin` is a text stream (a `List Char` without NUL
  characters) that the reads consume from the front;
* a run of `init` that saves no config ends in a `Halt`: `exit(1)` after
  `puts msg` is `Except.error (Halt.exit msg)`, written `.error msg`, and the
  process killed by a division by zero is `Except.error Halt.sigfpe`;
* `size_t` values are `Nat` reduced modulo `2 ^ 64`, `int` values are `Int`;
* `malloc` of a `page` yields the next free address of the page store `mem`
  (a `List page`, the address being the position); no allocation fails, that of
  the table of `hcreate` included;
* a chain of `node`s (the page list, an inlinks list) is the `List` of the page
  addresses held by its nodes, head first;
* the `double` read by `%lf` is the text value rounded to the nearest double
  (ties to even), kept as a rational, with the zero of sign `-`, the infinities
  and NaN that `%lf` also yields;
* the C library is glibc on a 64-bit Linux where the C standard leaves a choice
  (`atoi`, the overflow of `%zu`, the texts that `%lf` accepts, the capacity that
  `hcreate` gives the table and its failure for a count above 4294967291, the
  division by the capacity in `hsearch`);
* the loop under `#ifndef __APPLE__` and `hdestroy` release the table and do
  not change the config; `freed_keys` lists the entries that the loop reaches.
-/

namespace PageRank

/-! ## Constants and types -/

def MAX_NAME : Nat := 21
def MAX_LINE : Nat := 100

/-- Number of values of a `size_t` (64-bit). -/
def SIZE_MOD : Nat := 2 ^ 64

/-- Address of a `page` allocated by `malloc`. -/
abbrev Ptr := Nat

/-- The `struct page`: `inlinks` is the chain of nodes, head first. -/
structure page where
  name : List Char
  index : Nat
  noutlinks : Nat
  inlinks : List Ptr
deriving DecidableEq, Repr

/-- Value of a C `double` as produced by `%lf`: `finite q` is the double of
real value `q` (the zero of sign `+` for `q = 0`), `negzero` the zero of sign
`-`, `inf` an infinity and `nan` a NaN. -/
inductive CDouble where
  | finite (q : ℚ)
  | negzero
  | inf (neg : Bool)
  | nan
deriving DecidableEq, Repr

/-- The C comparison `x < 0` on doubles (false on NaN and on both zeros). -/
def CDouble.ltZero : CDouble → Bool
  | .finite q => decide (q < 0)
  | .negzero => false
  | .inf neg => neg
  | .nan => false

/-- The C comparison `x > 1` on doubles (false on NaN). -/
def CDouble.gtOne : CDouble → Bool
  | .finite q => decide (1 < q)
  | .negzero => false
  | .inf neg => !neg
  | .nan => false

/-- The `struct config`, together with the page store its pointers refer to. -/
structure config where
  mem : List page
  list : List Ptr
  npages : Nat
  nedges : Nat
  nthreads : Nat
  dampener : CDouble
deriving DecidableEq, Repr

/-- How a run of `init` ends without saving a config: by `exit(1)` after it has
printed `msg`, or killed by the signal `SIGFPE` of a division by zero. -/
inductive Halt where
  | exit (msg : String)
  | sigfpe
deriving DecidableEq, Repr

/-- A message stands for the `exit(1)` that follows its print. -/
instance : Coe String Halt := ⟨Halt.exit⟩

/-! ## C library: character classes, `fgets`, `atoi`, `sscanf` -/

/-- The `isspace` of the C locale. -/
def isspace (c : Char) : Bool :=
  c = ' ' || c = '\t' || c = '\n' || c = '\x0b' || c = '\x0c' || c = '\r'

def isdigit (c : Char) : Bool := '0' ≤ c && c ≤ '9'

/-- Reads at most `n` characters, stopping after a newline: the line and the rest. -/
def fgets_aux : Nat → List Char → List Char × List Char
  | 0, s => ([], s)
  | _ + 1, [] => ([], [])
  | n + 1, c :: s =>
    if c = '\n' then ([c], s)
    else ((c :: (fgets_aux n s).1), (fgets_aux n s).2)

/-- The call `fgets(line, size, stdin)`: `none` is `NULL` (end of input, nothing
read), otherwise the line read (newline included) and the remaining input. -/
def fgets (size : Nat) (stdin : List Char) : Option (List Char × List Char) :=
  match stdin with
  | [] => none
  | _ :: _ => some (fgets_aux (size - 1) stdin)

/-- Value of a run of decimal digits. -/
def digitsVal (ds : List Char) : Nat :=
  ds.foldl (fun acc c => 10 * acc + (c.toNat - '0'.toNat)) 0

/-- Splits an optional sign off the front: `true` for `-`. -/
def takeSign : List Char → Bool × List Char
  | '-' :: r => (true, r)
  | '+' :: r => (false, r)
  | s => (false, s)

/-- The `strtol` behind `atoi`: optional blanks, optional sign, decimal digits,
saturating at the bounds of `long`. -/
def strtol (s : List Char) : Int :=
  let t := takeSign (s.dropWhile isspace)
  let v : Int := (digitsVal (t.2.takeWhile isdigit) : Nat)
  if t.1 then max (-v) (-(2 ^ 63)) else min v (2 ^ 63 - 1)

/-- The conversion `(int) x` of a `long` (two's complement wrap to 32 bits). -/
def toInt32 (x : Int) : Int :=
  let w := x % 2 ^ 32
  if 2 ^ 31 ≤ w then w - 2 ^ 32 else w

/-- The `atoi` of glibc: `(int) strtol(s, NULL, 10)`. -/
def atoi (s : List Char) : Int := toInt32 (strtol s)

/-- Conversion of an `int` to `size_t`. -/
def toSizeT (x : Int) : Nat := (x % (SIZE_MOD : Int)).toNat

/-- The conversion `%zu` of `sscanf`: optional blanks, optional sign, at least
one decimal digit; the value is that of `strtoul` (negation modulo `2 ^ 64`,
saturation on overflow). `none` when nothing matches. -/
def sscanf_zu (line : List Char) : Option Nat :=
  let t := takeSign (line.dropWhile isspace)
  let ds := t.2.takeWhile isdigit
  if ds = [] then none
  else
    let v := digitsVal ds
    if SIZE_MOD ≤ v then some (SIZE_MOD - 1)
    else if t.1 then some ((SIZE_MOD - v) % SIZE_MOD)
    else some v

/-- The conversion `%<width>s` on the text `s`: skips blanks, then takes at most
`width` non-blank characters; `none` when the text holds no non-blank character.
Returns the token and the unread text. -/
def scan_s (width : Nat) (s : List Char) : Option (List Char × List Char) :=
  let t := s.dropWhile isspace
  let tok := (t.takeWhile (fun c => !isspace c)).take width
  if tok = [] then none else some (tok, t.drop tok.length)

/-- The call `sscanf(line, "%20s", name) == 1`, with the name read. -/
def sscanf_s (line : List Char) : Option (List Char) :=
  (scan_s (MAX_NAME - 1) line).map Prod.fst

/-- The call `sscanf(line, "%20s %20s", p1_name, p2_name) == 2`, with the two
names read. The blank of the format skips any blanks, as `%s` does itself. -/
def sscanf_s_s (line : List Char) : Option (List Char × List Char) :=
  match scan_s (MAX_NAME - 1) line with
  | none => none
  | some (a, r) =>
    match scan_s (MAX_NAME - 1) (r.dropWhile isspace) with
    | none => none
    | some (b, _) => some (a, b)

/-- Case-insensitive test that the text starts with the lower-case word `w`. -/
def startsWithCI (w s : List Char) : Bool :=
  (s.take w.length).map Char.toLower = w && w.length ≤ s.length

def isxdigit (c : Char) : Bool :=
  isdigit c || ('a' ≤ c && c ≤ 'f') || ('A' ≤ c && c ≤ 'F')

/-- Value of one hexadecimal digit. -/
def xdigitVal (c : Char) : Nat :=
  if isdigit c then c.toNat - '0'.toNat
  else if 'a' ≤ c && c ≤ 'f' then c.toNat - 'a'.toNat + 10
  else c.toNat - 'A'.toNat + 10

def xdigitsVal (ds : List Char) : Nat :=
  ds.foldl (fun acc c => 16 * acc + xdigitVal c) 0

/-- An exponent part `<mark>[sign]digits` in front of the text, 0 when there is
none (a mark that no digit follows is not an exponent). -/
def scanExponent (mark : Char) (s : List Char) : Int :=
  match s with
  | [] => 0
  | c :: r =>
    if c.toLower = mark then
      let t := takeSign r
      let ds := t.2.takeWhile isdigit
      if ds = [] then 0
      else if t.1 then -((digitsVal ds : Nat) : Int) else ((digitsVal ds : Nat) : Int)
    else 0

/-- The fraction digits after an optional `.` and the text after them. -/
def scanFraction (dig : Char → Bool) (s : List Char) : List Char × List Char :=
  match s with
  | '.' :: r => (r.takeWhile dig, r.dropWhile dig)
  | _ => ([], s)

/-- What `%lf` reads after the sign: the number `m * base ^ e` written in the
text, an infinity or a NaN. -/
inductive Magnitude where
  | number (m : Nat) (base : Nat) (e : Int)
  | infinity
  | notANumber
deriving DecidableEq, Repr

/-- The unsigned magnitude read by `%lf` after the sign: `inf`, `infinity`,
`nan`, a hexadecimal or a decimal floating constant. After `0x`, a `.` that no
hexadecimal digit surrounds reads as zero, and `0x` alone does not match. -/
def scanMagnitude (s : List Char) : Option Magnitude :=
  if startsWithCI ['i', 'n', 'f'] s then
    if startsWithCI ['i'] (s.drop 3) && !startsWithCI ['i', 'n', 'i', 't', 'y'] (s.drop 3)
    then none else some .infinity
  else if startsWithCI ['n', 'a', 'n'] s then some .notANumber
  else if startsWithCI ['0', 'x'] s then
    let ip := (s.drop 2).takeWhile isxdigit
    let f := scanFraction isxdigit ((s.drop 2).dropWhile isxdigit)
    if ip ++ f.1 = [] then
      if (s.drop 2).head? = some '.' then some (.number 0 2 0) else none
    else
      let e := scanExponent 'p' f.2
      some (.number (xdigitsVal (ip ++ f.1)) 2 (e - 4 * (f.1.length : Int)))
  else
    let ip := s.takeWhile isdigit
    let f := scanFraction isdigit (s.dropWhile isdigit)
    if ip ++ f.1 = [] then none
    else
      let e := scanExponent 'e' f.2
      some (.number (digitsVal (ip ++ f.1)) 10 (e - (f.1.length : Int)))

/-- The position of the leading bit of `n`, with `fuel` halvings allowed. -/
def ilog2_aux : Nat → Nat → Nat
  | 0, _ => 0
  | fuel + 1, n => if n < 2 then 0 else ilog2_aux fuel (n / 2) + 1

/-- The integer part of the binary logarithm of `n > 0`:
`2 ^ ilog2 n ≤ n < 2 ^ (ilog2 n + 1)`. -/
def ilog2 (n : Nat) : Nat := ilog2_aux n n

/-- The test `2 ^ e ≤ num / den`. -/
def pow2_le (e : Int) (num den : Nat) : Bool :=
  if 0 ≤ e then decide (den * 2 ^ e.toNat ≤ num) else decide (den ≤ num * 2 ^ (-e).toNat)

/-- The `double` nearest to `num / den` (for `num > 0`), a tie going to the
even significand; `none` when the rounded value is beyond the largest double
(the result is then an infinity). With `2 ^ e ≤ num / den < 2 ^ (e + 1)`, the
doubles next to `num / den` are the multiples of `2 ^ q`, where
`q = max e (-1022) - 52`: 53 significant bits, and the fixed step `2 ^ (-1074)`
of the subnormal range. -/
def round_double (num den : Nat) : Option ℚ :=
  let e0 : Int := (ilog2 num : Int) - (ilog2 den : Int)
  let e : Int := if pow2_le e0 num den then e0 else e0 - 1
  let q : Int := max e (-1022) - 52
  let n : Nat := if 0 ≤ q then num else num * 2 ^ (-q).toNat
  let d : Nat := if 0 ≤ q then den * 2 ^ q.toNat else den
  let k : Nat := n / d
  let r : Nat := n % d
  let k1 : Nat := if 2 * r < d then k else if d < 2 * r then k + 1 else k + k % 2
  if 0 ≤ q then
    if 2 ^ 1024 ≤ k1 * 2 ^ q.toNat then none else some ((k1 * 2 ^ q.toNat : Nat) : ℚ)
  else some (mkRat k1 (2 ^ (-q).toNat))

/-- The conversion of `strtod` (round to nearest) for the text value
`m * base ^ e`, where `base` is 10 or 2: the value of the nearest `double`,
`none` for an infinity. A value of at least `2 ^ 1100` is beyond every double
and a value below `2 ^ (-1100)` rounds to zero; both cases are told from the
exponent, without computing the power. -/
def strtod_round (m base : Nat) (e : Int) : Option ℚ :=
  if m = 0 then some 0
  else if 1100 < e then none
  else if e < -(1100 + (ilog2 m : Int)) then some 0
  else if 0 ≤ e then round_double (m * base ^ e.toNat) 1
  else round_double m (base ^ (-e).toNat)

/-- The call `sscanf(line, "%lf", &dampener) == 1`, with the `double` stored:
optional blanks, optional sign, then a magnitude, rounded to the nearest
`double`. -/
def sscanf_lf (line : List Char) : Option CDouble :=
  let t := takeSign (line.dropWhile isspace)
  match scanMagnitude t.2 with
  | none => none
  | some .notANumber => some .nan
  | some .infinity => some (.inf t.1)
  | some (.number m base e) =>
    match strtod_round m base e with
    | none => some (.inf t.1)
    | some q =>
      if q = 0 then some (if t.1 then .negzero else .finite 0)
      else some (.finite (if t.1 then -q else q))

/-! ## C library: the `hsearch` table -/

/-- An `ENTRY` of the table: the key and the page stored as data. -/
abbrev ENTRY := List Char × Ptr

/-- The single table of `hcreate`/`hsearch`: its capacity and its entries in
insertion order. The table that no `hcreate` has set up has the capacity 0. -/
structure htab where
  size : Nat
  table : List ENTRY
deriving DecidableEq, Repr

/-- Largest value of an `unsigned int`. -/
def UINT_MAX : Nat := 4294967295

/-- The loop of glibc `isprime` on an odd `number`: trial division by the odd
numbers from `div` on, as long as `div <= number / div`. -/
def isprime_aux : Nat → Nat → Nat → Bool
  | 0, _, _ => true
  | fuel + 1, number, div =>
    if number / div < div then true
    else if number % div = 0 then false
    else isprime_aux fuel number (div + 2)

/-- The glibc test `isprime(number)` that `hcreate` applies to odd numbers. -/
def isprime (number : Nat) : Bool := isprime_aux number number 3

/-- The loop of glibc `hcreate` over the odd numbers from `nel` on: the first
prime, `none` once `UINT_MAX - 2 < nel`. -/
def hcreate_size : Nat → Nat → Option Nat
  | 0, _ => none
  | fuel + 1, nel =>
    if UINT_MAX - 2 < nel then none
    else if isprime nel then some nel
    else hcreate_size fuel (nel + 2)

/-- The largest `nel` for which glibc `hcreate(nel)` finds a capacity: the
largest prime up to `UINT_MAX - 2`. -/
def HCREATE_MAX : Nat := 4294967291

/-- The call `hcreate(nel)` of glibc: an empty table whose capacity is the first
prime from `max nel 3` on (made odd by `nel |= 1`). When there is no such prime
up to `UINT_MAX - 2`, `hcreate` fails and sets up no table; `init` does not test
its result. The `calloc` of the table is taken to succeed, as every allocation
of this embedding. -/
def hcreate (nel : Nat) : htab :=
  let nel3 := max nel 3
  match hcreate_size UINT_MAX (if nel3 % 2 = 0 then nel3 + 1 else nel3) with
  | none => ⟨0, []⟩
  | some size => ⟨size, []⟩

/-- The call `hsearch(e, FIND)` on a table that `hcreate` has set up: the entry
with this key, `none` for `NULL`. -/
def hsearch_FIND (h : htab) (key : List Char) : Option ENTRY :=
  h.table.find? (fun e => decide (e.1 = key))

/-- The call `hsearch(e, ENTER)` on a table that `hcreate` has set up: the entry
already stored under the key when there is one (the table is left as it is),
else `e` once inserted, else `none` (`NULL`) when the table is full. -/
def hsearch_ENTER (h : htab) (e : ENTRY) : Option (ENTRY × htab) :=
  match hsearch_FIND h e.1 with
  | some old => some (old, h)
  | none =>
    if h.table.length < h.size then some (e, ⟨h.size, h.table ++ [e]⟩) else none

/-! ## The loader -/

/-- Applies `f` to the page stored at address `p`. -/
def store : List page → Ptr → (page → page) → List page
  | [], _, _ => []
  | x :: xs, 0, f => f x :: xs
  | x :: xs, p + 1, f => x :: store xs p f

/-- The locals of `init` that the two loops update: the page store, the page
list `head .. tail` and the hash table. -/
structure loader where
  mem : List page
  list : List Ptr
  tab : htab
deriving DecidableEq, Repr

/-- The loop `for (size_t i = 0; i < npages; i++)` that constructs the pages,
with `n` iterations left at counter `i`. Every call of `hsearch` starts by
reducing the hash of the key modulo the capacity of the table: when `hcreate`
has failed the capacity is 0 and this division kills the process. -/
def page_loop : Nat → Nat → loader → List Char → Except Halt (loader × List Char)
  | 0, _, st, stdin => .ok (st, stdin)
  | n + 1, i, st, stdin =>
    match fgets MAX_LINE stdin with
    | none => .error "Unexpected EOF while reading page names"
    | some (line, rest) =>
      match sscanf_s line with
      | none => .error "Unexpected EOF while reading page names"
      | some name =>
        let p : Ptr := st.mem.length
        let mem := st.mem ++ [{ name := name, index := i, noutlinks := 0, inlinks := [] }]
        let list := st.list ++ [p]
        if st.tab.size = 0 then .error Halt.sigfpe
        else
          match hsearch_ENTER st.tab (name, p) with
          | none => .error "Unable to insert into the hash table"
          | some (_, tab) => page_loop n (i + 1) ⟨mem, list, tab⟩ rest

/-- The body of the edge loop once both pages are found: `p1` becomes the head
of the inlinks of `p2`, then the outlinks of `p1` are incremented. -/
def add_edge (mem : List page) (p1 p2 : Ptr) : List page :=
  store (store mem p2 (fun q => { q with inlinks := p1 :: q.inlinks })) p1
    (fun q => { q with noutlinks := (q.noutlinks + 1) % SIZE_MOD })

/-- The loop `for (size_t i = 0; i < nedges; i++)` that constructs the edges,
with `n` iterations left. As in the page loop, a call of `hsearch` on a table of
capacity 0 kills the process. -/
def edge_loop : Nat → htab → List page → List Char → Except Halt (List page)
  | 0, _, mem, _ => .ok mem
  | n + 1, tab, mem, stdin =>
    match fgets MAX_LINE stdin with
    | none => .error "Invalid edge"
    | some (line, rest) =>
      match sscanf_s_s line with
      | none => .error "Invalid edge"
      | some (p1_name, p2_name) =>
        if tab.size = 0 then .error Halt.sigfpe
        else
          match hsearch_FIND tab p1_name with
          | none => .error ("Unable to find page for " ++ String.mk p1_name)
          | some ep1 =>
            match hsearch_FIND tab p2_name with
            | none => .error ("Unable to find page for " ++ String.mk p2_name)
            | some ep2 => edge_loop n tab (add_edge mem ep1.2 ep2.2) rest

/-- The checks of `argc` and of the thread count: the `nthreads` stored. The
assignment `nthreads = atoi(argv[1])` converts the `int` to `size_t`, and the
comparison `< 1` is made on that `size_t`. `argc` is `argv.length`. -/
def read_threads (argv : List (List Char)) : Except Halt Nat :=
  if argv.length ≠ 2 then .error "Usage: pagerank <threads>"
  else
    let nthreads := toSizeT (atoi (argv.getD 1 []))
    if nthreads < 1 then .error "Invalid number of threads" else .ok nthreads

/-- The read of the dampening factor from the next line of input. -/
def read_dampener (stdin : List Char) : Except Halt (CDouble × List Char) :=
  match fgets MAX_LINE stdin with
  | none => .error "Invalid dampening factor"
  | some (line, rest) =>
    match sscanf_lf line with
    | none => .error "Invalid dampening factor"
    | some dampener =>
      if dampener.ltZero || dampener.gtOne then .error "Invalid dampening factor"
      else .ok (dampener, rest)

/-- The read of a count (`%zu`, zero refused) from the next line of input,
failing with `msg`. -/
def read_count (msg : String) (stdin : List Char) : Except Halt (Nat × List Char) :=
  match fgets MAX_LINE stdin with
  | none => .error msg
  | some (line, rest) =>
    match sscanf_zu line with
    | none => .error msg
    | some n => if n = 0 then .error msg else .ok (n, rest)

/-- The read of the number of pages. -/
def read_npages (stdin : List Char) : Except Halt (Nat × List Char) :=
  read_count "Invalid number of pages" stdin

/-- The read of the number of edges. -/
def read_nedges (stdin : List Char) : Except Halt (Nat × List Char) :=
  read_count "Invalid number of edges" stdin

/-- The function `init(conf, argc, argv)` on the input `stdin`: the config it
saves, or the message it prints before `exit(1)`. -/
def init (argv : List (List Char)) (stdin : List Char) : Except Halt config :=
  match read_threads argv with
  | .error msg => .error msg
  | .ok nthreads =>
    match read_dampener stdin with
    | .error msg => .error msg
    | .ok (dampener, s1) =>
      match read_npages s1 with
      | .error msg => .error msg
      | .ok (npages, s2) =>
        match page_loop npages 0 ⟨[], [], hcreate npages⟩ s2 with
        | .error msg => .error msg
        | .ok (st, s3) =>
          match read_nedges s3 with
          | .error msg => .error msg
          | .ok (nedges, s4) =>
            match edge_loop nedges st.tab st.mem s4 with
            | .error msg => .error msg
            | .ok mem =>
              .ok { mem := mem, list := st.list, npages := npages, nedges := nedges,
                    nthreads := nthreads, dampener := dampener }

/-- The part of `init` before the edge loop: the thread, dampener, page count,
page name and edge count checks, with what they leave for the edge loop
(`nthreads`, `dampener`, `npages`, the locals, `nedges`, the input left). -/
def init_checks (argv : List (List Char)) (stdin : List Char) :
    Except Halt (Nat × CDouble × Nat × loader × Nat × List Char) :=
  match read_threads argv with
  | .error msg => .error msg
  | .ok nthreads =>
    match read_dampener stdin with
    | .error msg => .error msg
    | .ok (dampener, s1) =>
      match read_npages s1 with
      | .error msg => .error msg
      | .ok (npages, s2) =>
        match page_loop npages 0 ⟨[], [], hcreate npages⟩ s2 with
        | .error msg => .error msg
        | .ok (st, s3) =>
          match read_nedges s3 with
          | .error msg => .error msg
          | .ok (nedges, s4) => .ok (nthreads, dampener, npages, st, nedges, s4)

/-- The loop under `#ifndef __APPLE__` before `hdestroy`: for each node of the
list, `hsearch(e, FIND)` looks the name of its page up, and the key of the entry
stored under that name is freed. The result lists, in order, the positions in
the table of these entries. A position that occurs twice is an entry that the
loop reaches again after it has freed its key: the second lookup compares the
name with the freed key (a use after free), and the key is freed a second time
if that comparison still finds it equal. -/
def freed_keys (tab : htab) (mem : List page) (list : List Ptr) : List Nat :=
  list.filterMap (fun c =>
    match mem[c]? with
    | none => none
    | some p =>
      match hsearch_FIND tab p.name with
      | none => none
      | some _ => some (tab.table.findIdx (fun e => decide (e.1 = p.name))))

/-- The entries reached by the loop under `#ifndef __APPLE__` in a run of
`init` that passes the checks, in order. -/
def init_freed_keys (argv : List (List Char)) (stdin : List Char) : List Nat :=
  match init_checks argv stdin with
  | .error _ => []
  | .ok r => freed_keys r.2.2.2.1.tab r.2.2.2.1.mem r.2.2.2.1.list

/-! ## Release -/

/-- What a call of `free` releases. A node has no address in this embedding:
a node of an inlinks chain is named by the page that owns the chain and its
position in it, a node of the page list by its position in the list. -/
inductive Freed where
  | inlink_node (owner : Ptr) (k : Nat)
  | page_record (p : Ptr)
  | list_node (k : Nat)
deriving DecidableEq, Repr

/-- The function `release_inlinks(head)` on the chain of the page `owner`, the
cursor being at position `k`: the nodes freed, in order. The loop
`while (cursor)` ends at the end of the chain. -/
def release_inlinks (owner : Ptr) : Nat → List Ptr → List Freed
  | _, [] => []
  | k, _ :: next => Freed.inlink_node owner k :: release_inlinks owner (k + 1) next

/-- The function `release(head)` on the page list, the cursor being at position
`k`: for each node, the inlinks of its page are released, then the page, then
the node. The result lists what is freed, in order. -/
def release (mem : List page) : Nat → List Ptr → List Freed
  | _, [] => []
  | k, c :: next =>
    (match mem[c]? with
      | none => []
      | some p => release_inlinks c 0 p.inlinks)
    ++ Freed.page_record c :: Freed.list_node k :: release mem (k + 1) next

/-- The chain released for the node that holds the page at address `c`. -/
def released_chain (mem : List page) (c : Ptr) : List Freed :=
  match mem[c]? with
  | none => []
  | some p => release_inlinks c 0 p.inlinks

def Freed.isInlinkNode : Freed → Bool
  | .inlink_node _ _ => true
  | _ => false

def Freed.isPageRecord : Freed → Bool
  | .page_record _ => true
  | _ => false

def Freed.isListNode : Freed → Bool
  | .list_node _ => true
  | _ => false

/-! ## Reading the result -/

/-- The pages held by the nodes of `conf->list`, in list order. -/
def config.pages (conf : config) : List page :=
  conf.list.filterMap (fun p => conf.mem[p]?)

/-- The range test `0 <= d <= 1` on a double (false on NaN and infinities). -/
def CDouble.inUnit : CDouble → Prop
  | .finite q => 0 ≤ q ∧ q ≤ 1
  | .negzero => True
  | _ => False

instance (d : CDouble) : Decidable d.inUnit := by
  cases d <;> unfold CDouble.inUnit <;> infer_instance

deriving instance DecidableEq for Except

/-- The next `n` lines of the input, as `fgets(line, MAX_LINE, stdin)` delivers
them (fewer when the input ends before). -/
def read_lines : Nat → List Char → List (List Char)
  | 0, _ => []
  | n + 1, stdin =>
    match fgets MAX_LINE stdin with
    | none => []
    | some (line, rest) => line :: read_lines n rest

/-- The input left once `n` lines have been read by `fgets`. -/
def drop_lines : Nat → List Char → List Char
  | 0, stdin => stdin
  | n + 1, stdin =>
    match fgets MAX_LINE stdin with
    | none => []
    | some (_, rest) => drop_lines n rest

/-- The pages that the page loop allocates for the names read, from counter `i`. -/
def mk_pages : Nat → List (List Char) → List page
  | _, [] => []
  | i, name :: names =>
    { name := name, index := i, noutlinks := 0, inlinks := [] } :: mk_pages (i + 1) names

/-- The table after the entries `es` were entered in turn, the table having
room for them: an entry whose key is already stored is not inserted. -/
def enter_list : List ENTRY → List ENTRY → List ENTRY
  | t, [] => t
  | t, e :: es =>
    enter_list (if (t.find? (fun x => decide (x.1 = e.1))).isSome then t else t ++ [e]) es

/-- The page found for a name by `hsearch(e, FIND)`. -/
def lookup (tab : htab) (name : List Char) : Option Ptr :=
  (hsearch_FIND tab name).map Prod.snd

/-- The page store after the edges `es` (source address, target address) were
added in turn. -/
def apply_edges (mem : List page) (es : List (Ptr × Ptr)) : List page :=
  es.foldl (fun m e => add_edge m e.1 e.2) mem

/-- The page that the table built from the names read yields for a key: the
address of the first page declared with that name. -/
def find_page (names : List (List Char)) (key : List Char) : Option Ptr :=
  ((names.zip (List.range' 0 names.length)).find? (fun x => decide (x.1 = key))).map Prod.snd

/-- The record of a successful run of `init` on `stdin` giving `conf`: the
lines read, the names and name pairs scanned from them, the pages found for the
pairs, and how the config is made of them. -/
structure Trace (stdin : List Char) (conf : config) where
  l1 : List Char
  l2 : List Char
  l3 : List Char
  nameLines : List (List Char)
  edgeLines : List (List Char)
  names : List (List Char)
  pairs : List (List Char × List Char)
  edges : List (Ptr × Ptr)
  lines_eq : read_lines (3 + conf.npages + conf.nedges) stdin
    = l1 :: l2 :: (nameLines ++ l3 :: edgeLines)
  dampener_eq : sscanf_lf l1 = some conf.dampener
  dampener_ge : conf.dampener.ltZero = false
  dampener_le : conf.dampener.gtOne = false
  npages_eq : sscanf_zu l2 = some conf.npages
  npages_pos : 1 ≤ conf.npages
  names_eq : nameLines.map sscanf_s = names.map some
  names_length : names.length = conf.npages
  nedges_eq : sscanf_zu l3 = some conf.nedges
  nedges_pos : 1 ≤ conf.nedges
  nedges_lt : conf.nedges < SIZE_MOD
  pairs_eq : edgeLines.map sscanf_s_s = pairs.map some
  pairs_length : pairs.length = conf.nedges
  edges_eq : pairs.map (fun pr => (find_page names pr.1, find_page names pr.2))
    = edges.map (fun e => (some e.1, some e.2))
  list_eq : conf.list = List.range' 0 conf.npages
  mem_eq : conf.mem = apply_edges (mk_pages 0 names) edges

/-! ## The input as text: lines and names -/

/-- The lines of a text: the runs of characters between newlines (the last one
is what follows the last newline, possibly empty). -/
def splitLines : List Char → List (List Char)
  | [] => [[]]
  | c :: s =>
    if c = '\n' then [] :: splitLines s
    else
      match splitLines s with
      | [] => [[c]]
      | l :: ls => (c :: l) :: ls

/-- The first name on a line: its first run of non-blank characters. -/
def firstToken (l : List Char) : List Char :=
  (l.dropWhile isspace).takeWhile (fun c => !isspace c)

/-- The text of a line after its first name. -/
def afterFirstToken (l : List Char) : List Char :=
  (l.dropWhile isspace).dropWhile (fun c => !isspace c)

/-- The second name on a line: its second run of non-blank characters. -/
def secondToken (l : List Char) : List Char :=
  firstToken (afterFirstToken l)

/-- The name lines of an input that declares `npages` pages: lines 3 to
`2 + npages`. -/
def inputNameLines (stdin : List Char) (npages : Nat) : List (List Char) :=
  ((splitLines stdin).drop 2).take npages

/-- The first `nedges` edge lines of an input that declares `npages` pages:
the lines after the edge count line. -/
def inputEdgeLines (stdin : List Char) (npages nedges : Nat) : List (List Char) :=
  ((splitLines stdin).drop (3 + npages)).take nedges

/-- Each of the first `n` lines is shorter than `MAX_LINE` characters, its
newline not counted. -/
def ShortLines (stdin : List Char) (n : Nat) : Prop :=
  ∀ l ∈ (splitLines stdin).take n, l.length < MAX_LINE

instance (stdin : List Char) (n : Nat) : Decidable (ShortLines stdin n) := by
  unfold ShortLines; infer_instance

/-- Each of the first `n` lines, its newline included, is shorter than
`MAX_LINE` characters: it fits the buffer of `fgets`. -/
def FitLines (stdin : List Char) (n : Nat) : Prop :=
  ∀ l ∈ (splitLines stdin).take n, l.length + 1 < MAX_LINE

instance (stdin : List Char) (n : Nat) : Decidable (FitLines stdin n) := by
  unfold FitLines; infer_instance

/-- The declared page names are pairwise distinct and have at most
`MAX_NAME - 1` characters. -/
def DeclaredNames (stdin : List Char) (npages : Nat) : Prop :=
  ((inputNameLines stdin npages).map firstToken).Nodup ∧
  ∀ l ∈ inputNameLines stdin npages, (firstToken l).length ≤ MAX_NAME - 1

instance (stdin : List Char) (n : Nat) : Decidable (DeclaredNames stdin n) := by
  unfold DeclaredNames; infer_instance

/-- The first name of every edge line has at most `MAX_NAME - 1` characters. -/
def EdgeSources (stdin : List Char) (npages nedges : Nat) : Prop :=
  ∀ l ∈ inputEdgeLines stdin npages nedges, (firstToken l).length ≤ MAX_NAME - 1

instance (stdin : List Char) (n m : Nat) : Decidable (EdgeSources stdin n m) := by
  unfold EdgeSources; infer_instance

/-- The second name of every edge line has at most `MAX_NAME - 1` characters. -/
def EdgeTargets (stdin : List Char) (npages nedges : Nat) : Prop :=
  ∀ l ∈ inputEdgeLines stdin npages nedges, (secondToken l).length ≤ MAX_NAME - 1

instance (stdin : List Char) (n m : Nat) : Decidable (EdgeTargets stdin n m) := by
  unfold EdgeTargets; infer_instance

/-- The two names of an edge line as `init` reads them when the first name has
at most 20 characters. -/
def edgeNames (l : List Char) : List Char × List Char :=
  (firstToken l, (secondToken l).take (MAX_NAME - 1))

/-- The statement of the outlink count: every page of the list has as many
outlinks as there are edge lines whose first name is its name. -/
def OutlinkCount (stdin : List Char) (conf : config) : Prop :=
  ∀ p ∈ conf.pages, p.noutlinks
    = (inputEdgeLines stdin conf.npages conf.nedges).countP
        (fun l => decide (firstToken l = p.name))

instance (stdin : List Char) (conf : config) : Decidable (OutlinkCount stdin conf) := by
  unfold OutlinkCount; infer_instance

/-- The name of the page stored at an address. -/
def config.nameOf (conf : config) (a : Ptr) : Option (List Char) :=
  (conf.mem[a]?).map (fun p => p.name)

/-- The statement of the inlink lists: the inlinks of every page of the list
are, by name, the first names of the edge lines whose second name is the name
of the page, last line first. -/
def InlinkLists (stdin : List Char) (conf : config) : Prop :=
  ∀ p ∈ conf.pages, p.inlinks.map conf.nameOf
    = (((inputEdgeLines stdin conf.npages conf.nedges).filter
        (fun l => decide (secondToken l = p.name))).map (fun l => some (firstToken l))).reverse

instance (stdin : List Char) (conf : config) : Decidable (InlinkLists stdin conf) := by
  unfold InlinkLists; infer_instance

/-- The stored names as the text gives them: the name of the `k`-th page of the
list is the first name of the `k`-th name line, cut to 20 characters. -/
def StoredNames (stdin : List Char) (conf : config) : Prop :=
  conf.pages.map (fun p => p.name)
    = (inputNameLines stdin conf.npages).map (fun l => (firstToken l).take (MAX_NAME - 1))

instance (stdin : List Char) (conf : config) : Decidable (StoredNames stdin conf) := by
  unfold StoredNames; infer_instance

/-- The page names that the name lines declare. -/
def declaredNames (stdin : List Char) (npages : Nat) : List (List Char) :=
  (inputNameLines stdin npages).map firstToken

/-- The line names, as source or as target, a page that is not declared. -/
def NamesUndeclared (stdin : List Char) (npages : Nat) (l : List Char) : Prop :=
  (firstToken l ≠ [] ∧ firstToken l ∉ declaredNames stdin npages) ∨
  (secondToken l ≠ [] ∧ secondToken l ∉ declaredNames stdin npages)

instance (stdin : List Char) (n : Nat) (l : List Char) :
    Decidable (NamesUndeclared stdin n l) := by
  unfold NamesUndeclared; infer_instance

/-- Every name, on the name lines and on the edge lines, has at most
`MAX_NAME - 1` characters. -/
def ShortNames (stdin : List Char) (npages nedges : Nat) : Prop :=
  (∀ l ∈ inputNameLines stdin npages, (firstToken l).length ≤ MAX_NAME - 1) ∧
  EdgeSources stdin npages nedges ∧ EdgeTargets stdin npages nedges

instance (stdin : List Char) (n m : Nat) : Decidable (ShortNames stdin n m) := by
  unfold ShortNames; infer_instance

/-- The name that the message "Unable to find page for" prints on an edge line
with an undeclared name: the first name when it is not declared, else the
second. -/
def firstUndeclared (stdin : List Char) (npages : Nat) (l : List Char) : List Char :=
  if firstToken l ∈ declaredNames stdin npages then secondToken l else firstToken l

/-! ## The acceptance of an input, check by check -/

/-- The input holds no NUL character. -/
def NoNul (stdin : List Char) : Prop := ∀ c ∈ stdin, c ≠ Char.ofNat 0

instance (stdin : List Char) : Decidable (NoNul stdin) := by
  unfold NoNul
  infer_instance

/-- The message printed by a run: `none` for a success, and for a run that a
signal ends. -/
def message_of {α : Type} : Except Halt α → Option String
  | .ok _ => none
  | .error (.exit msg) => some msg
  | .error .sigfpe => none

/-- The message printed by a run of `init`: `none` when it prints none. -/
def init_message (argv : List (List Char)) (stdin : List Char) : Option String :=
  message_of (init argv stdin)

/-- All the lines of the input, as `fgets(line, MAX_LINE, stdin)` delivers them
one after the other until the end of the input. -/
def all_lines (stdin : List Char) : List (List Char) :=
  read_lines stdin.length stdin

/-- The line parses to a real number in `[0, 1]`: `%lf` reads on it a double
that is neither an infinity nor NaN, of value in `[0, 1]`. -/
def realInUnit (line : List Char) : Bool :=
  match sscanf_lf line with
  | some (.finite q) => decide (0 ≤ q ∧ q ≤ 1)
  | some .negzero => true
  | _ => false

/-- The two names of an edge line read as its first two tokens, each cut to
20 characters; `none` when the line holds fewer than two tokens. -/
def twoTokensCut (l : List Char) : Option (List Char × List Char) :=
  if firstToken l = [] ∨ secondToken l = [] then none
  else some ((firstToken l).take (MAX_NAME - 1), (secondToken l).take (MAX_NAME - 1))

/-- The two names of an edge line read as its first token cut to 20 characters
and the first token of what follows these characters (the end of the first
token when it has more than 20 characters, else the second token), cut to 20
characters; `none` when one of them is missing. -/
def splitNames (l : List Char) : Option (List Char × List Char) :=
  if firstToken l = [] then none
  else
    let a := (firstToken l).take (MAX_NAME - 1)
    let after := (l.dropWhile isspace).drop a.length
    if firstToken after = [] then none
    else some (a, (firstToken after).take (MAX_NAME - 1))

/-- The check of the next `n` edge lines, in order: each one exists, holds two
names (read by `names_of`), and both are declared; the first failure gives the
message. -/
def edges_message (names_of : List Char → Option (List Char × List Char))
    (declared : List (List Char)) : Nat → List (List Char) → Option String
  | 0, _ => none
  | _ + 1, [] => some "Invalid edge"
  | n + 1, l :: ls =>
    match names_of l with
    | none => some "Invalid edge"
    | some (a, b) =>
      if a ∉ declared then some ("Unable to find page for " ++ String.mk a)
      else if b ∉ declared then some ("Unable to find page for " ++ String.mk b)
      else edges_message names_of declared n ls

/-- The checks on the lines of the input, in order, with the message of the
first one that fails (`none` when all pass): line 1 parses to a real in
`[0, 1]`; line 2 parses to a page count of at least 1; each of the next
`npages` lines exists and holds a token; the following line parses to an edge
count of at least 1; each of the next `nedges` lines exists and holds two
declared names. -/
def lines_message (names_of : List Char → Option (List Char × List Char)) :
    List (List Char) → Option String
  | [] => some "Invalid dampening factor"
  | l1 :: rest1 =>
    if realInUnit l1 = false then some "Invalid dampening factor"
    else
      match rest1 with
      | [] => some "Invalid number of pages"
      | l2 :: rest2 =>
        match sscanf_zu l2 with
        | none => some "Invalid number of pages"
        | some npages =>
          if npages = 0 then some "Invalid number of pages"
          else if ¬ ((rest2.take npages).length = npages ∧
              ∀ l ∈ rest2.take npages, firstToken l ≠ []) then
            some "Unexpected EOF while reading page names"
          else
            match rest2.drop npages with
            | [] => some "Invalid number of edges"
            | l3 :: rest3 =>
              match sscanf_zu l3 with
              | none => some "Invalid number of edges"
              | some nedges =>
                if nedges = 0 then some "Invalid number of edges"
                else
                  edges_message names_of
                    ((rest2.take npages).map (fun l => (firstToken l).take (MAX_NAME - 1)))
                    nedges rest3

/-- The acceptance of a run, check by check: `argc = 2`, then the thread
argument converted to `size_t` is not zero, then the checks on the lines of the
input. The message is that of the first check that fails, `none` when the run
is accepted. -/
def acceptance_message (names_of : List Char → Option (List Char × List Char))
    (argv : List (List Char)) (stdin : List Char) : Option String :=
  if argv.length ≠ 2 then some "Usage: pagerank <threads>"
  else if toSizeT (atoi (argv.getD 1 [])) = 0 then some "Invalid number of threads"
  else lines_message names_of (all_lines stdin)

/-! ## Sample runs -/

/-- The command line `pagerank 2`. -/
def sample_argv : List (List Char) := ["pagerank".toList, "2".toList]

/-- The three pages A, B, C with the edges A->C and B->C. -/
def sample_stdin : List Char := "0.85\n3\nA\nB\nC\n2\nA C\nB C\n".toList

/-- The config that `init` saves for `sample_argv` and `sample_stdin`. -/
def sample_conf : config :=
  { mem := [{ name := ['A'], index := 0, noutlinks := 1, inlinks := [] },
            { name := ['B'], index := 1, noutlinks := 1, inlinks := [] },
            { name := ['C'], index := 2, noutlinks := 0, inlinks := [1, 0] }],
    list := [0, 1, 2], npages := 3, nedges := 2, nthreads := 2,
    dampener := .finite (mkRat 7656119366529843 9007199254740992) }

/-- An input that declares the page name A on two name lines. -/
def twice_stdin : List Char := "0.85\n2\nA\nA\n1\nA A\n".toList

/-- The config that `init` saves for `sample_argv` and `twice_stdin`. -/
def twice_conf : config :=
  { mem := [{ name := ['A'], index := 0, noutlinks := 1, inlinks := [0] },
            { name := ['A'], index := 1, noutlinks := 0, inlinks := [] }],
    list := [0, 1], npages := 2, nedges := 1, nthreads := 2,
    dampener := .finite (mkRat 7656119366529843 9007199254740992) }

/-- The sample input with `nan` as its dampening factor. -/
def nan_stdin : List Char := "nan\n3\nA\nB\nC\n2\nA C\nB C\n".toList

/-- An input whose edge line starts with a name of 21 characters: the declared
name of 20 characters followed by `B`. -/
def long_source_stdin : List Char :=
  "0.85\n3\nAAAAAAAAAAAAAAAAAAAA\nB\nC\n1\nAAAAAAAAAAAAAAAAAAAAB C\n".toList

/-- The config that `init` saves for `sample_argv` and `long_source_stdin`. -/
def long_source_conf : config :=
  { mem := [{ name := "AAAAAAAAAAAAAAAAAAAA".toList, index := 0, noutlinks := 1, inlinks := [] },
            { name := ['B'], index := 1, noutlinks := 0, inlinks := [0] },
            { name := ['C'], index := 2, noutlinks := 0, inlinks := [] }],
    list := [0, 1, 2], npages := 3, nedges := 1, nthreads := 2,
    dampener := .finite (mkRat 7656119366529843 9007199254740992) }

/-- An input whose edge line `XXXXXXXXXXXXXXXXXXXXY Z` starts with a name of 21
characters. -/
def split_source_stdin : List Char :=
  "1\n3\nXXXXXXXXXXXXXXXXXXXX\nY\nZ\n1\nXXXXXXXXXXXXXXXXXXXXY Z\n".toList

/-- The config that `init` saves for `sample_argv` and `split_source_stdin`. -/
def split_source_conf : config :=
  { mem := [{ name := "XXXXXXXXXXXXXXXXXXXX".toList, index := 0, noutlinks := 1, inlinks := [] },
            { name := ['Y'], index := 1, noutlinks := 0, inlinks := [0] },
            { name := ['Z'], index := 2, noutlinks := 0, inlinks := [] }],
    list := [0, 1, 2], npages := 3, nedges := 1, nthreads := 2,
    dampener := .finite 1 }

/-- An input whose edge line `XXXXXXXXXXXXXXXXXXXXY Q` names two pages that are
not declared: its first name of 21 characters, and `Q`. -/
def undeclared_stdin : List Char :=
  "1\n2\nXXXXXXXXXXXXXXXXXXXX\nY\n1\nXXXXXXXXXXXXXXXXXXXXY Q\n".toList

/-- The config that `init` saves for `sample_argv` and `undeclared_stdin`. -/
def undeclared_conf : config :=
  { mem := [{ name := "XXXXXXXXXXXXXXXXXXXX".toList, index := 0, noutlinks := 1, inlinks := [] },
            { name := ['Y'], index := 1, noutlinks := 0, inlinks := [0] }],
    list := [0, 1], npages := 2, nedges := 1, nthreads := 2,
    dampener := .finite 1 }

/-- An input whose first edge line holds one name only and whose second edge
line names the undeclared page `Z`. -/
def one_name_stdin : List Char := "1\n1\nA\n2\nA\nA Z\n".toList

/-- An input whose second edge line names the undeclared page `D`. -/
def unknown_stdin : List Char := "0.85\n3\nA\nB\nC\n2\nA C\nB D\n".toList

/-- The page count and edge count with which an input passes the checks made
before the edge loop, `none` when it does not pass them. -/
def checked_counts (argv : List (List Char)) (stdin : List Char) : Option (Nat × Nat) :=
  match init_checks argv stdin with
  | .error _ => none
  | .ok r => some (r.2.2.1, r.2.2.2.2.1)

/-- An input that declares two names of 21 characters that agree on their
first 20 characters. -/
def truncated_stdin : List Char :=
  "1\n2\nXXXXXXXXXXXXXXXXXXXXA\nXXXXXXXXXXXXXXXXXXXXB\n1\nXXXXXXXXXXXXXXXXXXXX XXXXXXXXXXXXXXXXXXXX\n".toList

/-- The config that `init` saves for `sample_argv` and `truncated_stdin`. -/
def truncated_conf : config :=
  { mem := [{ name := "XXXXXXXXXXXXXXXXXXXX".toList, index := 0, noutlinks := 1, inlinks := [0] },
            { name := "XXXXXXXXXXXXXXXXXXXX".toList, index := 1, noutlinks := 0, inlinks := [] }],
    list := [0, 1], npages := 2, nedges := 1, nthreads := 2,
    dampener := .finite 1 }

/-- An input whose edge line `XXXXXXXXXXXXXXXXXXXXQ Z` has two tokens that, cut
to 20 characters, are declared names. -/
def cut_tokens_stdin : List Char :=
  "1\n2\nXXXXXXXXXXXXXXXXXXXX\nZ\n1\nXXXXXXXXXXXXXXXXXXXXQ Z\n".toList

/-- The sample input followed by lines that `init` does not read. -/
def sample_more_stdin : List Char :=
  "0.85\n3\nA\nB\nC\n2\nA C\nB C\nC A\nnot an edge".toList

/-- An input whose first name line holds 98 blanks before the name `ABC`: the
line has 101 characters and is read in two parts. -/
def blank_name_stdin : List Char :=
  "1\n2\n".toList ++ List.replicate 98 ' ' ++ "ABC\n1\nA BC\n".toList

/-- The config that `init` saves for `sample_argv` and `blank_name_stdin`. -/
def blank_name_conf : config :=
  { mem := [{ name := ['A'], index := 0, noutlinks := 1, inlinks := [] },
            { name := ['B', 'C'], index := 1, noutlinks := 0, inlinks := [0] }],
    list := [0, 1], npages := 2, nedges := 1, nthreads := 2,
    dampener := .finite 1 }

/-! ## The page store -/

theorem store_length (mem : List page) (p : Ptr) (f : page → page) :
    (store mem p f).length = mem.length := by
  induction mem generalizing p with
  | nil => rfl
  | cons x xs ih => cases p <;> simp [store, ih]

theorem store_get?_same (mem : List page) (p : Ptr) (f : page → page) :
    (store mem p f)[p]? = (mem[p]?).map f := by
  induction mem generalizing p with
  | nil => simp [store]
  | cons x xs ih =>
    cases p with
    | zero => simp [store]
    | succ p => simpa [store] using ih p

theorem store_get?_other (mem : List page) (p q : Ptr) (f : page → page) (h : q ≠ p) :
    (store mem p f)[q]? = mem[q]? := by
  induction mem generalizing p q with
  | nil => simp [store]
  | cons x xs ih =>
    cases p with
    | zero =>
      cases q with
      | zero => exact absurd rfl h
      | succ q => simp [store]
    | succ p =>
      cases q with
      | zero => simp [store]
      | succ q =>
        simpa [store] using ih p q (fun hq => h (by rw [hq]))

theorem add_edge_length (mem : List page) (p1 p2 : Ptr) :
    (add_edge mem p1 p2).length = mem.length := by
  simp [add_edge, store_length]

/-- Effect of one edge on the page stored at `p`. -/
theorem add_edge_get? (mem : List page) (p1 p2 p : Ptr) :
    (add_edge mem p1 p2)[p]? = (mem[p]?).map (fun q =>
      { name := q.name, index := q.index,
        noutlinks := if p = p1 then (q.noutlinks + 1) % SIZE_MOD else q.noutlinks,
        inlinks := if p = p2 then p1 :: q.inlinks else q.inlinks }) := by
  unfold add_edge
  by_cases h1 : p = p1
  · subst h1
    rw [store_get?_same]
    by_cases h2 : p = p2
    · subst h2
      rw [store_get?_same]
      cases mem[p]? <;> simp
    · rw [store_get?_other _ _ _ _ h2]
      cases mem[p]? <;> simp [h2]
  · rw [store_get?_other _ _ _ _ h1]
    by_cases h2 : p = p2
    · subst h2
      rw [store_get?_same]
      cases mem[p]? <;> simp [h1]
    · rw [store_get?_other _ _ _ _ h2]
      cases hq : mem[p]? <;> simp [h1, h2]

theorem apply_edges_length (mem : List page) (es : List (Ptr × Ptr)) :
    (apply_edges mem es).length = mem.length := by
  induction es generalizing mem with
  | nil => rfl
  | cons e es ih =>
    simp only [apply_edges, List.foldl_cons] at ih ⊢
    rw [ih, add_edge_length]

theorem SIZE_MOD_eq : SIZE_MOD = 18446744073709551616 := by decide

/-- The page stored at `p` once the edges `es` are added: name and index are
kept, the inlinks gain the sources of the edges into `p`, last edge first, and
the outlinks count the edges out of `p` modulo `2 ^ 64`. -/
theorem apply_edges_get? (es : List (Ptr × Ptr)) (mem : List page) (p : Ptr) (q : page)
    (hq : mem[p]? = some q) (hlt : q.noutlinks < SIZE_MOD) :
    (apply_edges mem es)[p]? = some
      { name := q.name, index := q.index,
        noutlinks := (q.noutlinks + es.countP (fun e => decide (e.1 = p))) % SIZE_MOD,
        inlinks := ((es.filter (fun e => decide (e.2 = p))).map Prod.fst).reverse
          ++ q.inlinks } := by
  induction es generalizing mem q with
  | nil =>
    simp [apply_edges, hq, Nat.mod_eq_of_lt hlt]
  | cons e es ih =>
    have hstep := add_edge_get? mem e.1 e.2 p
    rw [hq] at hstep
    simp only [Option.map_some'] at hstep
    have hlt2 : (if p = e.1 then (q.noutlinks + 1) % SIZE_MOD else q.noutlinks) < SIZE_MOD := by
      split
      · exact Nat.mod_lt _ (by rw [SIZE_MOD_eq]; omega)
      · exact hlt
    have := ih (add_edge mem e.1 e.2) _ hstep hlt2
    simp only [apply_edges, List.foldl_cons] at this ⊢
    rw [this]
    have hn : ((if p = e.1 then (q.noutlinks + 1) % SIZE_MOD else q.noutlinks)
          + es.countP (fun e => decide (e.1 = p))) % SIZE_MOD
        = (q.noutlinks + (e :: es).countP (fun e => decide (e.1 = p))) % SIZE_MOD := by
      rw [List.countP_cons]
      by_cases h1 : p = e.1
      · have h1b : e.1 = p := h1.symm
        simp only [h1, if_true, decide_True]
        rw [SIZE_MOD_eq]
        omega
      · have h1b : ¬ e.1 = p := fun h => h1 h.symm
        simp [h1, h1b]
    have hi : ((es.filter (fun e => decide (e.2 = p))).map Prod.fst).reverse
          ++ (if p = e.2 then e.1 :: q.inlinks else q.inlinks)
        = (((e :: es).filter (fun e => decide (e.2 = p))).map Prod.fst).reverse ++ q.inlinks := by
      by_cases h2 : p = e.2
      · have h2b : e.2 = p := h2.symm
        simp [h2, List.filter_cons]
      · have h2b : ¬ e.2 = p := fun h => h2 h.symm
        simp [h2, h2b, List.filter_cons]
    simp only [hn, hi]

/-! ## The hash table -/

theorem hcreate_table (nel : Nat) : (hcreate nel).table = [] := by
  unfold hcreate
  simp only
  split <;> rfl

theorem hcreate_size_ge (fuel : Nat) : ∀ (nel size : Nat),
    hcreate_size fuel nel = some size → nel ≤ size := by
  induction fuel with
  | zero => intro nel size h; simp [hcreate_size] at h
  | succ fuel ih =>
    intro nel size h
    unfold hcreate_size at h
    split at h
    · exact absurd h (by simp)
    · split at h
      · simp only [Option.some.injEq] at h
        omega
      · have := ih _ _ h
        omega

/-- A table that `hcreate(nel)` has set up has room for `nel` entries. -/
theorem hcreate_room (nel : Nat) (h : (hcreate nel).size ≠ 0) :
    (hcreate nel).table.length + nel ≤ (hcreate nel).size := by
  rw [hcreate_table]
  unfold hcreate at h ⊢
  simp only at h ⊢
  split
  · rename_i h0
    rw [h0] at h
    exact absurd rfl h
  · rename_i size h0
    have := hcreate_size_ge _ _ _ h0
    simp only [List.length_nil, Nat.zero_add]
    split at this <;> omega

theorem isprime_HCREATE_MAX : isprime HCREATE_MAX = true := by decide!

theorem hcreate_size_some (fuel : Nat) : ∀ nel : Nat, nel % 2 = 1 → nel ≤ HCREATE_MAX →
    (HCREATE_MAX - nel) / 2 < fuel → ∃ size, hcreate_size fuel nel = some size := by
  induction fuel with
  | zero => intro nel _ _ h; exact absurd h (Nat.not_lt_zero _)
  | succ fuel ih =>
    intro nel hodd hle hfuel
    unfold hcreate_size
    have e1 : HCREATE_MAX = 4294967291 := rfl
    have e2 : UINT_MAX = 4294967295 := rfl
    have h1 : ¬ UINT_MAX - 2 < nel := by omega
    rw [if_neg h1]
    by_cases hp : isprime nel = true
    · rw [if_pos hp]
      exact ⟨nel, rfl⟩
    · rw [if_neg hp]
      have hne : nel ≠ HCREATE_MAX := by
        intro h
        rw [h] at hp
        exact hp isprime_HCREATE_MAX
      exact ih (nel + 2) (by omega) (by omega) (by omega)

/-- The call `hcreate(nel)` sets up a table for every `nel` up to `HCREATE_MAX`. -/
theorem hcreate_created (nel : Nat) (h : nel ≤ HCREATE_MAX) : (hcreate nel).size ≠ 0 := by
  have e1 : HCREATE_MAX = 4294967291 := rfl
  have e2 : UINT_MAX = 4294967295 := rfl
  unfold hcreate
  simp only
  obtain ⟨size, hs⟩ := hcreate_size_some UINT_MAX
    (if max nel 3 % 2 = 0 then max nel 3 + 1 else max nel 3)
    (by split <;> omega) (by split <;> omega) (by split <;> omega)
  rw [hs]
  have := hcreate_size_ge _ _ _ hs
  simp only
  split at this <;> omega

/-- The converse: above `HCREATE_MAX`, `hcreate` sets up no table. -/
theorem hcreate_failed (nel : Nat) (h : HCREATE_MAX < nel) : hcreate nel = ⟨0, []⟩ := by
  have e1 : HCREATE_MAX = 4294967291 := rfl
  have e2 : UINT_MAX = 4294967295 := rfl
  have hnp : isprime 4294967293 = false := by decide!
  have hstep : ∀ a : Nat, 4294967291 < a → a % 2 = 1 → ∀ fuel, hcreate_size fuel a = none := by
    intro a ha hodd fuel
    cases fuel with
    | zero => rfl
    | succ fuel =>
      unfold hcreate_size
      by_cases h1 : UINT_MAX - 2 < a
      · rw [if_pos h1]
      · rw [if_neg h1]
        have ha' : a = 4294967293 := by omega
        rw [ha', hnp]
        simp only [Bool.false_eq_true, if_false]
        cases fuel with
        | zero => rfl
        | succ fuel =>
          unfold hcreate_size
          rw [if_pos (by rw [e2]; omega)]
  unfold hcreate
  simp only
  rw [hstep _ (by split <;> omega) (by split <;> omega)]

/-- The capacities that `hcreate` gives for small counts, and its failure
above `HCREATE_MAX`. -/
theorem hcreate_samples :
    hcreate 1 = ⟨3, []⟩ ∧ hcreate 3 = ⟨3, []⟩ ∧ hcreate 4 = ⟨5, []⟩ ∧ hcreate 8 = ⟨11, []⟩ ∧
    hcreate 90 = ⟨97, []⟩ ∧ hcreate 4294967292 = ⟨0, []⟩ ∧
    hcreate 18446744073709551615 = ⟨0, []⟩ := by
  decide!

/-- A page loop that makes an iteration and ends normally has a table that
`hcreate` has set up. -/
theorem page_loop_size (n i : Nat) (st : loader) (s : List Char) (st' : loader)
    (s' : List Char) (h : page_loop (n + 1) i st s = .ok (st', s')) : st.tab.size ≠ 0 := by
  intro hz
  unfold page_loop at h
  cases hf : fgets MAX_LINE s with
  | none => rw [hf] at h; exact absurd h (by simp)
  | some lr =>
    obtain ⟨line, rest⟩ := lr
    rw [hf] at h
    simp only at h
    cases hs : sscanf_s line with
    | none => rw [hs] at h; exact absurd h (by simp)
    | some name =>
      rw [hs] at h
      simp only at h
      rw [if_pos hz] at h
      exact absurd h (by simp)

theorem hsearch_ENTER_some (h : htab) (e old : ENTRY) (h' : htab)
    (he : hsearch_ENTER h e = some (old, h')) :
    h'.size = h.size ∧ h'.table = enter_list h.table [e] := by
  unfold hsearch_ENTER at he
  unfold hsearch_FIND at he
  simp only [enter_list]
  cases hf : h.table.find? (fun x => decide (x.1 = e.1)) with
  | some x =>
    rw [hf] at he
    simp only [Option.some.injEq, Prod.mk.injEq] at he
    rw [← he.2]
    simp
  | none =>
    rw [hf] at he
    simp only at he
    split at he
    · simp only [Option.some.injEq, Prod.mk.injEq] at he
      rw [← he.2]
      simp
    · exact absurd he (by simp)

theorem enter_list_append (t es fs : List ENTRY) :
    enter_list t (es ++ fs) = enter_list (enter_list t es) fs := by
  induction es generalizing t with
  | nil => rfl
  | cons e es ih =>
    simp only [List.cons_append, enter_list]
    exact ih _

/-- A search in the table built by `enter_list` finds the first entry with the
key among the old entries followed by the entered ones. -/
theorem find?_enter_list (key : List Char) (es t : List ENTRY) :
    (enter_list t es).find? (fun x => decide (x.1 = key))
      = (t ++ es).find? (fun x => decide (x.1 = key)) := by
  induction es generalizing t with
  | nil => simp [enter_list]
  | cons e es ih =>
    simp only [enter_list]
    rw [ih]
    cases hf : t.find? (fun x => decide (x.1 = e.1)) with
    | none => simp
    | some x =>
      simp only [Option.isSome_some, if_true, List.find?_append, List.find?_cons]
      by_cases hk : e.1 = key
      · have hx := List.find?_some hf
        have hx' : x.1 = key := by
          rw [← hk]; simpa using hx
        subst hk
        rw [hf]
        simp
      · simp [hk]

theorem mem_enter_list (x : ENTRY) (es t : List ENTRY) (hx : x ∈ enter_list t es) :
    x ∈ t ∨ x ∈ es := by
  induction es generalizing t with
  | nil => exact Or.inl hx
  | cons e es ih =>
    simp only [enter_list] at hx
    rcases ih _ hx with h | h
    · split at h
      · exact Or.inl h
      · rcases List.mem_append.1 h with h | h
        · exact Or.inl h
        · right
          simp only [List.mem_singleton] at h
          rw [h]
          exact List.mem_cons_self _ _
    · exact Or.inr (List.mem_cons_of_mem _ h)

/-! ## The two loops -/

theorem mk_pages_length (i : Nat) (names : List (List Char)) :
    (mk_pages i names).length = names.length := by
  induction names generalizing i with
  | nil => rfl
  | cons n ns ih => simp [mk_pages, ih]

theorem mk_pages_get? (names : List (List Char)) (i k : Nat) :
    (mk_pages i names)[k]? = (names[k]?).map
      (fun nm => { name := nm, index := i + k, noutlinks := 0, inlinks := [] }) := by
  induction names generalizing i k with
  | nil => simp [mk_pages]
  | cons n ns ih =>
    cases k with
    | zero => simp [mk_pages]
    | succ k =>
      simp only [mk_pages, List.getElem?_cons_succ]
      rw [ih]
      congr 1
      funext nm
      congr 1
      omega

/-- What a run of the page loop that ends normally has done: it read `n` lines,
each holding a name, allocated one page per name after the pages already
stored, appended their addresses to the list and entered them in the table. -/
theorem page_loop_ok (n : Nat) : ∀ (i : Nat) (st : loader) (s : List Char) (st' : loader)
    (s' : List Char), page_loop n i st s = .ok (st', s') →
    ∃ names : List (List Char), names.length = n ∧
      (read_lines n s).map sscanf_s = names.map some ∧
      s' = drop_lines n s ∧
      st'.mem = st.mem ++ mk_pages i names ∧
      st'.list = st.list ++ List.range' st.mem.length n ∧
      st'.tab.size = st.tab.size ∧
      st'.tab.table = enter_list st.tab.table (names.zip (List.range' st.mem.length n)) := by
  induction n with
  | zero =>
    intro i st s st' s' h
    simp only [page_loop, Except.ok.injEq, Prod.mk.injEq] at h
    refine ⟨[], rfl, rfl, ?_, ?_, ?_, ?_, ?_⟩ <;> simp [← h.1, ← h.2, drop_lines, mk_pages, enter_list]
  | succ n ih =>
    intro i st s st' s' h
    unfold page_loop at h
    cases hf : fgets MAX_LINE s with
    | none => rw [hf] at h; exact absurd h (by simp)
    | some lr =>
      obtain ⟨line, rest⟩ := lr
      rw [hf] at h
      simp only at h
      cases hs : sscanf_s line with
      | none => rw [hs] at h; exact absurd h (by simp)
      | some name =>
        rw [hs] at h
        simp only at h
        by_cases hz : st.tab.size = 0
        · rw [if_pos hz] at h
          exact absurd h (by simp)
        rw [if_neg hz] at h
        cases he : hsearch_ENTER st.tab (name, st.mem.length) with
        | none => rw [he] at h; exact absurd h (by simp)
        | some r =>
          obtain ⟨old, tab⟩ := r
          rw [he] at h
          simp only at h
          obtain ⟨names, hlen, hrd, hdrop, hmem, hlist, hsize, htab⟩ := ih _ _ _ _ _ h
          obtain ⟨hsz, htb⟩ := hsearch_ENTER_some _ _ _ _ he
          refine ⟨name :: names, by simp [hlen], ?_, ?_, ?_, ?_, ?_, ?_⟩
          · simp [read_lines, hf, hs, hrd]
          · simp [drop_lines, hf, hdrop]
          · simp [hmem, mk_pages]
          · simp only at hlist
            rw [hlist]
            simp [List.range'_succ]
          · simp only at hsize
            rw [hsize, hsz]
          · simp only at htab
            rw [htab, htb, List.range'_succ]
            simp [enter_list, List.zip]

/-- What a run of the edge loop that ends normally has done: it read `n` lines,
each holding two names found in the table, and added the edges between the
pages found, in input order. -/
theorem edge_loop_ok (tab : htab) (n : Nat) : ∀ (mem : List page) (s : List Char)
    (mem' : List page), edge_loop n tab mem s = .ok mem' →
    ∃ (prs : List (List Char × List Char)) (es : List (Ptr × Ptr)),
      prs.length = n ∧
      (read_lines n s).map sscanf_s_s = prs.map some ∧
      prs.map (fun pr => (lookup tab pr.1, lookup tab pr.2))
        = es.map (fun e => (some e.1, some e.2)) ∧
      mem' = apply_edges mem es := by
  induction n with
  | zero =>
    intro mem s mem' h
    simp only [edge_loop, Except.ok.injEq] at h
    exact ⟨[], [], rfl, rfl, rfl, by simp [apply_edges, h]⟩
  | succ n ih =>
    intro mem s mem' h
    unfold edge_loop at h
    cases hf : fgets MAX_LINE s with
    | none => rw [hf] at h; exact absurd h (by simp)
    | some lr =>
      obtain ⟨line, rest⟩ := lr
      rw [hf] at h
      simp only at h
      cases hs : sscanf_s_s line with
      | none => rw [hs] at h; exact absurd h (by simp)
      | some pr =>
        obtain ⟨a, b⟩ := pr
        rw [hs] at h
        simp only at h
        by_cases hz : tab.size = 0
        · rw [if_pos hz] at h
          exact absurd h (by simp)
        rw [if_neg hz] at h
        cases h1 : hsearch_FIND tab a with
        | none => rw [h1] at h; exact absurd h (by simp)
        | some e1 =>
          rw [h1] at h
          simp only at h
          cases h2 : hsearch_FIND tab b with
          | none => rw [h2] at h; exact absurd h (by simp)
          | some e2 =>
            rw [h2] at h
            simp only at h
            obtain ⟨prs, es, hlen, hrd, hlk, hmem⟩ := ih _ _ _ h
            refine ⟨(a, b) :: prs, (e1.2, e2.2) :: es, by simp [hlen], ?_, ?_, ?_⟩
            · simp [read_lines, hf, hs, hrd]
            · simp only [List.map_cons, lookup, h1, h2, Option.map_some']
              rw [← hlk]
              simp only [lookup]
            · simp [apply_edges, hmem]

/-! ## The stages of `init` -/

theorem fgets_nil : fgets MAX_LINE [] = none := rfl

theorem fgets_none (s : List Char) (h : fgets MAX_LINE s = none) : s = [] := by
  cases s with
  | nil => rfl
  | cons c s => simp [fgets] at h

theorem read_lines_none (n : Nat) (s : List Char) (h : fgets MAX_LINE s = none) :
    read_lines n s = [] := by
  cases n with
  | zero => rfl
  | succ n => simp [read_lines, h]

theorem read_lines_some (n : Nat) (s line rest : List Char)
    (h : fgets MAX_LINE s = some (line, rest)) :
    read_lines (n + 1) s = line :: read_lines n rest := by
  simp [read_lines, h]

theorem drop_lines_none (n : Nat) (s : List Char) (h : fgets MAX_LINE s = none) :
    drop_lines n s = [] := by
  cases n with
  | zero => simpa [drop_lines] using fgets_none s h
  | succ n => simp [drop_lines, h]

theorem drop_lines_some (n : Nat) (s line rest : List Char)
    (h : fgets MAX_LINE s = some (line, rest)) :
    drop_lines (n + 1) s = drop_lines n rest := by
  simp [drop_lines, h]

theorem read_lines_add (a b : Nat) : ∀ s : List Char,
    read_lines (a + b) s = read_lines a s ++ read_lines b (drop_lines a s) := by
  induction a with
  | zero => intro s; simp [read_lines, drop_lines]
  | succ a ih =>
    intro s
    rw [Nat.add_right_comm]
    cases hf : fgets MAX_LINE s with
    | none =>
      rw [read_lines_none _ _ hf, read_lines_none _ _ hf, drop_lines_none _ _ hf,
        read_lines_none _ _ fgets_nil]
      rfl
    | some lr =>
      obtain ⟨line, rest⟩ := lr
      rw [read_lines_some _ _ _ _ hf, read_lines_some _ _ _ _ hf, drop_lines_some _ _ _ _ hf, ih]
      rfl

theorem drop_lines_add (a b : Nat) : ∀ s : List Char,
    drop_lines (a + b) s = drop_lines b (drop_lines a s) := by
  induction a with
  | zero => intro s; simp [drop_lines]
  | succ a ih =>
    intro s
    rw [Nat.add_right_comm]
    cases hf : fgets MAX_LINE s with
    | none =>
      rw [drop_lines_none _ _ hf, drop_lines_none _ _ hf, drop_lines_none _ _ fgets_nil]
    | some lr =>
      obtain ⟨line, rest⟩ := lr
      rw [drop_lines_some _ _ _ _ hf, drop_lines_some _ _ _ _ hf, ih]

theorem read_dampener_ok (s : List Char) (d : CDouble) (s1 : List Char)
    (h : read_dampener s = .ok (d, s1)) :
    ∃ line, fgets MAX_LINE s = some (line, s1) ∧ sscanf_lf line = some d ∧
      d.ltZero = false ∧ d.gtOne = false := by
  unfold read_dampener at h
  cases hf : fgets MAX_LINE s with
  | none => rw [hf] at h; exact absurd h (by simp)
  | some lr =>
    obtain ⟨line, rest⟩ := lr
    rw [hf] at h
    simp only at h
    cases hs : sscanf_lf line with
    | none => rw [hs] at h; exact absurd h (by simp)
    | some v =>
      rw [hs] at h
      simp only at h
      split at h
      · exact absurd h (by simp)
      · rename_i hrange
        simp only [Except.ok.injEq, Prod.mk.injEq] at h
        obtain ⟨hv, hr⟩ := h
        subst hv
        subst hr
        simp only [Bool.or_eq_true, not_or, Bool.not_eq_true] at hrange
        exact ⟨line, rfl, hs, hrange.1, hrange.2⟩

theorem sscanf_zu_lt (line : List Char) (n : Nat) (h : sscanf_zu line = some n) :
    n < SIZE_MOD := by
  unfold sscanf_zu at h
  simp only at h
  have hpos : 0 < SIZE_MOD := by rw [SIZE_MOD_eq]; omega
  split at h
  · exact absurd h (by simp)
  · split at h
    · simp only [Option.some.injEq] at h
      omega
    · split at h
      · simp only [Option.some.injEq] at h
        rw [← h]
        exact Nat.mod_lt _ hpos
      · simp only [Option.some.injEq] at h
        omega

theorem read_count_ok (msg : String) (s : List Char) (n : Nat) (s1 : List Char)
    (h : read_count msg s = .ok (n, s1)) :
    ∃ line, fgets MAX_LINE s = some (line, s1) ∧ sscanf_zu line = some n ∧
      1 ≤ n ∧ n < SIZE_MOD := by
  unfold read_count at h
  cases hf : fgets MAX_LINE s with
  | none => rw [hf] at h; exact absurd h (by simp)
  | some lr =>
    obtain ⟨line, rest⟩ := lr
    rw [hf] at h
    simp only at h
    cases hs : sscanf_zu line with
    | none => rw [hs] at h; exact absurd h (by simp)
    | some v =>
      rw [hs] at h
      simp only at h
      split at h
      · exact absurd h (by simp)
      · rename_i hne
        simp only [Except.ok.injEq, Prod.mk.injEq] at h
        obtain ⟨hv, hr⟩ := h
        subst hv
        subst hr
        exact ⟨line, rfl, hs, Nat.one_le_iff_ne_zero.2 hne, sscanf_zu_lt _ _ hs⟩

/-- A successful `init` went through every stage, and the config holds what
the stages produced. -/
theorem init_ok (argv : List (List Char)) (stdin : List Char) (conf : config)
    (h : init argv stdin = .ok conf) :
    ∃ s1 s2 st s3 s4,
      read_threads argv = .ok conf.nthreads ∧
      read_dampener stdin = .ok (conf.dampener, s1) ∧
      read_npages s1 = .ok (conf.npages, s2) ∧
      page_loop conf.npages 0 ⟨[], [], hcreate conf.npages⟩ s2 = .ok (st, s3) ∧
      read_nedges s3 = .ok (conf.nedges, s4) ∧
      edge_loop conf.nedges st.tab st.mem s4 = .ok conf.mem ∧
      conf.list = st.list := by
  unfold init at h
  cases h1 : read_threads argv with
  | error m => rw [h1] at h; exact absurd h (by simp)
  | ok nthreads =>
    rw [h1] at h
    simp only at h
    cases h2 : read_dampener stdin with
    | error m => rw [h2] at h; exact absurd h (by simp)
    | ok r2 =>
      obtain ⟨d, s1⟩ := r2
      rw [h2] at h
      simp only at h
      cases h3 : read_npages s1 with
      | error m => rw [h3] at h; exact absurd h (by simp)
      | ok r3 =>
        obtain ⟨np, s2⟩ := r3
        rw [h3] at h
        simp only at h
        cases h4 : page_loop np 0 ⟨[], [], hcreate np⟩ s2 with
        | error m => rw [h4] at h; exact absurd h (by simp)
        | ok r4 =>
          obtain ⟨st, s3⟩ := r4
          rw [h4] at h
          simp only at h
          cases h5 : read_nedges s3 with
          | error m => rw [h5] at h; exact absurd h (by simp)
          | ok r5 =>
            obtain ⟨ne, s4⟩ := r5
            rw [h5] at h
            simp only at h
            cases h6 : edge_loop ne st.tab st.mem s4 with
            | error m => rw [h6] at h; exact absurd h (by simp)
            | ok mem =>
              rw [h6] at h
              simp only [Except.ok.injEq] at h
              subst h
              exact ⟨s1, s2, st, s3, s4, rfl, rfl, h3, h4, h5, h6, rfl⟩

theorem read_lines_one_add (n : Nat) (s line rest : List Char)
    (h : fgets MAX_LINE s = some (line, rest)) :
    read_lines (1 + n) s = line :: read_lines n rest := by
  rw [Nat.add_comm]
  exact read_lines_some n s line rest h

theorem drop_lines_one (s line rest : List Char)
    (h : fgets MAX_LINE s = some (line, rest)) : drop_lines 1 s = rest := by
  simp [drop_lines, h]

theorem lookup_after_page_loop (names : List (List Char)) (tab : htab)
    (h : tab.table = enter_list [] (names.zip (List.range' 0 names.length)))
    (key : List Char) : lookup tab key = find_page names key := by
  unfold lookup hsearch_FIND find_page
  rw [h, find?_enter_list]
  rfl

/-- Every successful run of `init` has a trace. -/
theorem init_trace (argv : List (List Char)) (stdin : List Char) (conf : config)
    (h : init argv stdin = .ok conf) : Nonempty (Trace stdin conf) := by
  obtain ⟨s1, s2, st, s3, s4, _, h2, h3, h4, h5, h6, h7⟩ := init_ok argv stdin conf h
  obtain ⟨l1, hf1, hd, hge, hle⟩ := read_dampener_ok _ _ _ h2
  obtain ⟨l2, hf2, hn, hnpos, _⟩ := read_count_ok _ _ _ _ h3
  obtain ⟨names, hlen, hrd, hdrop, hmem, hlist, _, htab⟩ := page_loop_ok _ _ _ _ _ _ h4
  obtain ⟨l3, hf3, he, hepos, helt⟩ := read_count_ok _ _ _ _ h5
  obtain ⟨prs, es, hplen, hprd, hlk, hmem'⟩ := edge_loop_ok _ _ _ _ _ h6
  have hlines : read_lines (3 + conf.npages + conf.nedges) stdin
      = l1 :: l2 :: (read_lines conf.npages s2 ++ l3 :: read_lines conf.nedges s4) := by
    have e : 3 + conf.npages + conf.nedges = 1 + (1 + (conf.npages + (1 + conf.nedges))) := by
      omega
    rw [e, read_lines_one_add _ _ _ _ hf1, read_lines_one_add _ _ _ _ hf2, read_lines_add,
      ← hdrop, read_lines_one_add _ _ _ _ hf3]
  simp only [List.nil_append, List.length_nil, hcreate_table] at hmem hlist htab
  rw [← hlen] at htab
  have hfind : ∀ key, lookup st.tab key = find_page names key :=
    lookup_after_page_loop names st.tab htab
  refine ⟨{ l1 := l1, l2 := l2, l3 := l3, nameLines := read_lines conf.npages s2,
            edgeLines := read_lines conf.nedges s4, names := names, pairs := prs, edges := es,
            lines_eq := hlines, dampener_eq := hd, dampener_ge := hge, dampener_le := hle,
            npages_eq := hn, npages_pos := hnpos, names_eq := hrd, names_length := hlen,
            nedges_eq := he, nedges_pos := hepos, nedges_lt := helt, pairs_eq := hprd,
            pairs_length := hplen, edges_eq := ?_, list_eq := ?_, mem_eq := ?_ }⟩
  · rw [← hlk]
    simp only [hfind]
  · rw [h7, hlist]
  · rw [hmem', hmem]

theorem read_lines_length_le (n : Nat) : ∀ s : List Char, (read_lines n s).length ≤ n := by
  induction n with
  | zero => intro s; simp [read_lines]
  | succ n ih =>
    intro s
    cases hf : fgets MAX_LINE s with
    | none => rw [read_lines_none _ _ hf]; simp
    | some lr =>
      obtain ⟨line, rest⟩ := lr
      rw [read_lines_some _ _ _ _ hf]
      simp only [List.length_cons]
      exact Nat.succ_le_succ (ih rest)

/-- When `n` lines can be read, the first `m` of them are the `m` lines read. -/
theorem read_lines_take (m n : Nat) (s : List Char) (hmn : m ≤ n)
    (hfull : (read_lines n s).length = n) : read_lines m s = (read_lines n s).take m := by
  have e : n = m + (n - m) := by omega
  have h1 := read_lines_length_le m s
  have h2 := read_lines_length_le (n - m) (drop_lines m s)
  rw [e, read_lines_add] at hfull ⊢
  simp only [List.length_append] at hfull
  have h3 : (read_lines m s).length = m := by omega
  rw [List.take_append_of_le_length (by omega), List.take_of_length_le (by omega)]

/-! ## What the table finds -/

theorem mem_zip_range' (names : List (List Char)) : ∀ (a : Nat) (x : List Char) (p : Nat),
    (x, p) ∈ names.zip (List.range' a names.length) → a ≤ p ∧ names[p - a]? = some x := by
  induction names with
  | nil => intro a x p h; simp at h
  | cons n ns ih =>
    intro a x p h
    simp only [List.length_cons, List.range'_succ, List.zip_cons_cons, List.mem_cons,
      Prod.mk.injEq] at h
    rcases h with ⟨hx, hp⟩ | h
    · subst hx; subst hp
      simp
    · obtain ⟨hle, hget⟩ := ih (a + 1) x p h
      refine ⟨by omega, ?_⟩
      have e : p - a = (p - (a + 1)) + 1 := by omega
      rw [e, List.getElem?_cons_succ]
      exact hget

theorem find_page_some (names : List (List Char)) (key : List Char) (p : Ptr)
    (h : find_page names key = some p) : p < names.length ∧ names[p]? = some key := by
  unfold find_page at h
  cases hf : (names.zip (List.range' 0 names.length)).find? (fun x => decide (x.1 = key)) with
  | none => rw [hf] at h; exact absurd h (by simp)
  | some x =>
    rw [hf] at h
    simp only [Option.map_some', Option.some.injEq] at h
    have hkey := List.find?_some hf
    have hmem := List.mem_of_find?_eq_some hf
    obtain ⟨x1, x2⟩ := x
    simp only [decide_eq_true_eq] at hkey
    simp only at h
    subst h
    subst hkey
    obtain ⟨_, hget⟩ := mem_zip_range' names 0 _ _ hmem
    simp only [Nat.sub_zero] at hget
    have hlt : x2 < names.length := by
      by_contra hc
      rw [List.getElem?_eq_none (by omega)] at hget
      exact absurd hget (by simp)
    exact ⟨hlt, hget⟩

theorem find_page_none (names : List (List Char)) (key : List Char) :
    find_page names key = none ↔ key ∉ names := by
  unfold find_page
  rw [Option.map_eq_none', List.find?_eq_none]
  constructor
  · intro h hmem
    obtain ⟨k, hk, hget⟩ := List.getElem_of_mem hmem
    have hz : (key, 0 + k) ∈ names.zip (List.range' 0 names.length) := by
      rw [List.mem_iff_getElem]
      refine ⟨k, by simpa using hk, ?_⟩
      simp [List.getElem_zip, hget, List.getElem_range']
    simpa using h _ hz
  · intro h x hx
    obtain ⟨x1, x2⟩ := x
    obtain ⟨_, hget⟩ := mem_zip_range' names 0 _ _ hx
    simp only [decide_eq_true_eq]
    intro hk
    subst hk
    exact h (List.getElem?_mem hget)

theorem find_page_nodup (names : List (List Char)) (hnd : names.Nodup) (key : List Char)
    (k : Nat) (hk : names[k]? = some key) : find_page names key = some k := by
  cases hf : find_page names key with
  | none =>
    exact absurd (List.getElem?_mem hk) ((find_page_none names key).1 hf)
  | some p =>
    obtain ⟨hp, hget⟩ := find_page_some names key p hf
    have hk' : k < names.length := by
      by_contra hc
      rw [List.getElem?_eq_none (by omega)] at hk
      exact absurd hk (by simp)
    rw [List.getElem?_eq_getElem hp] at hget
    rw [List.getElem?_eq_getElem hk'] at hk
    simp only [Option.some.injEq] at hget hk
    have := (List.Nodup.getElem_inj_iff hnd).1 (hget.trans hk.symm)
    rw [this]

/-! ## The loaded graph -/

theorem filterMap_range'_getElem? (l : List page) : ∀ pre : List page,
    (List.range' pre.length l.length).filterMap (fun p => (pre ++ l)[p]?) = l := by
  induction l with
  | nil => intro pre; simp
  | cons x xs ih =>
    intro pre
    have := ih (pre ++ [x])
    simp only [List.length_append, List.length_singleton, List.append_assoc,
      List.singleton_append] at this
    simp only [List.length_cons, List.range'_succ, List.filterMap_cons]
    rw [List.getElem?_append_right (Nat.le_refl _)]
    simp only [Nat.sub_self, List.getElem?_cons_zero]
    rw [this]

namespace Trace

variable {stdin : List Char} {conf : config}

theorem nameLines_length (t : Trace stdin conf) : t.nameLines.length = conf.npages := by
  have := congrArg List.length t.names_eq
  simp only [List.length_map] at this
  rw [this, t.names_length]

theorem edgeLines_length (t : Trace stdin conf) : t.edgeLines.length = conf.nedges := by
  have := congrArg List.length t.pairs_eq
  simp only [List.length_map] at this
  rw [this, t.pairs_length]

theorem lines_length (t : Trace stdin conf) :
    (read_lines (3 + conf.npages + conf.nedges) stdin).length
      = 3 + conf.npages + conf.nedges := by
  rw [t.lines_eq]
  simp only [List.length_cons, List.length_append, t.nameLines_length, t.edgeLines_length]
  omega

/-- The name read on the `k`-th name line. -/
theorem name_at (t : Trace stdin conf) (k : Nat) (nm : List Char) (hk : t.names[k]? = some nm) :
    sscanf_s ((read_lines (2 + conf.npages) stdin).getD (2 + k) []) = some nm := by
  have hl : read_lines (2 + conf.npages) stdin = t.l1 :: t.l2 :: t.nameLines := by
    rw [read_lines_take (2 + conf.npages) _ stdin (by omega) t.lines_length, t.lines_eq]
    have e2 : 2 + conf.npages = t.nameLines.length + 2 := by rw [t.nameLines_length]; omega
    rw [e2]
    simp
  have hk2 : k < t.nameLines.length := by
    rw [t.nameLines_length, ← t.names_length]
    by_contra hc
    rw [List.getElem?_eq_none (by omega)] at hk
    exact absurd hk (by simp)
  have e3 : 2 + k = k + 1 + 1 := by omega
  rw [hl, e3]
  simp only [List.getD_cons_succ]
  rw [List.getD_eq_getElem _ _ hk2]
  have := congrArg (fun l => l[k]?) t.names_eq
  simp only [List.getElem?_map, List.getElem?_eq_getElem hk2, Option.map_some', hk,
    Option.some.injEq] at this
  exact this

theorem edges_length (t : Trace stdin conf) : t.edges.length = conf.nedges := by
  have := congrArg List.length t.edges_eq
  simp only [List.length_map] at this
  rw [← this, t.pairs_length]

theorem mem_length (t : Trace stdin conf) : conf.mem.length = conf.npages := by
  rw [t.mem_eq, apply_edges_length, mk_pages_length, t.names_length]

/-- The pages of `conf->list` are the whole page store, in address order. -/
theorem pages_eq (t : Trace stdin conf) : conf.pages = conf.mem := by
  unfold config.pages
  rw [t.list_eq, ← t.mem_length]
  exact filterMap_range'_getElem? conf.mem []

theorem countP_lt (t : Trace stdin conf) (f : Ptr × Ptr → Bool) :
    t.edges.countP f < SIZE_MOD :=
  Nat.lt_of_le_of_lt (List.countP_le_length f) (by rw [t.edges_length]; exact t.nedges_lt)

/-- The page at address `k` of a loaded graph. -/
theorem page_at (t : Trace stdin conf) (k : Nat) (nm : List Char)
    (hk : t.names[k]? = some nm) :
    conf.mem[k]? = some
      { name := nm, index := k,
        noutlinks := t.edges.countP (fun e => decide (e.1 = k)),
        inlinks := ((t.edges.filter (fun e => decide (e.2 = k))).map Prod.fst).reverse } := by
  have h0 : (mk_pages 0 t.names)[k]?
      = some { name := nm, index := k, noutlinks := 0, inlinks := [] } := by
    rw [mk_pages_get?, hk]
    simp
  have hz : (0 : Nat) < SIZE_MOD := by rw [SIZE_MOD_eq]; omega
  rw [t.mem_eq, apply_edges_get? t.edges _ k _ h0 hz]
  simp only [Nat.zero_add, List.append_nil]
  rw [Nat.mod_eq_of_lt (t.countP_lt _)]

/-- Every page of the store is the page of a name read. -/
theorem page_of_mem (t : Trace stdin conf) (k : Nat) (p : page) (hp : conf.mem[k]? = some p) :
    t.names[k]? = some p.name ∧ p.index = k ∧
      p.noutlinks = t.edges.countP (fun e => decide (e.1 = k)) ∧
      p.inlinks = ((t.edges.filter (fun e => decide (e.2 = k))).map Prod.fst).reverse := by
  have hk : k < t.names.length := by
    rw [t.names_length, ← t.mem_length]
    by_contra hc
    rw [List.getElem?_eq_none (by omega)] at hp
    exact absurd hp (by simp)
  have := t.page_at k _ (List.getElem?_eq_getElem hk)
  rw [hp] at this
  simp only [Option.some.injEq] at this
  rw [this]
  exact ⟨List.getElem?_eq_getElem hk, rfl, rfl, rfl⟩

/-- The addresses of every edge were found in the table: they are addresses of
pages of the graph, whose names are the names read on the edge line. -/
theorem edge_valid (t : Trace stdin conf) (j : Nat) (e : Ptr × Ptr)
    (he : t.edges[j]? = some e) :
    ∃ pr, t.pairs[j]? = some pr ∧ find_page t.names pr.1 = some e.1 ∧
      find_page t.names pr.2 = some e.2 := by
  have h := congrArg (fun l => l[j]?) t.edges_eq
  simp only [List.getElem?_map, he, Option.map_some'] at h
  cases hp : t.pairs[j]? with
  | none => rw [hp] at h; exact absurd h (by simp)
  | some pr =>
    rw [hp] at h
    simp only [Option.map_some', Option.some.injEq, Prod.mk.injEq] at h
    exact ⟨pr, rfl, h.1, h.2⟩

theorem edge_lt (t : Trace stdin conf) (e : Ptr × Ptr) (he : e ∈ t.edges) :
    e.1 < conf.npages ∧ e.2 < conf.npages := by
  obtain ⟨j, hj, hget⟩ := List.getElem_of_mem he
  obtain ⟨pr, _, h1, h2⟩ := t.edge_valid j e (by rw [List.getElem?_eq_getElem hj, hget])
  rw [← t.names_length]
  exact ⟨(find_page_some _ _ _ h1).1, (find_page_some _ _ _ h2).1⟩

end Trace

/-! ## Lines read and lines of the text -/

theorem splitLines_ne_nil (s : List Char) : splitLines s ≠ [] := by
  cases s with
  | nil => simp [splitLines]
  | cons c s =>
    unfold splitLines
    split
    · simp
    · split <;> simp

/-- On a text whose first line fits, `fgets_aux` reads that line (with its
newline when there is one) and leaves the other lines. -/
theorem fgets_aux_line : ∀ (s : List Char) (n : Nat) (l : List Char) (ls : List (List Char)),
    splitLines s = l :: ls → l.length < n →
    (ls = [] → fgets_aux n s = (l, []) ∧ s = l) ∧
    (ls ≠ [] → ∃ rest, fgets_aux n s = (l ++ ['\n'], rest) ∧ splitLines rest = ls) := by
  intro s
  induction s with
  | nil =>
    intro n l ls h _
    simp only [splitLines, List.cons.injEq] at h
    obtain ⟨hl, hls⟩ := h
    subst hl; subst hls
    refine ⟨fun _ => ⟨?_, rfl⟩, fun h => absurd rfl h⟩
    cases n <;> rfl
  | cons c s ih =>
    intro n l ls h hlen
    unfold splitLines at h
    by_cases hc : c = '\n'
    · simp only [hc, if_true, List.cons.injEq] at h
      obtain ⟨hl, hls⟩ := h
      subst hl
      cases n with
      | zero => simp at hlen
      | succ m =>
        refine ⟨fun h0 => absurd (hls.trans h0) (splitLines_ne_nil s), fun _ => ⟨s, ?_, hls⟩⟩
        simp [fgets_aux, hc]
    · simp only [hc, if_false] at h
      cases hs : splitLines s with
      | nil => exact absurd hs (splitLines_ne_nil s)
      | cons l' ls' =>
        rw [hs] at h
        simp only [List.cons.injEq] at h
        obtain ⟨hl, hls⟩ := h
        subst hl; subst hls
        cases n with
        | zero => simp at hlen
        | succ m =>
          simp only [List.length_cons] at hlen
          obtain ⟨ih1, ih2⟩ := ih m l' ls' hs (by omega)
          constructor
          · intro h0
            obtain ⟨e1, e2⟩ := ih1 h0
            simp only [fgets_aux, hc, if_false, e1]
            rw [← e2]
            exact ⟨trivial, rfl⟩
          · intro h0
            obtain ⟨rest, e1, e2⟩ := ih2 h0
            exact ⟨rest, by simp [fgets_aux, hc, e1], e2⟩

/-- Under `FitLines`, what a function blind to a final newline sees on the
lines read by `fgets` is what it sees on the lines of the text. -/
theorem read_lines_text {β : Type} (f : List Char → β)
    (hf : ∀ l : List Char, f (l ++ ['\n']) = f l) (n : Nat) : ∀ s : List Char,
    (read_lines n s).length = n → FitLines s n →
    (read_lines n s).map f = ((splitLines s).take n).map f := by
  induction n with
  | zero => intro s _ _; simp [read_lines]
  | succ n ih =>
    intro s hlen hshort
    cases hs : splitLines s with
    | nil => exact absurd hs (splitLines_ne_nil s)
    | cons l ls =>
      have hl : l.length < MAX_LINE - 1 := by
        have := hshort l (by rw [hs]; simp)
        omega
      obtain ⟨h1, h2⟩ := fgets_aux_line s (MAX_LINE - 1) l ls hs hl
      cases hfg : fgets MAX_LINE s with
      | none =>
        rw [read_lines_none _ _ hfg] at hlen
        simp at hlen
      | some lr =>
        obtain ⟨line, rest⟩ := lr
        rw [read_lines_some _ _ _ _ hfg] at hlen ⊢
        simp only [List.length_cons, Nat.add_right_cancel_iff] at hlen
        have hne : s ≠ [] := by
          intro h0
          rw [h0] at hfg
          simp [fgets] at hfg
        have hfg' : fgets_aux (MAX_LINE - 1) s = (line, rest) := by
          cases s with
          | nil => exact absurd rfl hne
          | cons c s' => simpa [fgets] using hfg
        by_cases hls : ls = []
        · obtain ⟨e1, _⟩ := h1 hls
          rw [hfg'] at e1
          simp only [Prod.mk.injEq] at e1
          obtain ⟨e1, e2⟩ := e1
          subst e1; subst e2
          rw [read_lines_none _ _ fgets_nil] at hlen ⊢
          simp only [List.length_nil] at hlen
          subst hlen
          simp [hls]
        · obtain ⟨rest', e1, e2⟩ := h2 hls
          rw [hfg'] at e1
          simp only [Prod.mk.injEq] at e1
          obtain ⟨e1, e3⟩ := e1
          subst e1; subst e3
          have hshort' : FitLines rest n := by
            intro x hx
            apply hshort x
            rw [hs, List.take_succ_cons]
            rw [e2] at hx
            exact List.mem_cons_of_mem _ hx
          rw [List.take_succ_cons, List.map_cons, List.map_cons, hf, ih rest hlen hshort', e2]

theorem fit_short (s : List Char) (n : Nat) (h : FitLines s n) : ShortLines s n := by
  intro l hl
  have := h l hl
  omega

/-- On a text whose first line has exactly `n` characters, `fgets_aux` reads
that line without its newline, which stays in the input as an empty line. -/
theorem fgets_aux_full : ∀ (s : List Char) (n : Nat) (l : List Char) (ls : List (List Char)),
    splitLines s = l :: ls → l.length = n →
    ∃ rest, fgets_aux n s = (l, rest) ∧ (ls = [] → rest = []) ∧
      (ls ≠ [] → splitLines rest = [] :: ls) := by
  intro s
  induction s with
  | nil =>
    intro n l ls h hlen
    simp only [splitLines, List.cons.injEq] at h
    obtain ⟨hl, hls⟩ := h
    subst hl; subst hls
    simp only [List.length_nil] at hlen
    subst hlen
    exact ⟨[], rfl, fun _ => rfl, fun h => absurd rfl h⟩
  | cons c s ih =>
    intro n l ls h hlen
    by_cases hc : c = '\n'
    · have h' := h
      unfold splitLines at h
      simp only [hc, if_true, List.cons.injEq] at h
      obtain ⟨hl, hls⟩ := h
      subst hl
      simp only [List.length_nil] at hlen
      subst hlen
      exact ⟨c :: s, rfl, fun h0 => absurd (hls.trans h0) (splitLines_ne_nil s), fun _ => h'⟩
    · unfold splitLines at h
      simp only [hc, if_false] at h
      cases hs : splitLines s with
      | nil => exact absurd hs (splitLines_ne_nil s)
      | cons l' ls' =>
        rw [hs] at h
        simp only [List.cons.injEq] at h
        obtain ⟨hl, hls⟩ := h
        subst hl; subst hls
        simp only [List.length_cons] at hlen
        subst hlen
        obtain ⟨rest, e1, e2, e3⟩ := ih l'.length l' ls' hs rfl
        exact ⟨rest, by simp [fgets_aux, hc, e1], e2, e3⟩

/-- A line followed by others, that fits the buffer, is read with its newline. -/
theorem fgets_text_nl (s x : List Char) (ls : List (List Char)) (hs : splitLines s = x :: ls)
    (hx : x.length + 1 < MAX_LINE) (hls : ls ≠ []) :
    ∃ rest, fgets MAX_LINE s = some (x ++ ['\n'], rest) ∧ splitLines rest = ls := by
  have hsne : s ≠ [] := by
    intro h0
    rw [h0] at hs
    simp only [splitLines, List.cons.injEq] at hs
    exact hls hs.2.symm
  obtain ⟨_, h2⟩ := fgets_aux_line s (MAX_LINE - 1) x ls hs (by omega)
  obtain ⟨rest, e1, e2⟩ := h2 hls
  refine ⟨rest, ?_, e2⟩
  cases s with
  | nil => exact absurd rfl hsne
  | cons c s' => simp only [fgets, e1]

/-- With lines shorter than `MAX_LINE`, either what a function blind to a final
newline sees on the lines read is what it sees on the lines of the text, or
one of the lines read is a lone newline (left behind by a line of
`MAX_LINE - 1` characters). -/
theorem read_lines_short {β : Type} (f : List Char → β)
    (hf : ∀ l : List Char, f (l ++ ['\n']) = f l) (n : Nat) : ∀ s : List Char,
    (read_lines n s).length = n → ShortLines s n →
    (read_lines n s).map f = ((splitLines s).take n).map f ∨ ['\n'] ∈ read_lines n s := by
  induction n with
  | zero => intro s _ _; left; simp [read_lines]
  | succ n ih =>
    intro s hlen hshort
    cases hs : splitLines s with
    | nil => exact absurd hs (splitLines_ne_nil s)
    | cons l ls =>
      have hl : l.length < MAX_LINE := hshort l (by rw [hs]; simp)
      cases hfg : fgets MAX_LINE s with
      | none =>
        rw [read_lines_none _ _ hfg] at hlen
        simp at hlen
      | some lr =>
        obtain ⟨line, rest⟩ := lr
        rw [read_lines_some _ _ _ _ hfg] at hlen ⊢
        simp only [List.length_cons, Nat.add_right_cancel_iff] at hlen
        have hne : s ≠ [] := by
          intro h0
          rw [h0] at hfg
          simp [fgets] at hfg
        have hfg' : fgets_aux (MAX_LINE - 1) s = (line, rest) := by
          cases s with
          | nil => exact absurd rfl hne
          | cons c s' => simpa [fgets] using hfg
        by_cases hfit : l.length < MAX_LINE - 1
        · obtain ⟨h1, h2⟩ := fgets_aux_line s (MAX_LINE - 1) l ls hs hfit
          by_cases hls : ls = []
          · obtain ⟨e1, _⟩ := h1 hls
            rw [hfg'] at e1
            simp only [Prod.mk.injEq] at e1
            obtain ⟨e1, e2⟩ := e1
            subst e1; subst e2
            rw [read_lines_none _ _ fgets_nil] at hlen ⊢
            simp only [List.length_nil] at hlen
            subst hlen
            left
            simp [hls]
          · obtain ⟨rest', e1, e2⟩ := h2 hls
            rw [hfg'] at e1
            simp only [Prod.mk.injEq] at e1
            obtain ⟨e1, e3⟩ := e1
            subst e1; subst e3
            have hshort' : ShortLines rest n := by
              intro x hx
              apply hshort x
              rw [hs, List.take_succ_cons]
              rw [e2] at hx
              exact List.mem_cons_of_mem _ hx
            rcases ih rest hlen hshort' with h | h
            · left
              rw [List.take_succ_cons, List.map_cons, List.map_cons, hf, h, e2]
            · right
              exact List.mem_cons_of_mem _ h
        · have hfull : l.length = MAX_LINE - 1 := by omega
          obtain ⟨rest', e1, e2, e3⟩ := fgets_aux_full s (MAX_LINE - 1) l ls hs hfull
          rw [hfg'] at e1
          simp only [Prod.mk.injEq] at e1
          obtain ⟨e1, e4⟩ := e1
          subst e1; subst e4
          cases n with
          | zero =>
            left
            simp [read_lines]
          | succ m =>
            by_cases hls : ls = []
            · rw [e2 hls, read_lines_none _ _ fgets_nil] at hlen
              simp at hlen
            · right
              obtain ⟨rest2, hnl, _⟩ := fgets_text_nl rest [] ls (e3 hls) (by decide) hls
              rw [read_lines_some _ _ _ _ hnl]
              simp

/-! ## Names scanned and names of the text -/

theorem drop_length_takeWhile (q : Char → Bool) (l : List Char) :
    l.drop (l.takeWhile q).length = l.dropWhile q := by
  induction l with
  | nil => rfl
  | cons c l ih =>
    by_cases hc : q c = true
    · simp [List.takeWhile_cons, List.dropWhile_cons, hc, ih]
    · simp [List.takeWhile_cons, List.dropWhile_cons, hc]

theorem dropWhile_dropWhile_self (q : Char → Bool) (l : List Char) :
    (l.dropWhile q).dropWhile q = l.dropWhile q := by
  induction l with
  | nil => rfl
  | cons c l ih =>
    by_cases hc : q c = true
    · simp [List.dropWhile_cons, hc, ih]
    · simp [List.dropWhile_cons, hc]

theorem take_eq_nil_of_pos (w : Nat) (hw : 0 < w) (l : List Char) :
    l.take w = [] ↔ l = [] := by
  cases l with
  | nil => simp
  | cons c l =>
    cases w with
    | zero => exact absurd hw (by omega)
    | succ w => simp

theorem firstToken_dropWhile (l : List Char) :
    firstToken (l.dropWhile isspace) = firstToken l := by
  unfold firstToken
  rw [dropWhile_dropWhile_self]

/-- What `%<w>s` reads in terms of the names of the text. -/
theorem scan_s_eq (w : Nat) (hw : 0 < w) (s : List Char) :
    scan_s w s = if firstToken s = [] then none
      else some ((firstToken s).take w,
        (s.dropWhile isspace).drop ((firstToken s).take w).length) := by
  unfold scan_s firstToken
  simp only [take_eq_nil_of_pos w hw]

theorem scan_s_rest (w : Nat) (s : List Char) (h : (firstToken s).length ≤ w) :
    (s.dropWhile isspace).drop ((firstToken s).take w).length = afterFirstToken s := by
  rw [List.take_of_length_le h]
  unfold firstToken afterFirstToken
  exact drop_length_takeWhile _ _

/-- The call `sscanf(line, "%20s", name)` reads the first name of the line, cut
to 20 characters. -/
theorem sscanf_s_eq (line : List Char) :
    sscanf_s line = if firstToken line = [] then none
      else some ((firstToken line).take (MAX_NAME - 1)) := by
  unfold sscanf_s
  rw [scan_s_eq _ (by decide)]
  split <;> simp

/-- On a line whose first name has at most 20 characters, the call
`sscanf(line, "%20s %20s", p1_name, p2_name)` reads the first name and the
second name cut to 20 characters. -/
theorem sscanf_s_s_eq (line : List Char) (h : (firstToken line).length ≤ MAX_NAME - 1) :
    sscanf_s_s line = if firstToken line = [] then none
      else if secondToken line = [] then none
      else some (firstToken line, (secondToken line).take (MAX_NAME - 1)) := by
  unfold sscanf_s_s
  rw [scan_s_eq _ (by decide)]
  by_cases h1 : firstToken line = []
  · simp [h1]
  · simp only [h1, if_false]
    rw [scan_s_rest _ _ h, scan_s_eq _ (by decide), firstToken_dropWhile]
    rw [List.take_of_length_le h]
    by_cases h2 : secondToken line = []
    · have h2' : firstToken (afterFirstToken line) = [] := h2
      simp [h2, h2']
    · have h2' : ¬ firstToken (afterFirstToken line) = [] := h2
      simp only [h2, h2', if_false]
      rfl

theorem isspace_newline : isspace '\n' = true := by decide

theorem dropWhile_isspace_append_nl (l : List Char) :
    (l.dropWhile isspace = [] ∧ (l ++ ['\n']).dropWhile isspace = []) ∨
    (l.dropWhile isspace ≠ [] ∧
      (l ++ ['\n']).dropWhile isspace = l.dropWhile isspace ++ ['\n']) := by
  induction l with
  | nil => left; simp [List.dropWhile_cons, isspace_newline]
  | cons c l ih =>
    by_cases hc : isspace c = true
    · simpa [List.dropWhile_cons, hc] using ih
    · right
      simp [List.dropWhile_cons, hc]

theorem takeWhile_nonspace_append_nl (m : List Char) :
    (m ++ ['\n']).takeWhile (fun c => !isspace c) = m.takeWhile (fun c => !isspace c) := by
  induction m with
  | nil => simp [List.takeWhile_cons, isspace_newline]
  | cons c m ih =>
    by_cases hc : isspace c = true
    · simp [List.takeWhile_cons, hc]
    · simp [List.takeWhile_cons, hc, ih]

theorem dropWhile_nonspace_append_nl (m : List Char) :
    (m ++ ['\n']).dropWhile (fun c => !isspace c)
      = m.dropWhile (fun c => !isspace c) ++ ['\n'] := by
  induction m with
  | nil => simp [List.dropWhile_cons, isspace_newline]
  | cons c m ih =>
    by_cases hc : isspace c = true
    · simp [List.dropWhile_cons, hc]
    · simp [List.dropWhile_cons, hc, ih]

/-- A final newline does not change the first name of a line. -/
theorem firstToken_append_nl (l : List Char) : firstToken (l ++ ['\n']) = firstToken l := by
  unfold firstToken
  rcases dropWhile_isspace_append_nl l with ⟨h1, h2⟩ | ⟨_, h2⟩
  · rw [h1, h2]
  · rw [h2, takeWhile_nonspace_append_nl]

/-- A final newline does not change the second name of a line. -/
theorem secondToken_append_nl (l : List Char) : secondToken (l ++ ['\n']) = secondToken l := by
  unfold secondToken afterFirstToken
  rcases dropWhile_isspace_append_nl l with ⟨h1, h2⟩ | ⟨_, h2⟩
  · rw [h1, h2]
  · rw [h2, dropWhile_nonspace_append_nl, firstToken_append_nl]

/-! ## The trace in terms of the text -/

theorem eq_map_of_map_some {α β : Type} (F : β → Option α) (g : β → α) :
    ∀ (ys : List β) (xs : List α), ys.map F = xs.map some →
    (∀ y ∈ ys, ∀ a, F y = some a → a = g y) → xs = ys.map g := by
  intro ys
  induction ys with
  | nil =>
    intro xs h _
    cases xs with
    | nil => rfl
    | cons x xs => simp at h
  | cons y ys ih =>
    intro xs h hg
    cases xs with
    | nil => simp at h
    | cons x xs =>
      simp only [List.map_cons, List.cons.injEq] at h
      rw [List.map_cons, hg y (List.mem_cons_self _ _) x h.1,
        ih xs h.2 (fun z hz => hg z (List.mem_cons_of_mem _ hz))]

theorem forall_of_map_eq {β : Type} (f : List Char → β) (P : β → Prop)
    (xs ys : List (List Char)) (h : xs.map f = ys.map f) (hy : ∀ y ∈ ys, P (f y)) :
    ∀ x ∈ xs, P (f x) := by
  intro x hx
  have : f x ∈ ys.map f := by
    rw [← h]
    exact List.mem_map_of_mem f hx
  obtain ⟨y, hy1, hy2⟩ := List.mem_map.1 this
  rw [← hy2]
  exact hy y hy1

namespace Trace

variable {stdin : List Char} {conf : config}

/-- No line read in a successful run is a lone newline: each one was scanned
with success. -/
theorem no_blank (t : Trace stdin conf) :
    ['\n'] ∉ read_lines (3 + conf.npages + conf.nedges) stdin := by
  have e1 : sscanf_lf ['\n'] = none := by decide
  have e2 : sscanf_zu ['\n'] = none := by decide
  have e3 : sscanf_s ['\n'] = none := by decide
  have e4 : sscanf_s_s ['\n'] = none := by decide
  rw [t.lines_eq]
  intro h
  simp only [List.mem_cons, List.mem_append] at h
  rcases h with h | h | h | h | h
  · have := t.dampener_eq
    rw [← h, e1] at this
    exact absurd this (by simp)
  · have := t.npages_eq
    rw [← h, e2] at this
    exact absurd this (by simp)
  · have : sscanf_s ['\n'] ∈ t.nameLines.map sscanf_s := List.mem_map_of_mem sscanf_s h
    rw [t.names_eq, e3] at this
    simp at this
  · have := t.nedges_eq
    rw [← h, e2] at this
    exact absurd this (by simp)
  · have : sscanf_s_s ['\n'] ∈ t.edgeLines.map sscanf_s_s := List.mem_map_of_mem sscanf_s_s h
    rw [t.pairs_eq, e4] at this
    simp at this

/-- Under `ShortLines`, a function blind to a final newline sees the same on
the name lines and edge lines read as on those of the text. -/
theorem lines_text {β : Type} (t : Trace stdin conf) (f : List Char → β)
    (hf : ∀ l : List Char, f (l ++ ['\n']) = f l)
    (hs : ShortLines stdin (3 + conf.npages + conf.nedges)) :
    t.nameLines.map f = (inputNameLines stdin conf.npages).map f ∧
    t.edgeLines.map f = (inputEdgeLines stdin conf.npages conf.nedges).map f := by
  have h := (read_lines_short f hf _ stdin t.lines_length hs).resolve_right t.no_blank
  rw [t.lines_eq] at h
  have hn := t.nameLines_length
  have he := t.edgeLines_length
  constructor
  · have h1 := congrArg (fun l => (l.drop 2).take conf.npages) h
    simp only [List.map_cons, List.map_append, List.drop_succ_cons, List.drop_zero] at h1
    rw [List.take_left' (by rw [List.length_map, hn])] at h1
    rw [h1]
    unfold inputNameLines
    rw [← List.map_drop, ← List.map_take, List.drop_take, List.take_take]
    have e : min conf.npages (3 + conf.npages + conf.nedges - 2) = conf.npages := by omega
    rw [e]
  · have hA : List.map f (t.l1 :: t.l2 :: (t.nameLines ++ t.l3 :: t.edgeLines))
        = (f t.l1 :: f t.l2 :: (t.nameLines.map f ++ [f t.l3])) ++ t.edgeLines.map f := by
      simp
    rw [hA] at h
    have h1 := congrArg (fun l => (l.drop (3 + conf.npages)).take conf.nedges) h
    simp only at h1
    rw [List.drop_left' (by simp only [List.length_cons, List.length_append, List.length_map,
      List.length_nil, hn]; omega), List.take_of_length_le (by rw [List.length_map, he])] at h1
    rw [h1]
    unfold inputEdgeLines
    rw [← List.map_drop, ← List.map_take, List.drop_take, List.take_take]
    have e : min conf.nedges (3 + conf.npages + conf.nedges - (3 + conf.npages))
        = conf.nedges := by omega
    rw [e]

/-- Under the hypotheses on lines and on the length of the declared names, the
names read are the declared names. -/
theorem names_text (t : Trace stdin conf)
    (hs : ShortLines stdin (3 + conf.npages + conf.nedges))
    (hd : ∀ l ∈ inputNameLines stdin conf.npages, (firstToken l).length ≤ MAX_NAME - 1) :
    t.names = (inputNameLines stdin conf.npages).map firstToken := by
  have h := (t.lines_text firstToken firstToken_append_nl hs).1
  rw [← h]
  have hlen : ∀ r ∈ t.nameLines, (firstToken r).length ≤ MAX_NAME - 1 :=
    forall_of_map_eq firstToken (fun x => x.length ≤ MAX_NAME - 1) _ _ h hd
  apply eq_map_of_map_some sscanf_s firstToken _ _ t.names_eq
  intro r hr a ha
  rw [sscanf_s_eq] at ha
  split at ha
  · exact absurd ha (by simp)
  · simp only [Option.some.injEq] at ha
    rw [← ha, List.take_of_length_le (hlen r hr)]

theorem edgeNames_append_nl (l : List Char) : edgeNames (l ++ ['\n']) = edgeNames l := by
  unfold edgeNames
  rw [firstToken_append_nl, secondToken_append_nl]

/-- Under the hypotheses on lines and edge sources, the name pairs read are the
names of the edge lines. -/
theorem pairs_text (t : Trace stdin conf)
    (hs : ShortLines stdin (3 + conf.npages + conf.nedges))
    (he : EdgeSources stdin conf.npages conf.nedges) :
    t.pairs = (inputEdgeLines stdin conf.npages conf.nedges).map edgeNames := by
  have h := (t.lines_text firstToken firstToken_append_nl hs).2
  have h2 := (t.lines_text edgeNames edgeNames_append_nl hs).2
  rw [← h2]
  have hlen : ∀ r ∈ t.edgeLines, (firstToken r).length ≤ MAX_NAME - 1 :=
    forall_of_map_eq firstToken (fun x => x.length ≤ MAX_NAME - 1) _ _ h he
  apply eq_map_of_map_some sscanf_s_s edgeNames _ _ t.pairs_eq
  intro r hr a ha
  rw [sscanf_s_s_eq r (hlen r hr)] at ha
  split at ha
  · exact absurd ha (by simp)
  · split at ha
    · exact absurd ha (by simp)
    · simp only [Option.some.injEq] at ha
      rw [← ha]
      rfl

end Trace

/-! ## Counting and filtering along the edges -/

theorem countP_of_map_eq {α β γ : Type} (G : α → γ) (H : β → γ) (P : α → Bool) (Q : β → Bool)
    (hPQ : ∀ a b, G a = H b → P a = Q b) : ∀ (as : List α) (bs : List β),
    as.map G = bs.map H → as.countP P = bs.countP Q := by
  intro as
  induction as with
  | nil =>
    intro bs h
    cases bs with
    | nil => rfl
    | cons b bs => simp at h
  | cons a as ih =>
    intro bs h
    cases bs with
    | nil => simp at h
    | cons b bs =>
      simp only [List.map_cons, List.cons.injEq] at h
      rw [List.countP_cons, List.countP_cons, ih bs h.2, hPQ a b h.1]

theorem filter_map_of_map_eq {α β γ δ : Type} (G : α → γ) (H : β → γ) (P : α → Bool)
    (Q : β → Bool) (F1 : α → δ) (F2 : β → δ) (hPQ : ∀ a b, G a = H b → P a = Q b)
    (hF : ∀ a b, G a = H b → F1 a = F2 b) : ∀ (as : List α) (bs : List β),
    as.map G = bs.map H → (as.filter P).map F1 = (bs.filter Q).map F2 := by
  intro as
  induction as with
  | nil =>
    intro bs h
    cases bs with
    | nil => rfl
    | cons b bs => simp at h
  | cons a as ih =>
    intro bs h
    cases bs with
    | nil => simp at h
    | cons b bs =>
      simp only [List.map_cons, List.cons.injEq] at h
      rw [List.filter_cons, List.filter_cons, hPQ a b h.1]
      split
      · rw [List.map_cons, List.map_cons, ih bs h.2, hF a b h.1]
      · exact ih bs h.2

/-- With distinct names, a name is found at address `k` exactly when it is the
`k`-th name. -/
theorem find_page_eq_iff (names : List (List Char)) (hnd : names.Nodup) (key nm : List Char)
    (k a : Nat) (hk : names[k]? = some nm) (h : find_page names key = some a) :
    a = k ↔ key = nm := by
  obtain ⟨_, ha⟩ := find_page_some names key a h
  constructor
  · intro hak
    rw [hak, hk] at ha
    simpa using ha.symm
  · intro hkey
    rw [hkey] at h
    rw [find_page_nodup names hnd nm k hk] at h
    simpa using h.symm

/-! ## The checks before the edge loop -/

/-- Passing the checks means passing every stage before the edge loop. -/
theorem init_checks_ok (argv : List (List Char)) (stdin : List Char) (nthreads : Nat)
    (d : CDouble) (np : Nat) (st : loader) (ne : Nat) (s4 : List Char)
    (h : init_checks argv stdin = .ok (nthreads, d, np, st, ne, s4)) :
    ∃ s1 s2 s3,
      read_threads argv = .ok nthreads ∧
      read_dampener stdin = .ok (d, s1) ∧
      read_npages s1 = .ok (np, s2) ∧
      page_loop np 0 ⟨[], [], hcreate np⟩ s2 = .ok (st, s3) ∧
      read_nedges s3 = .ok (ne, s4) := by
  unfold init_checks at h
  cases h1 : read_threads argv with
  | error m => rw [h1] at h; exact absurd h (by simp)
  | ok nthreads' =>
    rw [h1] at h
    simp only at h
    cases h2 : read_dampener stdin with
    | error m => rw [h2] at h; exact absurd h (by simp)
    | ok r2 =>
      obtain ⟨d', s1⟩ := r2
      rw [h2] at h
      simp only at h
      cases h3 : read_npages s1 with
      | error m => rw [h3] at h; exact absurd h (by simp)
      | ok r3 =>
        obtain ⟨np', s2⟩ := r3
        rw [h3] at h
        simp only at h
        cases h4 : page_loop np' 0 ⟨[], [], hcreate np'⟩ s2 with
        | error m => rw [h4] at h; exact absurd h (by simp)
        | ok r4 =>
          obtain ⟨st', s3⟩ := r4
          rw [h4] at h
          simp only at h
          cases h5 : read_nedges s3 with
          | error m => rw [h5] at h; exact absurd h (by simp)
          | ok r5 =>
            obtain ⟨ne', s4'⟩ := r5
            rw [h5] at h
            simp only [Except.ok.injEq, Prod.mk.injEq] at h
            obtain ⟨e1, e2, e3, e4, e5, e6⟩ := h
            subst e1; subst e2; subst e3; subst e4; subst e5; subst e6
            exact ⟨s1, s2, s3, rfl, rfl, h3, h4, h5⟩

/-- After the checks, `init` is the edge loop followed by the save of the config. -/
theorem init_of_checks (argv : List (List Char)) (stdin : List Char) (nthreads : Nat)
    (d : CDouble) (np : Nat) (st : loader) (ne : Nat) (s4 : List Char)
    (h : init_checks argv stdin = .ok (nthreads, d, np, st, ne, s4)) :
    init argv stdin =
      match edge_loop ne st.tab st.mem s4 with
      | .error msg => .error msg
      | .ok mem => .ok { mem := mem, list := st.list, npages := np, nedges := ne,
                         nthreads := nthreads, dampener := d } := by
  obtain ⟨s1, s2, s3, h1, h2, h3, h4, h5⟩ := init_checks_ok _ _ _ _ _ _ _ _ h
  unfold init
  simp only [h1, h2, h3, h4, h5]

/-- A successful `init` passed the checks with the counts it stores. -/
theorem checks_of_init_ok (argv : List (List Char)) (stdin : List Char) (conf : config)
    (h : init argv stdin = .ok conf) :
    ∃ st s4, init_checks argv stdin
      = .ok (conf.nthreads, conf.dampener, conf.npages, st, conf.nedges, s4) := by
  obtain ⟨s1, s2, st, s3, s4, h1, h2, h3, h4, h5, _, _⟩ := init_ok argv stdin conf h
  refine ⟨st, s4, ?_⟩
  unfold init_checks
  simp only [h1, h2, h3, h4, h5]

/-- The next line of a text whose first line fits the buffer: `fgets` reads it,
with its newline when there is one, and leaves the other lines. -/
theorem fgets_text (s x : List Char) (ls : List (List Char)) (hs : splitLines s = x :: ls)
    (hx : x.length + 1 < MAX_LINE) (hne : x ≠ [] ∨ ls ≠ []) :
    ∃ r rest, fgets MAX_LINE s = some (r, rest) ∧ (r = x ∨ r = x ++ ['\n']) ∧
      (ls ≠ [] → splitLines rest = ls) := by
  have hsne : s ≠ [] := by
    intro h0
    rw [h0] at hs
    simp only [splitLines, List.cons.injEq] at hs
    rcases hne with h | h
    · exact h hs.1.symm
    · exact h hs.2.symm
  obtain ⟨h1, h2⟩ := fgets_aux_line s (MAX_LINE - 1) x ls hs (by omega)
  have hf : fgets MAX_LINE s = some (fgets_aux (MAX_LINE - 1) s) := by
    cases s with
    | nil => exact absurd rfl hsne
    | cons c s' => rfl
  by_cases hls : ls = []
  · obtain ⟨e1, _⟩ := h1 hls
    exact ⟨x, [], by rw [hf, e1], Or.inl rfl, fun h => absurd hls h⟩
  · obtain ⟨rest, e1, e2⟩ := h2 hls
    exact ⟨x ++ ['\n'], rest, by rw [hf, e1], Or.inr rfl, fun _ => e2⟩

theorem fitLines_tail (s rest x : List Char) (ls : List (List Char)) (n : Nat)
    (hs : splitLines s = x :: ls) (hr : splitLines rest = ls) (h : FitLines s (n + 1)) :
    FitLines rest n := by
  intro y hy
  apply h y
  rw [hs, List.take_succ_cons]
  rw [hr] at hy
  exact List.mem_cons_of_mem _ hy

theorem fitLines_mono (s : List Char) (m n : Nat) (hmn : m ≤ n) (h : FitLines s n) :
    FitLines s m := by
  intro y hy
  apply h y
  have : (splitLines s).take m = ((splitLines s).take n).take m := by
    rw [List.take_take, Nat.min_eq_left hmn]
  rw [this] at hy
  exact List.mem_of_mem_take hy

/-- Under `FitLines`, once `n` lines are read the lines left are those of the
text after its first `n` lines, when there are any. -/
theorem drop_lines_text (n : Nat) : ∀ s : List Char, (read_lines n s).length = n →
    FitLines s n → (splitLines s).drop n ≠ [] →
    splitLines (drop_lines n s) = (splitLines s).drop n := by
  induction n with
  | zero => intro s _ _ _; rfl
  | succ n ih =>
    intro s hlen hshort hdrop
    cases hs : splitLines s with
    | nil => exact absurd hs (splitLines_ne_nil s)
    | cons x ls =>
      rw [hs, List.drop_succ_cons] at hdrop
      have hls : ls ≠ [] := by
        intro h0
        rw [h0] at hdrop
        simp at hdrop
      have hx : x.length + 1 < MAX_LINE := hshort x (by rw [hs]; simp)
      obtain ⟨r, rest, hf, _, hrest⟩ := fgets_text s x ls hs hx (Or.inr hls)
      rw [read_lines_some _ _ _ _ hf] at hlen
      simp only [List.length_cons, Nat.add_right_cancel_iff] at hlen
      have hr := hrest hls
      rw [drop_lines_some _ _ _ _ hf, List.drop_succ_cons,
        ih rest hlen (fitLines_tail s rest x ls n hs hr hshort) (by rw [hr]; exact hdrop), hr]

/-! ## The edge loop on the text -/

theorem firstToken_nil : firstToken [] = [] := rfl

theorem lookup_eq_none (tab : htab) (key : List Char) :
    lookup tab key = none ↔ hsearch_FIND tab key = none := by
  unfold lookup
  exact Option.map_eq_none'

/-- The two names read on a line of the text whose names have at most 20
characters. -/
theorem sscanf_s_s_line (r x : List Char) (hr : r = x ∨ r = x ++ ['\n'])
    (h1 : (firstToken x).length ≤ MAX_NAME - 1) (h2 : (secondToken x).length ≤ MAX_NAME - 1)
    (hf : firstToken x ≠ []) (hs : secondToken x ≠ []) :
    sscanf_s_s r = some (firstToken x, secondToken x) := by
  have e1 : firstToken r = firstToken x := by
    rcases hr with h | h
    · rw [h]
    · rw [h, firstToken_append_nl]
  have e2 : secondToken r = secondToken x := by
    rcases hr with h | h
    · rw [h]
    · rw [h, secondToken_append_nl]
  rw [sscanf_s_s_eq r (by rw [e1]; exact h1), e1, e2]
  simp only [hf, hs, if_false]
  rw [List.take_of_length_le h2]

/-- The edge loop stops at the first edge line of the text that holds a name
the table does not find, with the message naming it, when the lines fit the
buffer and the lines up to that one hold two names of at most 20 characters. -/
theorem edge_loop_text_fail (tab : htab) (hz : tab.size ≠ 0) :
    ∀ (pre : List (List Char)) (n : Nat)
    (s : List Char) (mem : List page) (l : List Char) (post : List (List Char)),
    (splitLines s).take n = pre ++ l :: post → FitLines s n →
    (∀ x ∈ pre, (firstToken x).length ≤ MAX_NAME - 1 ∧ (secondToken x).length ≤ MAX_NAME - 1 ∧
      firstToken x ≠ [] ∧ secondToken x ≠ [] ∧
      lookup tab (firstToken x) ≠ none ∧ lookup tab (secondToken x) ≠ none) →
    (firstToken l).length ≤ MAX_NAME - 1 → (secondToken l).length ≤ MAX_NAME - 1 →
    firstToken l ≠ [] → secondToken l ≠ [] →
    (lookup tab (firstToken l) = none ∨ lookup tab (secondToken l) = none) →
    edge_loop n tab mem s = .error ("Unable to find page for " ++
      String.mk (if lookup tab (firstToken l) = none then firstToken l else secondToken l)) := by
  intro pre
  induction pre with
  | nil =>
    intro n s mem l post htake hshort _ hl1 hl2 hf hs hbad
    cases n with
    | zero => simp at htake
    | succ m =>
      cases hsp : splitLines s with
      | nil => exact absurd hsp (splitLines_ne_nil s)
      | cons x ls =>
        rw [hsp, List.take_succ_cons] at htake
        simp only [List.nil_append, List.cons.injEq] at htake
        obtain ⟨hx, _⟩ := htake
        subst hx
        have hxne : x ≠ [] := by
          intro h0
          rw [h0] at hf
          exact hf firstToken_nil
        obtain ⟨r, rest, hfg, hr, _⟩ := fgets_text s x ls hsp
          (hshort x (by rw [hsp]; simp)) (Or.inl hxne)
        have hsc := sscanf_s_s_line r x hr hl1 hl2 hf hs
        unfold edge_loop
        simp only [hfg, hsc, if_neg hz]
        cases h1 : hsearch_FIND tab (firstToken x) with
        | none =>
          have : lookup tab (firstToken x) = none := (lookup_eq_none _ _).2 h1
          simp [this]
        | some e1 =>
          have hn1 : lookup tab (firstToken x) ≠ none := by
            intro h0
            rw [(lookup_eq_none _ _).1 h0] at h1
            exact absurd h1 (by simp)
          rcases hbad with h0 | h0
          · exact absurd h0 hn1
          · rw [(lookup_eq_none _ _).1 h0]
            simp [hn1]
  | cons y pre ih =>
    intro n s mem l post htake hshort hpre hl1 hl2 hf hs hbad
    cases n with
    | zero => simp at htake
    | succ m =>
      cases hsp : splitLines s with
      | nil => exact absurd hsp (splitLines_ne_nil s)
      | cons x ls =>
        rw [hsp, List.take_succ_cons] at htake
        simp only [List.cons_append, List.cons.injEq] at htake
        obtain ⟨hx, htl⟩ := htake
        subst hx
        obtain ⟨hy1, hy2, hyf, hys, hyl1, hyl2⟩ := hpre x (List.mem_cons_self _ _)
        have hls : ls ≠ [] := by
          intro h0
          rw [h0] at htl
          simp at htl
        obtain ⟨r, rest, hfg, hr, hrest⟩ := fgets_text s x ls hsp
          (hshort x (by rw [hsp]; simp)) (Or.inr hls)
        have hsc := sscanf_s_s_line r x hr hy1 hy2 hyf hys
        have hrs := hrest hls
        unfold edge_loop
        simp only [hfg, hsc, if_neg hz]
        cases h1 : hsearch_FIND tab (firstToken x) with
        | none => exact absurd ((lookup_eq_none _ _).2 h1) hyl1
        | some e1 =>
          cases h2 : hsearch_FIND tab (secondToken x) with
          | none => exact absurd ((lookup_eq_none _ _).2 h2) hyl2
          | some e2 =>
            simp only
            exact ih m rest _ l post (by rw [hrs]; exact htl)
              (fitLines_tail s rest x ls m hsp hrs hshort)
              (fun z hz => hpre z (List.mem_cons_of_mem _ hz)) hl1 hl2 hf hs hbad

/-- The table that the checks leave for the edge loop is one that `hcreate` has
set up. -/
theorem init_checks_size (argv : List (List Char)) (stdin : List Char) (nthreads : Nat)
    (d : CDouble) (np : Nat) (st : loader) (ne : Nat) (s4 : List Char)
    (h : init_checks argv stdin = .ok (nthreads, d, np, st, ne, s4)) : st.tab.size ≠ 0 := by
  obtain ⟨s1, s2, s3, _, _, h3, h4, _⟩ := init_checks_ok _ _ _ _ _ _ _ _ h
  obtain ⟨_, _, _, hpos, _⟩ := read_count_ok _ _ _ _ h3
  obtain ⟨_, _, _, _, _, _, hsize, _⟩ := page_loop_ok _ _ _ _ _ _ h4
  cases np with
  | zero => exact absurd hpos (by decide)
  | succ m =>
    have := page_loop_size m 0 _ s2 st s3 h4
    rw [hsize]
    exact this

/-- What the checks leave for the edge loop, in terms of the text: the table
finds exactly the declared names, none of which is empty, and the input left
starts at the first edge line. -/
theorem checks_text (argv : List (List Char)) (stdin : List Char) (nthreads : Nat)
    (d : CDouble) (np : Nat) (st : loader) (ne : Nat) (s4 : List Char)
    (h : init_checks argv stdin = .ok (nthreads, d, np, st, ne, s4))
    (hs : FitLines stdin (3 + np))
    (hn : ∀ l ∈ inputNameLines stdin np, (firstToken l).length ≤ MAX_NAME - 1) :
    (∀ key, lookup st.tab key = find_page (declaredNames stdin np) key) ∧
    [] ∉ declaredNames stdin np ∧
    s4 = drop_lines (3 + np) stdin ∧
    (read_lines (3 + np) stdin).length = 3 + np := by
  obtain ⟨s1, s2, s3, _, h2, h3, h4, h5⟩ := init_checks_ok _ _ _ _ _ _ _ _ h
  obtain ⟨l1, hf1, _, _, _⟩ := read_dampener_ok _ _ _ h2
  obtain ⟨l2, hf2, _, _, _⟩ := read_count_ok _ _ _ _ h3
  obtain ⟨names, hlen, hrd, hdrop, _, _, _, htab⟩ := page_loop_ok _ _ _ _ _ _ h4
  obtain ⟨l3, hf3, _, _, _⟩ := read_count_ok _ _ _ _ h5
  have hnl : (read_lines np s2).length = np := by
    have := congrArg List.length hrd
    simp only [List.length_map] at this
    rw [this, hlen]
  have hlines : read_lines (3 + np) stdin = l1 :: l2 :: (read_lines np s2 ++ [l3]) := by
    have e : 3 + np = 1 + (1 + (np + (1 + 0))) := by omega
    rw [e, read_lines_one_add _ _ _ _ hf1, read_lines_one_add _ _ _ _ hf2, read_lines_add,
      ← hdrop, read_lines_one_add _ _ _ _ hf3]
    rfl
  have hfull : (read_lines (3 + np) stdin).length = 3 + np := by
    rw [hlines]
    simp only [List.length_cons, List.length_append, List.length_nil, hnl]
    omega
  have hs4 : s4 = drop_lines (3 + np) stdin := by
    have e : 3 + np = 1 + (1 + (np + 1)) := by omega
    rw [e, drop_lines_add, drop_lines_one _ _ _ hf1, drop_lines_add, drop_lines_one _ _ _ hf2,
      drop_lines_add, ← hdrop, drop_lines_one _ _ _ hf3]
  have htext := read_lines_text firstToken firstToken_append_nl _ stdin hfull hs
  rw [hlines] at htext
  have hnames_text : (read_lines np s2).map firstToken = declaredNames stdin np := by
    have h1 := congrArg (fun l => (l.drop 2).take np) htext
    simp only [List.map_cons, List.map_append, List.drop_succ_cons, List.drop_zero] at h1
    rw [List.take_left' (by rw [List.length_map, hnl])] at h1
    rw [h1]
    unfold declaredNames inputNameLines
    rw [← List.map_drop, ← List.map_take, List.drop_take, List.take_take]
    have e : min np (3 + np - 2) = np := by omega
    rw [e]
  have hlen20 : ∀ r ∈ read_lines np s2, (firstToken r).length ≤ MAX_NAME - 1 :=
    forall_of_map_eq firstToken (fun x => x.length ≤ MAX_NAME - 1) _ _ hnames_text hn
  have hnames : names = (read_lines np s2).map firstToken := by
    apply eq_map_of_map_some sscanf_s firstToken _ _ hrd
    intro r hr a ha
    rw [sscanf_s_eq] at ha
    split at ha
    · exact absurd ha (by simp)
    · simp only [Option.some.injEq] at ha
      rw [← ha, List.take_of_length_le (hlen20 r hr)]
  have hne : [] ∉ names := by
    intro hmem
    have : some ([] : List Char) ∈ (read_lines np s2).map sscanf_s := by
      rw [hrd]
      exact List.mem_map_of_mem some hmem
    obtain ⟨r, _, hr2⟩ := List.mem_map.1 this
    rw [sscanf_s_eq] at hr2
    split at hr2
    · exact absurd hr2 (by simp)
    · rename_i hft
      simp only [Option.some.injEq] at hr2
      exact hft ((take_eq_nil_of_pos _ (by decide) _).1 hr2)
  simp only [List.nil_append, List.length_nil, hcreate_table] at htab
  rw [← hlen] at htab
  rw [← hnames_text, ← hnames]
  exact ⟨lookup_after_page_loop names st.tab htab, hne, hs4, hfull⟩

/-! ## The range checks -/

/-- A thread count that `atoi` reads as 0 is rejected. -/
theorem zero_threads_rejected (argv : List (List Char)) (stdin : List Char)
    (hargc : argv.length = 2) (h0 : atoi (argv.getD 1 []) = 0) :
    init argv stdin = .error "Invalid number of threads" := by
  have : read_threads argv = .error "Invalid number of threads" := by
    unfold read_threads
    simp only [hargc, ne_eq, not_true_eq_false, if_false, h0]
    rfl
  simp [init, this]

/-- The dampening factor that a successful `init` stores is the value read on
the first line, and it is in `[0, 1]` unless it is NaN. -/
theorem dampener_range (argv : List (List Char)) (stdin : List Char) (conf : config)
    (h : init argv stdin = .ok conf) :
    sscanf_lf ((read_lines 1 stdin).getD 0 []) = some conf.dampener ∧
    (conf.dampener = .nan ∨ conf.dampener.inUnit) := by
  obtain ⟨t⟩ := init_trace argv stdin conf h
  constructor
  · rw [read_lines_take 1 _ stdin (by omega) t.lines_length, t.lines_eq]
    simpa using t.dampener_eq
  · have h1 := t.dampener_ge
    have h2 := t.dampener_le
    cases hd : conf.dampener with
    | nan => exact Or.inl rfl
    | negzero => exact Or.inr trivial
    | inf neg =>
      rw [hd] at h1 h2
      simp only [CDouble.ltZero, CDouble.gtOne] at h1 h2
      rw [h1] at h2
      exact absurd h2 (by simp)
    | finite q =>
      rw [hd] at h1 h2
      simp only [CDouble.ltZero, CDouble.gtOne, decide_eq_false_iff_not, not_lt] at h1 h2
      exact Or.inr ⟨h1, h2⟩

/-- A first line that `%lf` does not convert, or converts to a value below 0 or
above 1, is rejected. -/
theorem dampener_rejected (argv : List (List Char)) (stdin : List Char) (nthreads : Nat)
    (line rest : List Char) (ht : read_threads argv = .ok nthreads)
    (hf : fgets MAX_LINE stdin = some (line, rest))
    (hbad : sscanf_lf line = none ∨
      ∃ d, sscanf_lf line = some d ∧ (d.ltZero = true ∨ d.gtOne = true)) :
    init argv stdin = .error "Invalid dampening factor" := by
  have : read_dampener stdin = .error "Invalid dampening factor" := by
    unfold read_dampener
    rcases hbad with h | ⟨d, h, hd⟩
    · simp [hf, h]
    · rcases hd with hd | hd <;> simp [hf, h, hd]
  simp [init, ht, this]

/-- For the page count 4294967296 `hcreate` sets up no table: `init` prints its
message when the input ends before the first name, and is killed in the first
`hsearch` when there is a name. -/
theorem init_killed_without_table :
    init sample_argv "1\n4294967296\n".toList
      = .error "Unexpected EOF while reading page names" ∧
    init sample_argv "1\n4294967296\nA\n".toList = .error Halt.sigfpe := by
  decide

/-- The dampening factor is tested after its rounding to a double: the texts
`1.0000000000000001` and `-0` are accepted, as 1 and as the zero of sign `-`,
and `1.0000000000000002`, which rounds above 1, is rejected. -/
theorem dampener_rounded :
    sscanf_lf "1.0000000000000001\n".toList = some (.finite 1) ∧
    sscanf_lf "-0\n".toList = some .negzero ∧
    (∃ conf, init sample_argv "1.0000000000000001\n1\nA\n1\nA A\n".toList = .ok conf) ∧
    (∃ conf, init sample_argv "-0\n1\nA\n1\nA A\n".toList = .ok conf) ∧
    init sample_argv "1.0000000000000002\n1\nA\n1\nA A\n".toList
      = .error "Invalid dampening factor" := by
  refine ⟨by decide, by decide, ⟨_, by rfl⟩, ⟨_, by rfl⟩, by decide⟩

/-- With lines that fit the buffer and distinct declared names of at most 20
characters, the pages of the list have distinct names. -/
theorem names_distinct_of_declared (argv : List (List Char)) (stdin : List Char)
    (conf : config) (h : init argv stdin = .ok conf)
    (hs : ShortLines stdin (3 + conf.npages + conf.nedges))
    (hd : DeclaredNames stdin conf.npages) :
    (conf.pages.map (fun p => p.name)).Nodup := by
  obtain ⟨t⟩ := init_trace argv stdin conf h
  have hnames := t.names_text hs hd.2
  have : conf.pages.map (fun p => p.name) = t.names := by
    rw [t.pages_eq]
    apply List.ext_getElem?
    intro k
    by_cases hk : k < conf.mem.length
    · obtain ⟨hn, _, _, _⟩ := t.page_of_mem k conf.mem[k] (List.getElem?_eq_getElem hk)
      rw [List.getElem?_map, List.getElem?_eq_getElem hk, Option.map_some', hn]
    · have hk' : conf.mem.length ≤ k := Nat.le_of_not_lt hk
      rw [List.getElem?_eq_none (by simpa using hk'),
        List.getElem?_eq_none (by rw [t.names_length, ← t.mem_length]; exact hk')]
  rw [this, hnames]
  exact hd.1

/-! ## Sums over the pages -/

theorem sum_indicator (c : Nat) : ∀ n : Nat,
    ((List.range n).map (fun k => if c = k then 1 else 0)).sum = if c < n then 1 else 0 := by
  intro n
  induction n with
  | zero => simp
  | succ n ih =>
    rw [List.range_succ, List.map_append, List.sum_append, ih]
    simp only [List.map_cons, List.map_nil, List.sum_cons, List.sum_nil, Nat.add_zero]
    by_cases h1 : c < n
    · have h2 : c ≠ n := by omega
      have h3 : c < n + 1 := by omega
      simp [h1, h2, h3]
    · by_cases h2 : c = n
      · subst h2
        simp
      · have h3 : ¬ c < n + 1 := by omega
        simp [h1, h2, h3]

/-- Counting the elements that satisfy `g` class by class of `f` and adding up
the classes counts each of them once. -/
theorem sum_countP_fibers {α : Type} (f : α → Nat) (g : α → Bool) (n : Nat) :
    ∀ l : List α, (∀ x ∈ l, f x < n) →
    ((List.range n).map (fun k => l.countP (fun x => decide (f x = k) && g x))).sum
      = l.countP g := by
  intro l
  induction l with
  | nil => intro _; simp
  | cons x l ih =>
    intro h
    have hx : f x < n := h x (List.mem_cons_self _ _)
    have hl := ih (fun y hy => h y (List.mem_cons_of_mem _ hy))
    simp only [List.countP_cons]
    rw [List.sum_map_add, hl]
    congr 1
    by_cases hg : g x = true
    · have : (fun k => if (decide (f x = k) && g x) = true then 1 else 0)
          = (fun k => if f x = k then 1 else 0) := by
        funext k
        simp [hg]
      rw [this, sum_indicator, if_pos hx, if_pos hg]
    · have : (fun k => if (decide (f x = k) && g x) = true then 1 else 0)
          = (fun _ => 0) := by
        funext k
        simp [hg]
      rw [this, if_neg hg]
      simp

namespace Trace

variable {stdin : List Char} {conf : config}

/-- A projection of the pages of the store, address by address. -/
theorem map_mem {β : Type} (t : Trace stdin conf) (F : page → β) (G : Nat → β)
    (h : ∀ k p, conf.mem[k]? = some p → F p = G k) :
    conf.mem.map F = (List.range conf.npages).map G := by
  apply List.ext_getElem?
  intro k
  by_cases hk : k < conf.mem.length
  · rw [List.getElem?_map, List.getElem?_eq_getElem hk, Option.map_some',
      h k _ (List.getElem?_eq_getElem hk), List.getElem?_map,
      List.getElem?_range (by rw [← t.mem_length]; exact hk), Option.map_some']
  · have hk' : conf.mem.length ≤ k := Nat.le_of_not_lt hk
    rw [List.getElem?_eq_none (by simpa using hk'),
      List.getElem?_eq_none (by simpa [t.mem_length] using hk')]

/-- The lengths of the inlinks lists of the pages of the list add up to `nedges`. -/
theorem sum_inlinks_length (t : Trace stdin conf) :
    ((conf.list.filterMap (fun a => conf.mem[a]?)).map (fun p => p.inlinks.length)).sum
      = conf.nedges := by
  have hp : conf.list.filterMap (fun a => conf.mem[a]?) = conf.mem := t.pages_eq
  rw [hp, t.map_mem (fun p => p.inlinks.length)
    (fun k => t.edges.countP (fun e => decide (e.2 = k) && true))
    (fun k p hp => by
      obtain ⟨_, _, _, hin⟩ := t.page_of_mem k p hp
      simp only [hin, List.length_reverse, List.length_map, Bool.and_true,
        List.countP_eq_length_filter])]
  rw [sum_countP_fibers Prod.snd (fun _ => true) conf.npages t.edges
    (fun e he => (t.edge_lt e he).2)]
  simp [t.edges_length]

end Trace

/-! ## The names stored -/

theorem firstToken_nonspace (l : List Char) : ∀ c ∈ firstToken l, isspace c = false := by
  intro c hc
  unfold firstToken at hc
  have := List.mem_takeWhile_imp hc
  simpa using this

/-- The first name of a line cut to 20 characters: what `%20s` stores. -/
theorem sscanf_s_some (line nm : List Char) (h : sscanf_s line = some nm) :
    nm = (firstToken line).take (MAX_NAME - 1) ∧ firstToken line ≠ [] := by
  rw [sscanf_s_eq] at h
  split at h
  · exact absurd h (by simp)
  · rename_i hne
    simp only [Option.some.injEq] at h
    exact ⟨h.symm, hne⟩

theorem cut_append_nl (l : List Char) :
    (firstToken (l ++ ['\n'])).take (MAX_NAME - 1) = (firstToken l).take (MAX_NAME - 1) := by
  rw [firstToken_append_nl]

namespace Trace

variable {stdin : List Char} {conf : config}

/-- The names of the pages of the list are the names read, in order. -/
theorem names_of_pages (t : Trace stdin conf) :
    conf.pages.map (fun p => p.name) = t.names := by
  rw [t.pages_eq]
  apply List.ext_getElem?
  intro k
  by_cases hk : k < conf.mem.length
  · obtain ⟨hn, _, _, _⟩ := t.page_of_mem k conf.mem[k] (List.getElem?_eq_getElem hk)
    rw [List.getElem?_map, List.getElem?_eq_getElem hk, Option.map_some', hn]
  · have hk' : conf.mem.length ≤ k := Nat.le_of_not_lt hk
    rw [List.getElem?_eq_none (by simpa using hk'),
      List.getElem?_eq_none (by rw [t.names_length, ← t.mem_length]; exact hk')]

/-- The names read are the first names of the name lines read, cut to 20
characters. -/
theorem names_cut (t : Trace stdin conf) :
    t.names = t.nameLines.map (fun l => (firstToken l).take (MAX_NAME - 1)) := by
  apply eq_map_of_map_some sscanf_s _ _ _ t.names_eq
  intro r _ a ha
  exact (sscanf_s_some r a ha).1

/-- When the first `2 + npages` lines of the text are shorter than 100
characters, a function blind to a final newline sees the same on the name lines
read as on those of the text. -/
theorem name_lines_text {β : Type} (t : Trace stdin conf) (f : List Char → β)
    (hf : ∀ l : List Char, f (l ++ ['\n']) = f l)
    (hs : ShortLines stdin (2 + conf.npages)) :
    t.nameLines.map f = (inputNameLines stdin conf.npages).map f := by
  have htake := read_lines_take (2 + conf.npages) _ stdin (by omega) t.lines_length
  have hl : read_lines (2 + conf.npages) stdin = t.l1 :: t.l2 :: t.nameLines := by
    rw [htake, t.lines_eq]
    have e2 : 2 + conf.npages = t.nameLines.length + 2 := by rw [t.nameLines_length]; omega
    rw [e2]
    simp
  have hlen : (read_lines (2 + conf.npages) stdin).length = 2 + conf.npages := by
    rw [hl]
    simp only [List.length_cons, t.nameLines_length]
    omega
  have hnb : ['\n'] ∉ read_lines (2 + conf.npages) stdin := by
    rw [htake]
    intro h
    exact t.no_blank (List.mem_of_mem_take h)
  have h := (read_lines_short f hf _ stdin hlen hs).resolve_right hnb
  rw [hl] at h
  have h1 := congrArg (fun l => l.drop 2) h
  simp only [List.map_cons, List.drop_succ_cons, List.drop_zero] at h1
  rw [h1]
  unfold inputNameLines
  rw [← List.map_drop, List.drop_take]
  have e : 2 + conf.npages - 2 = conf.npages := by omega
  rw [e]

end Trace

/-! ## Release of the lists -/

theorem release_inlinks_eq (owner : Ptr) (l : List Ptr) : ∀ k : Nat,
    release_inlinks owner k l = (List.range' k l.length).map (Freed.inlink_node owner) := by
  induction l with
  | nil => intro k; rfl
  | cons a l ih =>
    intro k
    simp only [release_inlinks, List.length_cons, List.range'_succ, List.map_cons, ih]

theorem release_inlinks_nodup (owner : Ptr) (l : List Ptr) (k : Nat) :
    (release_inlinks owner k l).Nodup := by
  rw [release_inlinks_eq]
  apply List.Nodup.map _ (List.nodup_range' k l.length)
  intro a b hab
  simpa using hab

theorem mem_release_inlinks (owner : Ptr) (l : List Ptr) (k : Nat) (x : Freed) :
    x ∈ release_inlinks owner k l ↔ ∃ i, k ≤ i ∧ i < k + l.length ∧ x = Freed.inlink_node owner i := by
  rw [release_inlinks_eq]
  simp only [List.mem_map, List.mem_range'_1]
  constructor
  · rintro ⟨i, ⟨h1, h2⟩, h3⟩
    exact ⟨i, h1, h2, h3.symm⟩
  · rintro ⟨i, h1, h2, h3⟩
    exact ⟨i, ⟨h1, h2⟩, h3.symm⟩

theorem countP_release_inlinks (owner : Ptr) (l : List Ptr) (k : Nat) :
    (release_inlinks owner k l).countP Freed.isInlinkNode = l.length ∧
    (release_inlinks owner k l).countP Freed.isPageRecord = 0 ∧
    (release_inlinks owner k l).countP Freed.isListNode = 0 := by
  induction l generalizing k with
  | nil => simp [release_inlinks]
  | cons a l ih =>
    obtain ⟨h1, h2, h3⟩ := ih (k + 1)
    simp [release_inlinks, List.countP_cons, h1, h2, h3, Freed.isInlinkNode,
      Freed.isPageRecord, Freed.isListNode]

theorem release_cons (mem : List page) (k : Nat) (c : Ptr) (next : List Ptr) :
    release mem k (c :: next)
      = released_chain mem c ++ Freed.page_record c :: Freed.list_node k ::
          release mem (k + 1) next := rfl

theorem mem_released_chain (mem : List page) (c : Ptr) (x : Freed) :
    x ∈ released_chain mem c ↔
      ∃ p i, mem[c]? = some p ∧ i < p.inlinks.length ∧ x = Freed.inlink_node c i := by
  unfold released_chain
  cases hc : mem[c]? with
  | none => simp
  | some p =>
    simp only [mem_release_inlinks, Nat.zero_le, Nat.zero_add, true_and, Option.some.injEq]
    constructor
    · rintro ⟨i, h1, h2⟩
      exact ⟨p, i, rfl, h1, h2⟩
    · rintro ⟨q, i, h0, h1, h2⟩
      subst h0
      exact ⟨i, h1, h2⟩

/-- Everything that `release` frees belongs to a node of the list. -/
theorem mem_release (mem : List page) (list : List Ptr) : ∀ (k : Nat) (x : Freed),
    x ∈ release mem k list →
    (∃ j, k ≤ j ∧ x = Freed.list_node j) ∨ (∃ a ∈ list, x = Freed.page_record a) ∨
    (∃ a ∈ list, ∃ i, x = Freed.inlink_node a i) := by
  induction list with
  | nil => intro k x h; simp [release] at h
  | cons c next ih =>
    intro k x h
    rw [release_cons] at h
    simp only [List.mem_append, List.mem_cons] at h
    rcases h with h | h | h | h
    · obtain ⟨p, i, _, _, hx⟩ := (mem_released_chain mem c x).1 h
      exact Or.inr (Or.inr ⟨c, List.mem_cons_self _ _, i, hx⟩)
    · exact Or.inr (Or.inl ⟨c, List.mem_cons_self _ _, h⟩)
    · exact Or.inl ⟨k, Nat.le_refl _, h⟩
    · rcases ih (k + 1) x h with ⟨j, hj, hx⟩ | ⟨a, ha, hx⟩ | ⟨a, ha, i, hx⟩
      · exact Or.inl ⟨j, by omega, hx⟩
      · exact Or.inr (Or.inl ⟨a, List.mem_cons_of_mem _ ha, hx⟩)
      · exact Or.inr (Or.inr ⟨a, List.mem_cons_of_mem _ ha, i, hx⟩)

/-- On a list of distinct pages, `release` frees nothing twice. -/
theorem release_nodup (mem : List page) (list : List Ptr) (hnd : list.Nodup) :
    ∀ k : Nat, (release mem k list).Nodup := by
  induction list with
  | nil => intro k; simp [release]
  | cons c next ih =>
    intro k
    obtain ⟨hc, hnext⟩ := List.nodup_cons.1 hnd
    rw [release_cons]
    have hchain : (released_chain mem c).Nodup := by
      unfold released_chain
      cases mem[c]? with
      | none => simp
      | some p => exact release_inlinks_nodup c p.inlinks 0
    have hrest := ih hnext (k + 1)
    have h1 : Freed.list_node k ∉ release mem (k + 1) next := by
      intro h
      rcases mem_release mem next (k + 1) _ h with ⟨j, hj, hx⟩ | ⟨a, _, hx⟩ | ⟨a, _, i, hx⟩
      · simp only [Freed.list_node.injEq] at hx
        omega
      · exact absurd hx (by simp)
      · exact absurd hx (by simp)
    have h2 : Freed.page_record c ∉ Freed.list_node k :: release mem (k + 1) next := by
      intro h
      simp only [List.mem_cons] at h
      rcases h with h | h
      · exact absurd h (by simp)
      · rcases mem_release mem next (k + 1) _ h with ⟨j, _, hx⟩ | ⟨a, ha, hx⟩ | ⟨a, _, i, hx⟩
        · exact absurd hx (by simp)
        · simp only [Freed.page_record.injEq] at hx
          exact hc (hx ▸ ha)
        · exact absurd hx (by simp)
    apply List.Nodup.append hchain
      (List.nodup_cons.2 ⟨h2, List.nodup_cons.2 ⟨h1, hrest⟩⟩)
    intro x hx hx'
    obtain ⟨p, i, _, _, hxe⟩ := (mem_released_chain mem c x).1 hx
    subst hxe
    simp only [List.mem_cons] at hx'
    rcases hx' with h | h | h
    · exact absurd h (by simp)
    · exact absurd h (by simp)
    · rcases mem_release mem next (k + 1) _ h with ⟨j, _, hx⟩ | ⟨a, _, hx⟩ | ⟨a, ha, i', hx⟩
      · exact absurd hx (by simp)
      · exact absurd hx (by simp)
      · simp only [Freed.inlink_node.injEq] at hx
        exact hc (hx.1 ▸ ha)

/-- The numbers of page records, list nodes and inlink nodes that `release`
frees. -/
theorem countP_release (mem : List page) (list : List Ptr) : ∀ k : Nat,
    (release mem k list).countP Freed.isPageRecord = list.length ∧
    (release mem k list).countP Freed.isListNode = list.length ∧
    (release mem k list).countP Freed.isInlinkNode
      = ((list.filterMap (fun a => mem[a]?)).map (fun p => p.inlinks.length)).sum := by
  induction list with
  | nil => intro k; simp [release]
  | cons c next ih =>
    intro k
    obtain ⟨h1, h2, h3⟩ := ih (k + 1)
    have hchain : (released_chain mem c).countP Freed.isInlinkNode
          = ((List.filterMap (fun a => mem[a]?) [c]).map (fun p => p.inlinks.length)).sum ∧
        (released_chain mem c).countP Freed.isPageRecord = 0 ∧
        (released_chain mem c).countP Freed.isListNode = 0 := by
      unfold released_chain
      cases hc : mem[c]? with
      | none => simp [hc]
      | some p =>
        obtain ⟨e1, e2, e3⟩ := countP_release_inlinks c p.inlinks 0
        simp [hc, e1, e2, e3]
    obtain ⟨c1, c2, c3⟩ := hchain
    have e : c :: next = [c] ++ next := rfl
    rw [release_cons]
    refine ⟨?_, ?_, ?_⟩
    · rw [List.countP_append, List.countP_cons, List.countP_cons, c2, h1]
      simp [Freed.isPageRecord]
    · rw [List.countP_append, List.countP_cons, List.countP_cons, c3, h2]
      simp [Freed.isListNode]
    · rw [List.countP_append, List.countP_cons, List.countP_cons, c1, h3, e,
        List.filterMap_append, List.map_append, List.sum_append]
      simp [Freed.isInlinkNode]

/-- Every node of the list, its page and the nodes of its inlinks are freed. -/
theorem release_visits (mem : List page) (list : List Ptr) : ∀ (k j : Nat) (a : Ptr),
    list[j]? = some a →
    Freed.list_node (k + j) ∈ release mem k list ∧ Freed.page_record a ∈ release mem k list ∧
    ∀ p i, mem[a]? = some p → i < p.inlinks.length →
      Freed.inlink_node a i ∈ release mem k list := by
  induction list with
  | nil => intro k j a h; simp at h
  | cons c next ih =>
    intro k j a h
    rw [release_cons]
    cases j with
    | zero =>
      simp only [List.getElem?_cons_zero, Option.some.injEq] at h
      subst h
      refine ⟨by simp, by simp, ?_⟩
      intro p i hp hi
      apply List.mem_append_left
      exact (mem_released_chain mem c _).2 ⟨p, i, hp, hi, rfl⟩
    | succ j =>
      simp only [List.getElem?_cons_succ] at h
      obtain ⟨e1, e2, e3⟩ := ih (k + 1) j a h
      have e : k + (j + 1) = k + 1 + j := by omega
      rw [e]
      refine ⟨?_, ?_, ?_⟩
      · exact List.mem_append_right _ (List.mem_cons_of_mem _ (List.mem_cons_of_mem _ e1))
      · exact List.mem_append_right _ (List.mem_cons_of_mem _ (List.mem_cons_of_mem _ e2))
      · intro p i hp hi
        exact List.mem_append_right _
          (List.mem_cons_of_mem _ (List.mem_cons_of_mem _ (e3 p i hp hi)))

/-! ## All the lines of the input -/

theorem fgets_aux_length (n : Nat) : ∀ s : List Char,
    (fgets_aux n s).1.length + (fgets_aux n s).2.length = s.length := by
  induction n with
  | zero => intro s; simp [fgets_aux]
  | succ n ih =>
    intro s
    cases s with
    | nil => simp [fgets_aux]
    | cons c s =>
      by_cases hc : c = '\n'
      · simp only [fgets_aux, hc, if_true, List.length_cons, List.length_nil]
        omega
      · have := ih s
        simp only [fgets_aux, hc, if_false, List.length_cons]
        omega

/-- A successful `fgets` consumes at least one character. -/
theorem fgets_length (s line rest : List Char) (h : fgets MAX_LINE s = some (line, rest)) :
    rest.length < s.length := by
  cases s with
  | nil => simp [fgets] at h
  | cons c s =>
    simp only [fgets, Option.some.injEq] at h
    have e : MAX_LINE - 1 = 98 + 1 := rfl
    rw [e] at h
    by_cases hc : c = '\n'
    · simp only [fgets_aux, hc, if_true, Prod.mk.injEq] at h
      rw [← h.2]
      simp
    · simp only [fgets_aux, hc, if_false, Prod.mk.injEq] at h
      have := fgets_aux_length 98 s
      rw [← h.2]
      simp only [List.length_cons]
      omega

/-- Reading more lines than the input has characters reads all its lines. -/
theorem read_lines_stable (n : Nat) : ∀ (m : Nat) (s : List Char),
    s.length ≤ n → s.length ≤ m → read_lines n s = read_lines m s := by
  induction n with
  | zero =>
    intro m s hn _
    have : s = [] := List.length_eq_zero.1 (by omega)
    subst this
    rw [read_lines_none _ _ fgets_nil, read_lines_none _ _ fgets_nil]
  | succ n ih =>
    intro m s hn hm
    cases hf : fgets MAX_LINE s with
    | none => rw [read_lines_none _ _ hf, read_lines_none _ _ hf]
    | some lr =>
      obtain ⟨line, rest⟩ := lr
      have hlt := fgets_length s line rest hf
      cases m with
      | zero => omega
      | succ m =>
        rw [read_lines_some _ _ _ _ hf, read_lines_some _ _ _ _ hf,
          ih m rest (by omega) (by omega)]

theorem all_lines_none (s : List Char) (h : fgets MAX_LINE s = none) : all_lines s = [] :=
  read_lines_none _ _ h

theorem all_lines_some (s line rest : List Char) (h : fgets MAX_LINE s = some (line, rest)) :
    all_lines s = line :: all_lines rest := by
  have hlt := fgets_length s line rest h
  unfold all_lines
  cases hs : s.length with
  | zero => omega
  | succ n =>
    rw [read_lines_some _ _ _ _ h, read_lines_stable n rest.length rest (by omega) (Nat.le_refl _)]

/-- The next `n` lines are the first `n` of all the lines. -/
theorem read_lines_eq_take (n : Nat) : ∀ s : List Char,
    read_lines n s = (all_lines s).take n := by
  induction n with
  | zero => intro s; simp [read_lines]
  | succ n ih =>
    intro s
    cases hf : fgets MAX_LINE s with
    | none => rw [read_lines_none _ _ hf, all_lines_none _ hf]; rfl
    | some lr =>
      obtain ⟨line, rest⟩ := lr
      rw [read_lines_some _ _ _ _ hf, all_lines_some _ _ _ hf, List.take_succ_cons, ih]

/-- The lines left once `n` lines are read. -/
theorem all_lines_drop (n : Nat) : ∀ s : List Char,
    all_lines (drop_lines n s) = (all_lines s).drop n := by
  induction n with
  | zero => intro s; rfl
  | succ n ih =>
    intro s
    cases hf : fgets MAX_LINE s with
    | none =>
      rw [drop_lines_none _ _ hf, all_lines_none _ hf, all_lines_none _ fgets_nil]
      rfl
    | some lr =>
      obtain ⟨line, rest⟩ := lr
      rw [drop_lines_some _ _ _ _ hf, all_lines_some _ _ _ hf, List.drop_succ_cons, ih]

/-- The call `sscanf(line, "%20s %20s", ...)` reads the names of `splitNames`. -/
theorem sscanf_s_s_eq_split (line : List Char) : sscanf_s_s line = splitNames line := by
  unfold sscanf_s_s splitNames
  rw [scan_s_eq _ (by decide)]
  by_cases h1 : firstToken line = []
  · simp [h1]
  · simp only [h1, if_false]
    rw [scan_s_eq _ (by decide), firstToken_dropWhile]
    by_cases h2 : firstToken ((line.dropWhile isspace).drop
        ((firstToken line).take (MAX_NAME - 1)).length) = []
    · simp only [h2, if_true]
    · simp only [h2, if_false]

/-! ## The messages of the two loops -/

theorem hsearch_ENTER_room (h : htab) (e : ENTRY) (n : Nat)
    (hcap : h.table.length + (n + 1) ≤ h.size) :
    ∃ old h', hsearch_ENTER h e = some (old, h') ∧ h'.table.length + n ≤ h'.size := by
  unfold hsearch_ENTER
  cases hf : hsearch_FIND h e.1 with
  | some old => exact ⟨old, h, rfl, by omega⟩
  | none =>
    have hlt : h.table.length < h.size := by omega
    simp only [hlt, if_true]
    exact ⟨e, _, rfl, by simp only [List.length_append, List.length_singleton]; omega⟩

/-- The page loop on a table with room for its entries: it ends normally when
each of the next `n` lines exists and holds a token, and else prints
"Unexpected EOF while reading page names". The table is never full. -/
theorem page_loop_message (n : Nat) : ∀ (i : Nat) (st : loader) (s : List Char),
    st.tab.table.length + n ≤ st.tab.size →
    (((read_lines n s).length = n ∧ ∀ l ∈ read_lines n s, firstToken l ≠ []) →
      ∃ st', page_loop n i st s = .ok (st', drop_lines n s)) ∧
    (¬ ((read_lines n s).length = n ∧ ∀ l ∈ read_lines n s, firstToken l ≠ []) →
      page_loop n i st s = .error "Unexpected EOF while reading page names") := by
  induction n with
  | zero =>
    intro i st s _
    refine ⟨fun _ => ⟨st, rfl⟩, fun h => absurd ⟨rfl, ?_⟩ h⟩
    intro l hl
    simp [read_lines] at hl
  | succ n ih =>
    intro i st s hcap
    cases hf : fgets MAX_LINE s with
    | none =>
      rw [read_lines_none _ _ hf]
      refine ⟨fun h => absurd h.1 (by simp), fun _ => ?_⟩
      simp [page_loop, hf]
    | some lr =>
      obtain ⟨line, rest⟩ := lr
      rw [read_lines_some _ _ _ _ hf, drop_lines_some _ _ _ _ hf]
      by_cases htok : firstToken line = []
      · refine ⟨fun h => absurd htok (h.2 line (List.mem_cons_self _ _)), fun _ => ?_⟩
        have hs : sscanf_s line = none := by rw [sscanf_s_eq, if_pos htok]
        simp [page_loop, hf, hs]
      · have hs : sscanf_s line = some ((firstToken line).take (MAX_NAME - 1)) := by
          rw [sscanf_s_eq, if_neg htok]
        obtain ⟨old, tab, he, hcap'⟩ := hsearch_ENTER_room st.tab
          ((firstToken line).take (MAX_NAME - 1), st.mem.length) n hcap
        have hstep : page_loop (n + 1) i st s = page_loop n (i + 1)
            (loader.mk (st.mem ++ [page.mk ((firstToken line).take (MAX_NAME - 1)) i 0 []])
              (st.list ++ [st.mem.length]) tab) rest := by
          have hz : st.tab.size ≠ 0 := by omega
          simp [page_loop, hf, hs, he, hz]
        obtain ⟨ih1, ih2⟩ := ih (i + 1)
          (loader.mk (st.mem ++ [page.mk ((firstToken line).take (MAX_NAME - 1)) i 0 []])
            (st.list ++ [st.mem.length]) tab) rest hcap'
        rw [hstep]
        constructor
        · intro h
          apply ih1
          simp only [List.length_cons, Nat.add_right_cancel_iff] at h
          exact ⟨h.1, fun l hl => h.2 l (List.mem_cons_of_mem _ hl)⟩
        · intro h
          apply ih2
          intro h'
          apply h
          refine ⟨by simp [h'.1], ?_⟩
          intro l hl
          rcases List.mem_cons.1 hl with hl | hl
          · rw [hl]; exact htok
          · exact h'.2 l hl

/-- The message of the edge loop, on a table that finds exactly the declared
names: that of the check of the next `n` lines. -/
theorem edge_loop_message (tab : htab) (hz : tab.size ≠ 0) (declared : List (List Char))
    (htab : ∀ key, hsearch_FIND tab key = none ↔ key ∉ declared) (n : Nat) :
    ∀ (mem : List page) (s : List Char),
    message_of (edge_loop n tab mem s) = edges_message splitNames declared n (all_lines s) := by
  induction n with
  | zero => intro mem s; rfl
  | succ n ih =>
    intro mem s
    cases hf : fgets MAX_LINE s with
    | none =>
      rw [all_lines_none _ hf]
      simp [edge_loop, hf, message_of, edges_message]
    | some lr =>
      obtain ⟨line, rest⟩ := lr
      rw [all_lines_some _ _ _ hf]
      unfold edge_loop edges_message
      simp only [hf]
      rw [sscanf_s_s_eq_split]
      cases hn : splitNames line with
      | none => rfl
      | some pr =>
        obtain ⟨a, b⟩ := pr
        simp only [if_neg hz]
        cases h1 : hsearch_FIND tab a with
        | none =>
          have : a ∉ declared := (htab a).1 h1
          simp [this, message_of]
        | some e1 =>
          have ha : ¬ a ∉ declared := by
            intro hc
            rw [(htab a).2 hc] at h1
            exact absurd h1 (by simp)
          cases h2 : hsearch_FIND tab b with
          | none =>
            have : b ∉ declared := (htab b).1 h2
            simp [ha, this, message_of]
          | some e2 =>
            have hb : ¬ b ∉ declared := by
              intro hc
              rw [(htab b).2 hc] at h2
              exact absurd h2 (by simp)
            simp only [ha, hb, if_false]
            exact ih _ rest

/-- On a table that `hcreate` has set up, the edge loop is not ended by a
signal. -/
theorem edge_loop_no_signal (tab : htab) (hz : tab.size ≠ 0) (n : Nat) :
    ∀ (mem : List page) (s : List Char), edge_loop n tab mem s ≠ .error Halt.sigfpe := by
  induction n with
  | zero => intro mem s h; simp [edge_loop] at h
  | succ n ih =>
    intro mem s h
    unfold edge_loop at h
    cases hf : fgets MAX_LINE s with
    | none => rw [hf] at h; simp at h
    | some lr =>
      obtain ⟨line, rest⟩ := lr
      rw [hf] at h
      simp only at h
      cases hs : sscanf_s_s line with
      | none => rw [hs] at h; simp at h
      | some pr =>
        obtain ⟨a, b⟩ := pr
        rw [hs] at h
        simp only at h
        rw [if_neg hz] at h
        cases h1 : hsearch_FIND tab a with
        | none => rw [h1] at h; simp at h
        | some e1 =>
          rw [h1] at h
          simp only at h
          cases h2 : hsearch_FIND tab b with
          | none => rw [h2] at h; simp at h
          | some e2 =>
            rw [h2] at h
            exact ih _ _ h

/-! ## The checks and the lines -/

/-- The run of `init` in terms of its checks and of the edge loop. -/
theorem init_eq_checks (argv : List (List Char)) (stdin : List Char) :
    init argv stdin =
      match init_checks argv stdin with
      | .error msg => .error msg
      | .ok (nthreads, d, np, st, ne, s4) =>
        match edge_loop ne st.tab st.mem s4 with
        | .error msg => .error msg
        | .ok mem => .ok { mem := mem, list := st.list, npages := np, nedges := ne,
                           nthreads := nthreads, dampener := d } := by
  unfold init init_checks
  cases read_threads argv with
  | error m => rfl
  | ok nthreads =>
    simp only
    cases read_dampener stdin with
    | error m => rfl
    | ok r2 =>
      obtain ⟨d, s1⟩ := r2
      simp only
      cases read_npages s1 with
      | error m => rfl
      | ok r3 =>
        obtain ⟨np, s2⟩ := r3
        simp only
        cases page_loop np 0 ⟨[], [], hcreate np⟩ s2 with
        | error m => rfl
        | ok r4 =>
          obtain ⟨st, s3⟩ := r4
          simp only
          cases read_nedges s3 with
          | error m => rfl
          | ok r5 =>
            obtain ⟨ne, s4⟩ := r5
            rfl

/-- The dampener check on a first line that does not read as NaN: it passes
exactly when the line parses to a real in `[0, 1]`. -/
theorem read_dampener_of_fgets (s l1 s1 : List Char) (hf : fgets MAX_LINE s = some (l1, s1))
    (hnan : sscanf_lf l1 ≠ some .nan) :
    (realInUnit l1 = false ∧ read_dampener s = .error "Invalid dampening factor") ∨
    (realInUnit l1 = true ∧ ∃ d, read_dampener s = .ok (d, s1)) := by
  unfold read_dampener realInUnit
  simp only [hf]
  cases hd : sscanf_lf l1 with
  | none => left; exact ⟨rfl, rfl⟩
  | some d =>
    cases d with
    | nan => exact absurd hd hnan
    | negzero => right; exact ⟨rfl, _, rfl⟩
    | inf neg =>
      left
      refine ⟨rfl, ?_⟩
      cases neg <;> rfl
    | finite q =>
      simp only [CDouble.ltZero, CDouble.gtOne]
      by_cases hq : 0 ≤ q ∧ q ≤ 1
      · right
        have h1 : ¬ q < 0 := not_lt.2 hq.1
        have h2 : ¬ 1 < q := not_lt.2 hq.2
        simp only [hq, h1, h2, decide_True, decide_False, and_self, Bool.or_self]
        exact ⟨trivial, _, rfl⟩
      · left
        have h3 : q < 0 ∨ 1 < q := by
          by_contra hc
          simp only [not_or, not_lt] at hc
          exact hq hc
        have h4 : (decide (q < 0) || decide (1 < q)) = true := by
          rcases h3 with h | h <;> simp [h]
        simp only [hq, decide_False, h4, if_true]
        exact ⟨trivial, trivial⟩

theorem read_count_of_fgets (msg : String) (s l s1 : List Char)
    (hf : fgets MAX_LINE s = some (l, s1)) :
    read_count msg s =
      match sscanf_zu l with
      | none => .error msg
      | some n => if n = 0 then .error msg else .ok (n, s1) := by
  unfold read_count
  simp only [hf]

theorem read_count_of_eof (msg : String) (s : List Char) (hf : fgets MAX_LINE s = none) :
    read_count msg s = .error msg := by
  unfold read_count
  simp only [hf]

/-- After a page loop from the empty table, the table finds exactly the names
of the lines read, each cut to 20 characters. -/
theorem table_after_page_loop (np : Nat) (s : List Char) (st : loader) (s' : List Char)
    (h : page_loop np 0 ⟨[], [], hcreate np⟩ s = .ok (st, s')) (key : List Char) :
    hsearch_FIND st.tab key = none ↔
      key ∉ (read_lines np s).map (fun l => (firstToken l).take (MAX_NAME - 1)) := by
  obtain ⟨names, hlen, hrd, _, _, _, _, htab⟩ := page_loop_ok _ _ _ _ _ _ h
  simp only [List.nil_append, List.length_nil, hcreate_table] at htab
  rw [← hlen] at htab
  have hnames : names = (read_lines np s).map (fun l => (firstToken l).take (MAX_NAME - 1)) := by
    apply eq_map_of_map_some sscanf_s _ _ _ hrd
    intro r _ a ha
    exact (sscanf_s_some r a ha).1
  rw [← hnames, ← lookup_eq_none, lookup_after_page_loop names st.tab htab, find_page_none]

/-- The checks before the edge loop against the checks on the lines, on a
first line that does not read as NaN: either a check fails in `init` and the
same check fails on the lines, with the same message, or all pass and what is
left is the check of the edge lines against the names the table finds. -/
theorem checks_message (argv : List (List Char)) (stdin : List Char)
    (hnan : sscanf_lf ((all_lines stdin).getD 0 []) ≠ some .nan)
    (hmax : ∀ n, sscanf_zu ((all_lines stdin).getD 1 []) = some n → n ≤ HCREATE_MAX) :
    (∃ msg : String, init_checks argv stdin = .error msg ∧
      ∀ names_of, acceptance_message names_of argv stdin = some msg) ∨
    (∃ nthreads d np st ne s4 declared,
      init_checks argv stdin = .ok (nthreads, d, np, st, ne, s4) ∧
      (∀ names_of, acceptance_message names_of argv stdin
        = edges_message names_of declared ne (all_lines s4)) ∧
      (∀ key, hsearch_FIND st.tab key = none ↔ key ∉ declared)) := by
  unfold acceptance_message init_checks
  by_cases h1 : argv.length ≠ 2
  · left
    exact ⟨"Usage: pagerank <threads>", by simp [read_threads, h1], fun _ => by simp [h1]⟩
  by_cases h2 : toSizeT (atoi (argv.getD 1 [])) = 0
  · left
    have ht : read_threads argv = .error "Invalid number of threads" := by
      unfold read_threads
      simp only [h1, if_false, h2]
      rfl
    exact ⟨"Invalid number of threads", by simp only [ht],
      fun _ => by simp only [h1, if_false, h2, if_true]⟩
  have ht : read_threads argv = .ok (toSizeT (atoi (argv.getD 1 []))) := by
    unfold read_threads
    have : ¬ toSizeT (atoi (argv.getD 1 [])) < 1 := by omega
    simp only [h1, if_false, this]
  simp only [ht, h1, if_false, h2]
  -- line 1
  cases hf1 : fgets MAX_LINE stdin with
  | none =>
    left
    have : read_dampener stdin = .error "Invalid dampening factor" := by
      simp [read_dampener, hf1]
    exact ⟨"Invalid dampening factor", by simp only [this],
      fun _ => by rw [all_lines_none _ hf1]; rfl⟩
  | some lr1 =>
    obtain ⟨l1, s1⟩ := lr1
    have hL1 := all_lines_some _ _ _ hf1
    rw [hL1] at hnan hmax
    simp only [List.getD_cons_zero] at hnan
    rw [hL1]
    unfold lines_message
    rcases read_dampener_of_fgets stdin l1 s1 hf1 hnan with ⟨hr, hd⟩ | ⟨hr, d, hd⟩
    · left
      exact ⟨"Invalid dampening factor", by simp only [hd],
        fun _ => by simp only [hr, if_true]⟩
    simp only [hd, hr, Bool.true_eq_false, if_false]
    -- line 2
    cases hf2 : fgets MAX_LINE s1 with
    | none =>
      left
      have := read_count_of_eof "Invalid number of pages" s1 hf2
      exact ⟨"Invalid number of pages", by simp only [read_npages, this],
        fun _ => by rw [all_lines_none _ hf2]⟩
    | some lr2 =>
      obtain ⟨l2, s2⟩ := lr2
      have hc2 := read_count_of_fgets "Invalid number of pages" s1 l2 s2 hf2
      rw [all_lines_some _ _ _ hf2] at hmax
      rw [all_lines_some _ _ _ hf2]
      simp only [read_npages, hc2]
      cases hz2 : sscanf_zu l2 with
      | none => left; exact ⟨"Invalid number of pages", rfl, fun _ => rfl⟩
      | some np =>
        simp only
        by_cases hnp : np = 0
        · left
          simp only [hnp, if_true]
          exact ⟨"Invalid number of pages", rfl, fun _ => rfl⟩
        simp only [hnp, if_false]
        -- the name lines
        have hcap : (loader.mk [] [] (hcreate np)).tab.table.length + np
            ≤ (loader.mk [] [] (hcreate np)).tab.size :=
          hcreate_room np (hcreate_created np (hmax np hz2))
        obtain ⟨hp1, hp2⟩ := page_loop_message np 0 ⟨[], [], hcreate np⟩ s2 hcap
        rw [read_lines_eq_take] at hp1 hp2
        by_cases hnames : ((all_lines s2).take np).length = np ∧
            ∀ l ∈ (all_lines s2).take np, firstToken l ≠ []
        · obtain ⟨st, hst⟩ := hp1 hnames
          simp only [hst, if_neg (not_not_intro hnames)]
          have htab := table_after_page_loop np s2 st _ hst
          rw [read_lines_eq_take] at htab
          rw [← all_lines_drop]
          -- the edge count line
          cases hf3 : fgets MAX_LINE (drop_lines np s2) with
          | none =>
            left
            have := read_count_of_eof "Invalid number of edges" _ hf3
            exact ⟨"Invalid number of edges", by simp only [read_nedges, this],
              fun _ => by rw [all_lines_none _ hf3]⟩
          | some lr3 =>
            obtain ⟨l3, s4⟩ := lr3
            have hc3 := read_count_of_fgets "Invalid number of edges" _ l3 s4 hf3
            rw [all_lines_some _ _ _ hf3]
            simp only [read_nedges, hc3]
            cases hz3 : sscanf_zu l3 with
            | none => left; exact ⟨"Invalid number of edges", rfl, fun _ => rfl⟩
            | some ne =>
              simp only
              by_cases hne : ne = 0
              · left
                simp only [hne, if_true]
                exact ⟨"Invalid number of edges", rfl, fun _ => rfl⟩
              right
              simp only [hne, if_false]
              exact ⟨_, d, np, st, ne, s4,
                ((all_lines s2).take np).map (fun l => (firstToken l).take (MAX_NAME - 1)),
                rfl, fun _ => rfl, htab⟩
        · left
          have := hp2 hnames
          simp only [this, if_pos hnames]
          exact ⟨"Unexpected EOF while reading page names", rfl, fun _ => rfl⟩

/-! ## The lines that `init` reads decide its result -/

theorem fgets_of_read_lines (m : Nat) (s l : List Char) (rest : List (List Char))
    (h : read_lines (m + 1) s = l :: rest) :
    ∃ r, fgets MAX_LINE s = some (l, r) ∧ read_lines m r = rest := by
  cases hf : fgets MAX_LINE s with
  | none =>
    rw [read_lines_none _ _ hf] at h
    exact absurd h (by simp)
  | some lr =>
    obtain ⟨line, r⟩ := lr
    rw [read_lines_some _ _ _ _ hf] at h
    simp only [List.cons.injEq] at h
    exact ⟨r, by rw [h.1], h.2⟩

theorem read_lines_take_of_eq (m n : Nat) (a b : List Char) (hmn : m ≤ n)
    (h : read_lines n a = read_lines n b) : read_lines m a = read_lines m b := by
  have e : ∀ x : List Char, read_lines m x = (read_lines n x).take m := by
    intro x
    rw [read_lines_eq_take, read_lines_eq_take, List.take_take, Nat.min_eq_left hmn]
  rw [e a, e b, h]

theorem read_lines_drop_lines (m k : Nat) (a : List Char) :
    read_lines k (drop_lines m a) = (read_lines (m + k) a).drop m := by
  rw [read_lines_eq_take, read_lines_eq_take, all_lines_drop, List.take_drop]

/-- A read of a line that succeeds on an input succeeds with the same result on
every input with the same next line, and the lines after it stay equal. -/
theorem read_count_congr (msg : String) (m n : Nat) (s r s' : List Char)
    (h : read_count msg s = .ok (n, r))
    (hl : read_lines (m + 1) s' = read_lines (m + 1) s) :
    ∃ r', read_count msg s' = .ok (n, r') ∧ read_lines m r' = read_lines m r := by
  obtain ⟨line, hf, hz, hpos, _⟩ := read_count_ok _ _ _ _ h
  rw [read_lines_some _ _ _ _ hf] at hl
  obtain ⟨r', hf', hr'⟩ := fgets_of_read_lines m s' line _ hl
  refine ⟨r', ?_, hr'⟩
  rw [read_count_of_fgets msg s' line r' hf', hz]
  have : n ≠ 0 := by omega
  simp only [this, if_false]

theorem read_dampener_congr (m : Nat) (d : CDouble) (s r s' : List Char)
    (h : read_dampener s = .ok (d, r))
    (hl : read_lines (m + 1) s' = read_lines (m + 1) s) :
    ∃ r', read_dampener s' = .ok (d, r') ∧ read_lines m r' = read_lines m r := by
  obtain ⟨line, hf, hd, h1, h2⟩ := read_dampener_ok _ _ _ h
  rw [read_lines_some _ _ _ _ hf] at hl
  obtain ⟨r', hf', hr'⟩ := fgets_of_read_lines m s' line _ hl
  refine ⟨r', ?_, hr'⟩
  unfold read_dampener
  simp [hf', hd, h1, h2]

/-- The page loop reads `n` lines and nothing else. -/
theorem page_loop_congr (n : Nat) : ∀ (i : Nat) (st : loader) (s s' : List Char) (st1 : loader)
    (r1 : List Char), page_loop n i st s = .ok (st1, r1) →
    read_lines n s' = read_lines n s →
    page_loop n i st s' = .ok (st1, drop_lines n s') := by
  induction n with
  | zero =>
    intro i st s s' st1 r1 h _
    simp only [page_loop, Except.ok.injEq, Prod.mk.injEq] at h
    simp only [page_loop, drop_lines, h.1]
  | succ n ih =>
    intro i st s s' st1 r1 h hl
    unfold page_loop at h
    cases hf : fgets MAX_LINE s with
    | none => rw [hf] at h; exact absurd h (by simp)
    | some lr =>
      obtain ⟨line, rest⟩ := lr
      rw [hf] at h
      simp only at h
      rw [read_lines_some _ _ _ _ hf] at hl
      obtain ⟨r', hf', hr'⟩ := fgets_of_read_lines n s' line _ hl
      cases hs : sscanf_s line with
      | none => rw [hs] at h; exact absurd h (by simp)
      | some name =>
        rw [hs] at h
        simp only at h
        by_cases hz : st.tab.size = 0
        · rw [if_pos hz] at h
          exact absurd h (by simp)
        rw [if_neg hz] at h
        cases he : hsearch_ENTER st.tab (name, st.mem.length) with
        | none => rw [he] at h; exact absurd h (by simp)
        | some e =>
          obtain ⟨old, tab⟩ := e
          rw [he] at h
          simp only at h
          have := ih _ _ rest r' st1 r1 h hr'
          unfold page_loop
          simp only [hf', hs, he, if_neg hz]
          rw [this, drop_lines_some _ _ _ _ hf']

/-- The edge loop reads `n` lines and nothing else. -/
theorem edge_loop_congr (tab : htab) (n : Nat) : ∀ (mem : List page) (s s' : List Char)
    (mem1 : List page), edge_loop n tab mem s = .ok mem1 →
    read_lines n s' = read_lines n s → edge_loop n tab mem s' = .ok mem1 := by
  induction n with
  | zero =>
    intro mem s s' mem1 h _
    simpa [edge_loop] using h
  | succ n ih =>
    intro mem s s' mem1 h hl
    unfold edge_loop at h
    cases hf : fgets MAX_LINE s with
    | none => rw [hf] at h; exact absurd h (by simp)
    | some lr =>
      obtain ⟨line, rest⟩ := lr
      rw [hf] at h
      simp only at h
      rw [read_lines_some _ _ _ _ hf] at hl
      obtain ⟨r', hf', hr'⟩ := fgets_of_read_lines n s' line _ hl
      cases hs : sscanf_s_s line with
      | none => rw [hs] at h; exact absurd h (by simp)
      | some pr =>
        obtain ⟨a, b⟩ := pr
        rw [hs] at h
        simp only at h
        by_cases hz : tab.size = 0
        · rw [if_pos hz] at h
          exact absurd h (by simp)
        rw [if_neg hz] at h
        cases h1 : hsearch_FIND tab a with
        | none => rw [h1] at h; exact absurd h (by simp)
        | some e1 =>
          rw [h1] at h
          simp only at h
          cases h2 : hsearch_FIND tab b with
          | none => rw [h2] at h; exact absurd h (by simp)
          | some e2 =>
            rw [h2] at h
            simp only at h
            unfold edge_loop
            simp only [hf', hs, h1, h2, if_neg hz]
            exact ih _ rest r' mem1 h hr'

/-- A successful `init` reads the first `3 + npages + nedges` lines of its
input and nothing else: on every input with the same first lines it saves the
same config. -/
theorem init_congr (argv : List (List Char)) (stdin stdin' : List Char) (conf : config)
    (h : init argv stdin = .ok conf)
    (hl : read_lines (3 + conf.npages + conf.nedges) stdin'
      = read_lines (3 + conf.npages + conf.nedges) stdin) :
    init argv stdin' = .ok conf := by
  obtain ⟨s1, s2, st, s3, s4, h1, h2, h3, h4, h5, h6, h7⟩ := init_ok argv stdin conf h
  have e1 : 3 + conf.npages + conf.nedges = (2 + conf.npages + conf.nedges) + 1 := by omega
  rw [e1] at hl
  obtain ⟨s1', h2', hl1⟩ := read_dampener_congr _ _ _ _ _ h2 hl
  have e2 : 2 + conf.npages + conf.nedges = (conf.npages + (1 + conf.nedges)) + 1 := by omega
  rw [e2] at hl1
  obtain ⟨s2', h3', hl2⟩ := read_count_congr _ _ _ _ _ _ h3 hl1
  have hl3 : read_lines conf.npages s2' = read_lines conf.npages s2 :=
    read_lines_take_of_eq _ _ _ _ (by omega) hl2
  have h4' := page_loop_congr _ _ _ _ s2' _ _ h4 hl3
  obtain ⟨_, _, _, hdrop, _, _, _, _⟩ := page_loop_ok _ _ _ _ _ _ h4
  have hl4 : read_lines (conf.nedges + 1) (drop_lines conf.npages s2')
      = read_lines (conf.nedges + 1) s3 := by
    rw [hdrop, read_lines_drop_lines, read_lines_drop_lines]
    have e3 : conf.npages + (conf.nedges + 1) = conf.npages + (1 + conf.nedges) := by omega
    rw [e3, hl2]
  obtain ⟨s4', h5', hl5⟩ := read_count_congr _ _ _ _ _ _ h5 hl4
  have h6' := edge_loop_congr _ _ _ _ s4' _ h6 hl5
  have h3'' : read_npages s1' = .ok (conf.npages, s2') := h3'
  have h5'' : read_nedges (drop_lines conf.npages s2') = .ok (conf.nedges, s4') := h5'
  unfold init
  simp only [h1, h2', h3'', h4', h5'', h6', ← h7]

/-! ## The claims -/

/-- C1 (defect of the code): a thread count below 1 is not always rejected.
For the argument `-1`, `atoi` reads -1, the assignment to the `size_t`
`nthreads` turns it into `2 ^ 64 - 1`, the test `< 1` on that unsigned value
does not fire, and `init` succeeds storing `nthreads = 18446744073709551615`. -/
theorem init_accepts_negative_threads :
    atoi "-1".toList = -1 ∧
    init ["pagerank".toList, "-1".toList] sample_stdin
      = .ok { sample_conf with nthreads := 18446744073709551615 } := by
  decide

/-- C2 (defect of the code): page names are not made unique. On an input that
declares the name A on two name lines `init` saves a list with two pages named
A; the table keeps the first one only, so the second page can never be the end
of an edge, and the loop that frees the keys before `hdestroy` reaches that one
entry twice (once per page), the second time after its key was freed, where on
the sample, with distinct names, it reaches three different entries. -/
theorem init_accepts_duplicate_names :
    init sample_argv twice_stdin = .ok twice_conf ∧
    twice_conf.pages.map (fun p => p.name) = [['A'], ['A']] ∧
    ¬ (twice_conf.pages.map (fun p => p.name)).Nodup ∧
    init_freed_keys sample_argv twice_stdin = [0, 0] ∧
    init_freed_keys sample_argv sample_stdin = [0, 1, 2] := by
  decide

/-- C3: dense indexing. After a successful `init` the list holds exactly
`npages` nodes; for every `k < npages` the `k`-th node holds a page whose
`index` is `k` and whose name is the one read on the `k`-th name line (line
`2 + k` of the input as `fgets` delivers it); the indexes of the list are
`0 .. npages - 1` in order, each once. -/
theorem dense_indexing (argv : List (List Char)) (stdin : List Char) (conf : config)
    (h : init argv stdin = .ok conf) :
    conf.list.length = conf.npages ∧ conf.pages.length = conf.npages ∧
    (∀ k, k < conf.npages → ∃ a p, conf.list[k]? = some a ∧ conf.mem[a]? = some p ∧
      conf.pages[k]? = some p ∧ p.index = k ∧
      sscanf_s ((read_lines (2 + conf.npages) stdin).getD (2 + k) []) = some p.name) ∧
    conf.pages.map (fun p => p.index) = List.range conf.npages := by
  obtain ⟨t⟩ := init_trace argv stdin conf h
  have hpages := t.pages_eq
  have hlen := t.mem_length
  refine ⟨by rw [t.list_eq, List.length_range'], by rw [hpages, hlen], ?_, ?_⟩
  · intro k hk
    have hkm : k < conf.mem.length := by rw [hlen]; exact hk
    obtain ⟨hname, hidx, _, _⟩ := t.page_of_mem k conf.mem[k] (List.getElem?_eq_getElem hkm)
    refine ⟨k, conf.mem[k], ?_, List.getElem?_eq_getElem hkm, ?_, hidx, t.name_at k _ hname⟩
    · rw [t.list_eq, List.getElem?_eq_getElem (by rw [List.length_range']; exact hk)]
      simp [List.getElem_range']
    · rw [hpages]
      exact List.getElem?_eq_getElem hkm
  · rw [hpages]
    apply List.ext_getElem?
    intro k
    by_cases hk : k < conf.mem.length
    · obtain ⟨_, hidx, _, _⟩ := t.page_of_mem k conf.mem[k] (List.getElem?_eq_getElem hk)
      rw [List.getElem?_map, List.getElem?_eq_getElem hk, Option.map_some', hidx,
        List.getElem?_range (by rw [← hlen]; exact hk)]
    · have hk' : conf.mem.length ≤ k := Nat.le_of_not_lt hk
      rw [List.getElem?_eq_none (by simpa using hk'),
        List.getElem?_eq_none (by simpa [hlen] using hk')]

/-- The sample run for C3: three nodes, holding the pages of indexes 0, 1, 2. -/
theorem dense_indexing_witness :
    init sample_argv sample_stdin = .ok sample_conf ∧
    sample_conf.list.length = 3 ∧
    sample_conf.pages.map (fun p => p.index) = List.range 3 :=
  ⟨by decide, (dense_indexing sample_argv sample_stdin sample_conf (by decide)).1,
    (dense_indexing sample_argv sample_stdin sample_conf (by decide)).2.2.2⟩

/-- C6: no dangling inlink source. After a successful `init`, every address in
the inlinks of a page of the list is the address of a page with
`noutlinks >= 1`. -/
theorem inlink_source_has_outlink (argv : List (List Char)) (stdin : List Char)
    (conf : config) (h : init argv stdin = .ok conf) :
    ∀ p ∈ conf.pages, ∀ a ∈ p.inlinks, ∃ q, conf.mem[a]? = some q ∧ 1 ≤ q.noutlinks := by
  obtain ⟨t⟩ := init_trace argv stdin conf h
  intro p hp a ha
  rw [t.pages_eq] at hp
  obtain ⟨k, hk⟩ := List.mem_iff_getElem?.1 hp
  obtain ⟨_, _, _, hin⟩ := t.page_of_mem k p hk
  rw [hin] at ha
  simp only [List.mem_reverse, List.mem_map, List.mem_filter, decide_eq_true_eq] at ha
  obtain ⟨e, ⟨hemem, _⟩, hea⟩ := ha
  have halt : a < conf.mem.length := by
    rw [t.mem_length, ← hea]
    exact (t.edge_lt e hemem).1
  obtain ⟨_, _, hout, _⟩ := t.page_of_mem a conf.mem[a] (List.getElem?_eq_getElem halt)
  refine ⟨conf.mem[a], List.getElem?_eq_getElem halt, ?_⟩
  rw [hout]
  exact List.countP_pos_iff.2 ⟨e, hemem, by simpa using hea⟩

/-- The sample run for C6: the inlinks of C are the addresses 1 and 0, of the
pages B and A, and the page at address 1 has an outlink. -/
theorem inlink_source_has_outlink_witness :
    init sample_argv sample_stdin = .ok sample_conf ∧
    sample_conf.pages[2]? = some { name := ['C'], index := 2, noutlinks := 0, inlinks := [1, 0] } ∧
    (∃ q, sample_conf.mem[1]? = some q ∧ 1 ≤ q.noutlinks) :=
  ⟨by decide, by decide,
    inlink_source_has_outlink sample_argv sample_stdin sample_conf (by decide)
      { name := ['C'], index := 2, noutlinks := 0, inlinks := [1, 0] } (by decide) 1 (by decide)⟩

/-- C7: graph closure. After a successful `init`, every address in the inlinks
of a page of the list is held by a node of the list, and the page stored there
is a page of the list with an index below `npages`. -/
theorem inlinks_closed (argv : List (List Char)) (stdin : List Char) (conf : config)
    (h : init argv stdin = .ok conf) :
    ∀ p ∈ conf.pages, ∀ a ∈ p.inlinks,
      a ∈ conf.list ∧ ∃ q, conf.mem[a]? = some q ∧ q ∈ conf.pages ∧ q.index < conf.npages := by
  obtain ⟨t⟩ := init_trace argv stdin conf h
  intro p hp a ha
  have hpages := t.pages_eq
  rw [hpages] at hp
  obtain ⟨k, hk⟩ := List.mem_iff_getElem?.1 hp
  obtain ⟨_, _, _, hin⟩ := t.page_of_mem k p hk
  rw [hin] at ha
  simp only [List.mem_reverse, List.mem_map, List.mem_filter, decide_eq_true_eq] at ha
  obtain ⟨e, ⟨hemem, _⟩, hea⟩ := ha
  have hlt : a < conf.npages := by
    rw [← hea]
    exact (t.edge_lt e hemem).1
  have halt : a < conf.mem.length := by rw [t.mem_length]; exact hlt
  obtain ⟨_, hidx, _, _⟩ := t.page_of_mem a conf.mem[a] (List.getElem?_eq_getElem halt)
  refine ⟨?_, conf.mem[a], List.getElem?_eq_getElem halt, ?_, ?_⟩
  · rw [t.list_eq, List.mem_range']
    exact ⟨a, hlt, by omega⟩
  · rw [hpages]
    exact List.getElem_mem halt
  · rw [hidx]
    exact hlt

/-- The sample run for C7: the address 0 in the inlinks of C is a node of the
list, and the page stored there is a page of the list with an index below 3. -/
theorem inlinks_closed_witness :
    init sample_argv sample_stdin = .ok sample_conf ∧
    (0 ∈ sample_conf.list ∧
      ∃ q, sample_conf.mem[0]? = some q ∧ q ∈ sample_conf.pages ∧ q.index < sample_conf.npages) :=
  ⟨by decide,
    inlinks_closed sample_argv sample_stdin sample_conf (by decide)
      { name := ['C'], index := 2, noutlinks := 0, inlinks := [1, 0] } (by decide) 0 (by decide)⟩

/-- C9 (defect of the code): the dampening factor stored is not always in
`[0, 1]`. The line `nan` is converted by `%lf` to NaN, both comparisons
`dampener < 0` and `dampener > 1` are false on NaN, and `init` succeeds
storing NaN, which does not satisfy `0 <= dampener <= 1`. -/
theorem init_accepts_nan_dampener :
    init sample_argv nan_stdin = .ok { sample_conf with dampener := .nan } ∧
    ¬ CDouble.inUnit .nan := by
  decide

/-- C10: zero counts are rejected. A successful `init` stores `npages >= 1` and
`nedges >= 1`; when the checks before it pass, a page count line that reads 0
gives "Invalid number of pages", and an edge count line that reads 0 gives
"Invalid number of edges". -/
theorem zero_counts_rejected (argv : List (List Char)) (stdin : List Char) :
    (∀ conf, init argv stdin = .ok conf → 1 ≤ conf.npages ∧ 1 ≤ conf.nedges) ∧
    (∀ t d s1 line s2, read_threads argv = .ok t → read_dampener stdin = .ok (d, s1) →
      fgets MAX_LINE s1 = some (line, s2) → sscanf_zu line = some 0 →
      init argv stdin = .error "Invalid number of pages") ∧
    (∀ t d s1 n s2 st s3 line s4, read_threads argv = .ok t →
      read_dampener stdin = .ok (d, s1) → read_npages s1 = .ok (n, s2) →
      page_loop n 0 ⟨[], [], hcreate n⟩ s2 = .ok (st, s3) →
      fgets MAX_LINE s3 = some (line, s4) → sscanf_zu line = some 0 →
      init argv stdin = .error "Invalid number of edges") := by
  refine ⟨?_, ?_, ?_⟩
  · intro conf h
    obtain ⟨t⟩ := init_trace argv stdin conf h
    exact ⟨t.npages_pos, t.nedges_pos⟩
  · intro t d s1 line s2 h1 h2 hf hz
    simp [init, h1, h2, read_npages, read_count, hf, hz]
  · intro t d s1 n s2 st s3 line s4 h1 h2 h3 h4 hf hz
    simp [init, h1, h2, h3, h4, read_nedges, read_count, hf, hz]

/-- Both zero counts of C10 on concrete inputs, and the counts of the sample. -/
theorem zero_counts_rejected_witness :
    init sample_argv "0.85\n0\n".toList = .error "Invalid number of pages" ∧
    init sample_argv "0.85\n1\nA\n0\n".toList = .error "Invalid number of edges" ∧
    (1 ≤ sample_conf.npages ∧ 1 ≤ sample_conf.nedges) :=
  ⟨(zero_counts_rejected sample_argv "0.85\n0\n".toList).2.1 2 (.finite (mkRat 7656119366529843 9007199254740992))
      "0\n".toList "0\n".toList [] (by decide) (by decide) (by decide) (by decide),
   (zero_counts_rejected sample_argv "0.85\n1\nA\n0\n".toList).2.2 2 (.finite (mkRat 7656119366529843 9007199254740992))
      "1\nA\n0\n".toList 1 "A\n0\n".toList
      ⟨[{ name := ['A'], index := 0, noutlinks := 0, inlinks := [] }], [0], ⟨3, [(['A'], 0)]⟩⟩
      "0\n".toList "0\n".toList [] (by decide) (by decide) (by decide) (by decide) (by decide)
      (by decide),
   (zero_counts_rejected sample_argv sample_stdin).1 sample_conf (by decide)⟩

/-- C11: edge-count conservation. After a successful `init`, with no
assumption on the names, the `noutlinks` of the pages of the list add up to
`nedges`, the lengths of their inlinks lists add up to `nedges`, and the
`noutlinks` of every page of the list is the number of occurrences of its
address in all the inlinks lists. -/
theorem edge_count_conservation (argv : List (List Char)) (stdin : List Char) (conf : config)
    (h : init argv stdin = .ok conf) :
    (conf.pages.map (fun p => p.noutlinks)).sum = conf.nedges ∧
    (conf.pages.map (fun p => p.inlinks.length)).sum = conf.nedges ∧
    ∀ a ∈ conf.list, ∀ q, conf.mem[a]? = some q →
      q.noutlinks = (conf.pages.map (fun p => p.inlinks.count a)).sum := by
  obtain ⟨t⟩ := init_trace argv stdin conf h
  have hlt1 : ∀ e ∈ t.edges, e.1 < conf.npages := fun e he => (t.edge_lt e he).1
  have hlt2 : ∀ e ∈ t.edges, e.2 < conf.npages := fun e he => (t.edge_lt e he).2
  rw [t.pages_eq]
  refine ⟨?_, ?_, ?_⟩
  · rw [t.map_mem (fun p => p.noutlinks)
      (fun k => t.edges.countP (fun e => decide (e.1 = k) && true))
      (fun k p hp => by
        obtain ⟨_, _, hout, _⟩ := t.page_of_mem k p hp
        simp only [hout, Bool.and_true])]
    rw [sum_countP_fibers Prod.fst (fun _ => true) conf.npages t.edges hlt1]
    simp [t.edges_length]
  · rw [t.map_mem (fun p => p.inlinks.length)
      (fun k => t.edges.countP (fun e => decide (e.2 = k) && true))
      (fun k p hp => by
        obtain ⟨_, _, _, hin⟩ := t.page_of_mem k p hp
        simp only [hin, List.length_reverse, List.length_map, Bool.and_true,
          List.countP_eq_length_filter])]
    rw [sum_countP_fibers Prod.snd (fun _ => true) conf.npages t.edges hlt2]
    simp [t.edges_length]
  · intro a _ q hq
    obtain ⟨_, _, hout, _⟩ := t.page_of_mem a q hq
    rw [t.map_mem (fun p => p.inlinks.count a)
      (fun k => t.edges.countP (fun e => decide (e.2 = k) && decide (e.1 = a)))
      (fun k p hp => by
        obtain ⟨_, _, _, hin⟩ := t.page_of_mem k p hp
        show List.count a p.inlinks
          = List.countP (fun e => decide (e.2 = k) && decide (e.1 = a)) t.edges
        rw [hin, List.count_reverse, List.count_eq_countP, List.countP_map,
          List.countP_filter]
        apply List.countP_congr
        intro e _
        simp [Bool.and_comm])]
    rw [sum_countP_fibers Prod.snd (fun e => decide (e.1 = a)) conf.npages t.edges hlt2, hout]

/-- The sample run for C11: the outlinks 1, 1, 0 and the inlinks lengths 0, 0, 2
both add up to the 2 edges, and A, at address 0, occurs once in the inlinks. -/
theorem edge_count_conservation_witness :
    init sample_argv sample_stdin = .ok sample_conf ∧
    (sample_conf.pages.map (fun p => p.noutlinks)).sum = 2 ∧
    (sample_conf.pages.map (fun p => p.inlinks.length)).sum = 2 ∧
    (1 : Nat) = (sample_conf.pages.map (fun p => p.inlinks.count 0)).sum :=
  ⟨by decide,
    (edge_count_conservation sample_argv sample_stdin sample_conf (by decide)).1,
    (edge_count_conservation sample_argv sample_stdin sample_conf (by decide)).2.1,
    (edge_count_conservation sample_argv sample_stdin sample_conf (by decide)).2.2 0
      (by decide) { name := ['A'], index := 0, noutlinks := 1, inlinks := [] } (by decide)⟩

/-- C13, the claim as stated fails: on `blank_name_stdin`, an input without NUL
characters whose first name line holds 98 blanks before the name `ABC`, `init`
succeeds, and the two pages are named `A` and `BC`, the two parts of `ABC` that
two reads of at most 99 characters deliver, where the first names of the two
name lines (lines 3 and 4 of the input) are `ABC` and `1`. -/
theorem stored_names_counterexample :
    init sample_argv blank_name_stdin = .ok blank_name_conf ∧
    NoNul blank_name_stdin ∧
    blank_name_conf.pages.map (fun p => p.name) = [['A'], ['B', 'C']] ∧
    (inputNameLines blank_name_stdin blank_name_conf.npages).map
      (fun l => (firstToken l).take (MAX_NAME - 1)) = [['A', 'B', 'C'], ['1']] ∧
    ¬ StoredNames blank_name_stdin blank_name_conf := by
  decide

/-- C13, amended: on an input without NUL characters on which `init` succeeds,
the name stored in the `k`-th page of the list is the first name, cut to its
first 20 characters, of the line that the read of the `k`-th name delivers (line
`2 + k` of those that `fgets` delivers); it is not empty, holds no whitespace
and fits `name[MAX_NAME]` with its terminator. When the first `2 + npages` lines
of the input are shorter than 100 characters, that line is the `k`-th name line
of the input: each stored name is the first name of its name line cut to 20
characters, a name of more than 20 characters being cut and not rejected, and
two name lines whose first names agree on their first 20 characters give two
pages with the same stored name. -/
theorem stored_names_truncated (argv : List (List Char)) (stdin : List Char) (conf : config)
    (h : init argv stdin = .ok conf) (_hnul : NoNul stdin) :
    (∀ k p, conf.pages[k]? = some p →
      p.name = (firstToken ((read_lines (2 + conf.npages) stdin).getD (2 + k) [])).take
        (MAX_NAME - 1) ∧
      p.name ≠ [] ∧ (∀ c ∈ p.name, isspace c = false) ∧ p.name.length + 1 ≤ MAX_NAME) ∧
    (ShortLines stdin (2 + conf.npages) →
      StoredNames stdin conf ∧
      (inputNameLines stdin conf.npages).length = conf.npages ∧
      (∀ (j k : Nat) (lj lk : List Char) (pj pk : page),
        (inputNameLines stdin conf.npages)[j]? = some lj →
        (inputNameLines stdin conf.npages)[k]? = some lk →
        conf.pages[j]? = some pj → conf.pages[k]? = some pk →
        (firstToken lj).take (MAX_NAME - 1) = (firstToken lk).take (MAX_NAME - 1) →
        pj.name = pk.name)) := by
  obtain ⟨t⟩ := init_trace argv stdin conf h
  have hcut : ∀ k p, conf.pages[k]? = some p →
      p.name = (firstToken ((read_lines (2 + conf.npages) stdin).getD (2 + k) [])).take
        (MAX_NAME - 1) ∧
      firstToken ((read_lines (2 + conf.npages) stdin).getD (2 + k) []) ≠ [] := by
    intro k p hp
    rw [t.pages_eq] at hp
    obtain ⟨hname, _, _, _⟩ := t.page_of_mem k p hp
    exact sscanf_s_some _ _ (t.name_at k p.name hname)
  refine ⟨?_, ?_⟩
  · intro k p hp
    obtain ⟨heq, hne⟩ := hcut k p hp
    refine ⟨heq, ?_, ?_, ?_⟩
    · rw [heq]
      intro h0
      exact hne ((take_eq_nil_of_pos _ (by decide) _).1 h0)
    · intro c hc
      rw [heq] at hc
      exact firstToken_nonspace _ c (List.mem_of_mem_take hc)
    · rw [heq]
      have := List.length_take_le (MAX_NAME - 1)
        (firstToken ((read_lines (2 + conf.npages) stdin).getD (2 + k) []))
      have e : MAX_NAME = 21 := rfl
      omega
  · intro hs
    have hst : StoredNames stdin conf := by
      unfold StoredNames
      rw [t.names_of_pages, t.names_cut]
      exact t.name_lines_text (fun l => (firstToken l).take (MAX_NAME - 1)) cut_append_nl hs
    have hlen : (inputNameLines stdin conf.npages).length = conf.npages := by
      have := congrArg List.length hst
      simp only [List.length_map] at this
      rw [← this, t.pages_eq, t.mem_length]
    refine ⟨hst, hlen, ?_⟩
    intro j k lj lk pj pk hj hk hpj hpk hjk
    have h1 := congrArg (fun l => l[j]?) hst
    have h2 := congrArg (fun l => l[k]?) hst
    simp only [List.getElem?_map, hj, hk, hpj, hpk, Option.map_some', Option.some.injEq]
      at h1 h2
    rw [h1, h2, hjk]

/-- The truncation of C13 on a run: the name lines `XXXXXXXXXXXXXXXXXXXXA` and
`XXXXXXXXXXXXXXXXXXXXB`, of 21 characters, are accepted and give two pages both
named by the 20 `X`. -/
theorem stored_names_truncated_witness :
    init sample_argv truncated_stdin = .ok truncated_conf ∧
    inputNameLines truncated_stdin 2
      = ["XXXXXXXXXXXXXXXXXXXXA".toList, "XXXXXXXXXXXXXXXXXXXXB".toList] ∧
    StoredNames truncated_stdin truncated_conf ∧
    truncated_conf.pages.map (fun p => p.name)
      = ["XXXXXXXXXXXXXXXXXXXX".toList, "XXXXXXXXXXXXXXXXXXXX".toList] :=
  ⟨by decide, by decide,
    ((stored_names_truncated sample_argv truncated_stdin truncated_conf (by decide)
      (by decide)).2 (by decide)).1,
    by decide⟩

/-- C14: release traversal. `release` is a total function of the page list, so
it terminates. On the list of a successful `init` it frees nothing twice, it
frees every node of the list, the page of every node and every node of every
inlinks chain, and it frees `npages` page records, `npages` list nodes and
`nedges` inlink nodes. -/
theorem release_traversal (argv : List (List Char)) (stdin : List Char) (conf : config)
    (h : init argv stdin = .ok conf) :
    (release conf.mem 0 conf.list).Nodup ∧
    (release conf.mem 0 conf.list).countP Freed.isPageRecord = conf.npages ∧
    (release conf.mem 0 conf.list).countP Freed.isListNode = conf.npages ∧
    (release conf.mem 0 conf.list).countP Freed.isInlinkNode = conf.nedges ∧
    (∀ j a, conf.list[j]? = some a →
      Freed.list_node j ∈ release conf.mem 0 conf.list ∧
      Freed.page_record a ∈ release conf.mem 0 conf.list ∧
      ∀ p i, conf.mem[a]? = some p → i < p.inlinks.length →
        Freed.inlink_node a i ∈ release conf.mem 0 conf.list) := by
  obtain ⟨t⟩ := init_trace argv stdin conf h
  obtain ⟨c1, c2, c3⟩ := countP_release conf.mem conf.list 0
  have hlen : conf.list.length = conf.npages := by rw [t.list_eq, List.length_range']
  have hnd : conf.list.Nodup := by rw [t.list_eq]; exact List.nodup_range' 0 conf.npages
  refine ⟨release_nodup conf.mem conf.list hnd 0, by rw [c1, hlen], by rw [c2, hlen], ?_, ?_⟩
  · rw [c3]
    exact t.sum_inlinks_length
  · intro j a hj
    have := release_visits conf.mem conf.list 0 j a hj
    rw [Nat.zero_add] at this
    exact this

/-- The sample run for C14: `release` frees the 3 page records, the 3 list
nodes and the 2 inlink nodes, those of the chain of C, each once. -/
theorem release_traversal_witness :
    init sample_argv sample_stdin = .ok sample_conf ∧
    release sample_conf.mem 0 sample_conf.list
      = [.page_record 0, .list_node 0, .page_record 1, .list_node 1,
         .inlink_node 2 0, .inlink_node 2 1, .page_record 2, .list_node 2] ∧
    (release sample_conf.mem 0 sample_conf.list).Nodup ∧
    (release sample_conf.mem 0 sample_conf.list).countP Freed.isPageRecord = 3 ∧
    (release sample_conf.mem 0 sample_conf.list).countP Freed.isInlinkNode = 2 :=
  ⟨by decide, by decide,
    (release_traversal sample_argv sample_stdin sample_conf (by decide)).1,
    (release_traversal sample_argv sample_stdin sample_conf (by decide)).2.1,
    (release_traversal sample_argv sample_stdin sample_conf (by decide)).2.2.2.1⟩

/-- C12, the claim as stated fails, in three ways. A first line `nan` does not
parse to a real in `[0, 1]`, yet `init` succeeds. The edge line
`XXXXXXXXXXXXXXXXXXXXY Q` has the undeclared second token `Q`, yet `init`
succeeds, reading the edge from the 20 `X` to `Y`. The edge line
`XXXXXXXXXXXXXXXXXXXXQ Z` has two tokens that, cut to 20 characters, are
declared names, yet `init` prints "Unable to find page for Q". -/
theorem acceptance_counterexample :
    (init_message sample_argv nan_stdin = none ∧
      acceptance_message twoTokensCut sample_argv nan_stdin
        = some "Invalid dampening factor") ∧
    (init_message sample_argv undeclared_stdin = none ∧
      acceptance_message twoTokensCut sample_argv undeclared_stdin
        = some "Unable to find page for Q") ∧
    (init_message sample_argv cut_tokens_stdin = some "Unable to find page for Q" ∧
      acceptance_message twoTokensCut sample_argv cut_tokens_stdin = none) := by
  decide

/-- C12, amended: on an input without NUL characters whose first line does not
read as NaN and whose page count is one for which `hcreate` sets up a table (at
most 4294967291), `init` is not ended by a signal, succeeds exactly when all
the checks pass, and else prints the message of the first check that fails, in
this order: `argc = 2`; the thread argument converted to `size_t` is not zero;
line 1 is read by `%lf` as a double in `[0, 1]`; line 2 parses to a page count
of at least 1; each of the next `npages` lines exists and holds a token; the
following line parses to an edge count of at least 1; each of the next `nedges`
lines exists and yields two declared names, the first being its first token cut
to 20 characters and the second the first token of what follows these
characters, cut to 20 characters. The lines are those that `fgets` delivers. A
successful `init` has read `3 + npages + nedges` lines, and saves the same
config on every input with the same first `3 + npages + nedges` lines. -/
theorem acceptance (argv : List (List Char)) (stdin : List Char)
    (_hnul : NoNul stdin)
    (hnan : sscanf_lf ((all_lines stdin).getD 0 []) ≠ some .nan)
    (hmax : ∀ n, sscanf_zu ((all_lines stdin).getD 1 []) = some n → n ≤ HCREATE_MAX) :
    init argv stdin ≠ .error Halt.sigfpe ∧
    init_message argv stdin = acceptance_message splitNames argv stdin ∧
    ((∃ conf, init argv stdin = .ok conf) ↔
      acceptance_message splitNames argv stdin = none) ∧
    (∀ conf, init argv stdin = .ok conf →
      ((all_lines stdin).take (3 + conf.npages + conf.nedges)).length
        = 3 + conf.npages + conf.nedges) ∧
    (∀ conf stdin', init argv stdin = .ok conf →
      (all_lines stdin').take (3 + conf.npages + conf.nedges)
        = (all_lines stdin).take (3 + conf.npages + conf.nedges) →
      init argv stdin' = .ok conf) := by
  have hmain : (∃ m : String, init argv stdin = .error m ∧
        acceptance_message splitNames argv stdin = some m) ∨
      (∃ conf, init argv stdin = .ok conf ∧
        acceptance_message splitNames argv stdin = none) := by
    rw [init_eq_checks]
    rcases checks_message argv stdin hnan hmax with ⟨msg, hc, hacc⟩ | 
      ⟨nthreads, d, np, st, ne, s4, declared, hc, hacc, htab⟩
    · left
      exact ⟨msg, by rw [hc], hacc _⟩
    · rw [hc, hacc]
      simp only
      have hz := init_checks_size argv stdin nthreads d np st ne s4 hc
      have hm := edge_loop_message st.tab hz declared htab ne st.mem s4
      have hs := edge_loop_no_signal st.tab hz ne st.mem s4
      cases he : edge_loop ne st.tab st.mem s4 with
      | error e =>
        cases e with
        | exit m =>
          left
          rw [he] at hm
          exact ⟨m, rfl, hm.symm⟩
        | sigfpe => exact absurd he hs
      | ok mem =>
        right
        rw [he] at hm
        exact ⟨_, rfl, hm.symm⟩
  refine ⟨?_, ?_, ?_, ?_, ?_⟩
  · rcases hmain with ⟨m, h, _⟩ | ⟨conf, h, _⟩ <;> rw [h] <;> simp
  · unfold init_message
    rcases hmain with ⟨m, h, ha⟩ | ⟨conf, h, ha⟩ <;> rw [h, ha] <;> rfl
  · rcases hmain with ⟨m, h, ha⟩ | ⟨conf, h, ha⟩
    · rw [h, ha]
      simp
    · rw [ha]
      exact ⟨fun _ => rfl, fun _ => ⟨conf, h⟩⟩
  · intro conf h
    obtain ⟨t⟩ := init_trace argv stdin conf h
    rw [← read_lines_eq_take]
    exact t.lines_length
  · intro conf stdin' h hl
    rw [← read_lines_eq_take, ← read_lines_eq_take] at hl
    exact init_congr argv stdin stdin' conf h hl

/-- Runs for C12: the sample is accepted; an undeclared name is refused with
its message; an input that ends before the second edge is refused; the sample
followed by other lines gives the config of the sample. -/
theorem acceptance_witness :
    (init_message sample_argv sample_stdin = none ∧
      acceptance_message splitNames sample_argv sample_stdin = none) ∧
    acceptance_message splitNames sample_argv unknown_stdin
      = some "Unable to find page for D" ∧
    acceptance_message splitNames sample_argv "0.85\n3\nA\nB\nC\n2\nA C\n".toList
      = some "Invalid edge" ∧
    init sample_argv sample_more_stdin = .ok sample_conf :=
  ⟨⟨by decide,
      ((acceptance sample_argv sample_stdin (by decide) (by decide) (by decide)).2.1).symm.trans
        (by decide)⟩,
    ((acceptance sample_argv unknown_stdin (by decide) (by decide) (by decide)).2.1).symm.trans
      (by decide),
    ((acceptance sample_argv "0.85\n3\nA\nB\nC\n2\nA C\n".toList (by decide) (by decide)
      (by decide)).2.1).symm.trans (by decide),
    (acceptance sample_argv sample_stdin (by decide) (by decide) (by decide)).2.2.2.2
      sample_conf sample_more_stdin (by decide) (by decide)⟩

end PageRank
